import Mathlib

/-!
Verification of the task-schedule analyzer (`src/analyzer.rs`, `src/task.rs`).

Shallow embedding conventions:
* `TaskLabel` is `String` (Lean `String` compares characterwise, matching
  Rust `&str`'s byte-lexicographic order, which for UTF-8 agrees with
  codepoint order).  `Duration`/`TotalDuration` are `Nat`: the Rust types are
  `u16`/`u32` and Rust defines arithmetic overflow to be a program error
  (checked builds abort), so the defined, non-overflowing behaviour is the
  one embedded.
* `HashSet<TaskOrder>` / `HashMap<K,V>` are embedded as `List TaskOrder` /
  `List (K × V)` whose list order models the (arbitrary) iteration order of
  the hash containers; hypotheses `Nodup` state the set/map key uniqueness
  the real containers guarantee.  Map insertion updates in place, a fresh
  key is appended.
* `BinaryHeap<Reverse<TaskExecutionEndTime>>` is a min-queue on the
  `end_time` key; Rust leaves the order among equal keys unspecified (it
  depends on hash-dependent insertion order), and the embedding realizes it
  as a stable sorted list (ties pop in insertion order), one of the
  behaviours the Rust heap exhibits.
* The Rust `while` loop runs a data-dependent number of iterations; it is
  embedded with explicit fuel, and the development proves that the fuel
  supplied by `analyze_schedule` is never exhausted for deduplicated
  inputs, so on every real input the embedding computes the loop's result.
-/

/-- A Rust `TaskOrder`: `first` precedes `second` when `second` is present;
a standalone declaration of `first` otherwise (`src/task.rs`). -/
structure TaskOrder where
  first : String
  second : Option String
deriving DecidableEq, Repr

/-- `AnalysisError` from `src/analyzer.rs`. -/
inductive AnalysisError where
  | EmptyInput : AnalysisError
  | MissingDurations : List String → AnalysisError
  | MissingOrders : List String → AnalysisError
  | Cycle : AnalysisError
deriving DecidableEq, Repr

/-- `ScheduleAnalysis` from `src/analyzer.rs`. -/
structure ScheduleAnalysis where
  max_parallelism : Nat
  task_count : Nat
  minimum_completion_time : Nat
  critical_path_count : Nat
  critical_paths : List (List String)
deriving DecidableEq, Repr

/-! ### Association-list model of `HashMap` -/

/-- Lookup: the value stored at key `k` (`HashMap::get`). -/
def aGet? (m : List (String × α)) (k : String) : Option α :=
  (m.find? (fun e => e.1 = k)).map (fun e => e.2)

/-- `HashMap` indexing `m[&k]`.  Rust panics when the key is absent; every
use site below has the key present (established by the pre-checks and loop
invariants), so the default value of this total model is never read. -/
def aGet! [Inhabited α] (m : List (String × α)) (k : String) : α :=
  (aGet? m k).getD default

/-- `HashMap::insert`: replace the value in place when the key is present,
append the fresh binding otherwise. -/
def aInsert (m : List (String × α)) (k : String) (v : α) : List (String × α) :=
  if (m.find? (fun e => e.1 = k)).isSome then
    m.map (fun e => if e.1 = k then (k, v) else e)
  else m ++ [(k, v)]

/-- `HashMap::entry(k).and_modify(f)`: update in place when present, do
nothing otherwise. -/
def aModify (m : List (String × α)) (k : String) (f : α → α) : List (String × α) :=
  m.map (fun e => if e.1 = k then (e.1, f e.2) else e)

/-! ### Graph construction (`Graph::new`) -/

/-- The `Graph` struct of `src/analyzer.rs`: adjacency lists and
preceding-task (in-degree) counts. -/
structure Graph where
  task_graph : List (String × List String)
  preceding_task_count : List (String × Nat)

/-- One iteration of the `for task_order in orders` loop of `Graph::new`:
the first component gets an in-degree entry (default 0,
`entry(..).or_insert(0)`) and an adjacency entry (`or_insert_with(Vec::new)`);
the second component, when present, is appended to the adjacency list of
the first and has its in-degree incremented
(`*entry(..).or_insert(0) += 1`). -/
def Graph.step (g : Graph) (o : TaskOrder) : Graph :=
  let pc := if (aGet? g.preceding_task_count o.first).isSome then
      g.preceding_task_count else g.preceding_task_count ++ [(o.first, 0)]
  let tg := if (aGet? g.task_graph o.first).isSome then
      g.task_graph else g.task_graph ++ [(o.first, [])]
  match o.second with
  | none => ⟨tg, pc⟩
  | some snd =>
      ⟨aModify tg o.first (fun l => l ++ [snd]),
       match aGet? pc snd with
       | some c => aInsert pc snd (c + 1)
       | none => pc ++ [(snd, 1)]⟩

/-- `Graph::new`: one pass over the order set. -/
def Graph.new (orders : List TaskOrder) : Graph :=
  orders.foldl Graph.step ⟨[], []⟩

/-! ### The priority queue

`BinaryHeap<Reverse<TaskExecutionEndTime>>` pops a task with least
`end_time`; the order among equal keys is unspecified in Rust (it depends
on the hash-dependent insertion sequence).  The embedding keeps the queue
as a list sorted by ascending `end_time`, a new entry inserted after all
entries with a key less than or equal to its own; `pop` takes the head. -/

/-- Push into the min-queue, keeping it sorted by `end_time` (second
component), ties keeping earlier entries first. -/
def hPush (q : List (String × Nat)) (x : String × Nat) : List (String × Nat) :=
  match q with
  | [] => [x]
  | y :: ys => if y.2 ≤ x.2 then y :: hPush ys x else x :: y :: ys

/-- Mutable state of the `while` loop of `analyze_schedule`. -/
structure LoopState where
  queue : List (String × Nat)
  maxPar : Nat
  sinks : List String
  parents : List (String × List String)
  longest : List (String × Nat)
  counts : List (String × Nat)

/-- The body of the `for &to_task in adjacent_tasks` loop: relax the edge
`fromT → to`, decrement `to`'s preceding-task count, and push `to` when the
count reaches zero. -/
def processEdge (durs : List (String × Nat)) (fromT toT : String)
    (s : LoopState) : LoopState :=
  let alt := aGet! s.longest fromT + aGet! durs toT
  let s :=
    match aGet? s.longest toT with
    | some prev =>
        if alt > prev then
          { s with longest := aInsert s.longest toT alt,
                   parents := aInsert s.parents toT [fromT] }
        else if alt = prev then
          { s with parents := aModify s.parents toT (fun l => l ++ [fromT]) }
        else s
    | none =>
        { s with longest := aInsert s.longest toT alt,
                 parents := aInsert s.parents toT [fromT] }
  let s := { s with counts := aModify s.counts toT (fun c => c - 1) }
  if aGet! s.counts toT = 0 then
    { s with queue := hPush s.queue (toT, aGet! s.longest toT) }
  else s

/-- Processing one popped task: record it as a sink when it has no
adjacent tasks, otherwise relax each of its out-edges in order. -/
def stepTask (adj : List (String × List String)) (durs : List (String × Nat))
    (s : LoopState) (fromT : String) : LoopState :=
  match aGet? adj fromT with
  | some adjacent =>
      let s := if adjacent = [] then { s with sinks := s.sinks ++ [fromT] } else s
      adjacent.foldl (fun s toT => processEdge durs fromT toT s) s
  | none => { s with sinks := s.sinks ++ [fromT] }

/-- The `while !task_queue.is_empty()` loop, with explicit fuel.  The fuel
passed by `analyze_schedule` is one more than the number of tasks, which is
proven sufficient for every deduplicated input (each task is pushed, hence
popped, at most once), so the out-of-fuel branch is never taken there. -/
def runLoop (adj : List (String × List String)) (durs : List (String × Nat)) :
    Nat → LoopState → LoopState
  | 0, s => s
  | fuel + 1, s =>
      match s.queue with
      | [] => s
      | (fromT, _) :: rest =>
          let s := { s with maxPar := max s.maxPar s.queue.length, queue := rest }
          runLoop adj durs fuel (stepTask adj durs s fromT)

/-! ### Critical-path reconstruction (`CriticalPaths`) -/

/-- `CriticalPaths::construct_paths`, written functionally: the Rust code
accumulates into `&mut paths` while pushing/popping on `&mut temp_path`;
the embedding returns the produced paths, passing the extended `temp_path`
to each recursive call.  Recursion depth is data-dependent (a chain of
parent links), hence the explicit fuel; `find_critical_paths` supplies one
more than the number of parent entries, enough for the acyclic parent maps
the algorithm builds. -/
def construct_paths (parents : List (String × List String)) :
    Nat → List String → String → List (List String)
  | 0, _, _ => []
  | fuel + 1, temp_path, destination =>
      match aGet? parents destination with
      | none =>
          let temp_path := if temp_path = [] then [destination] else temp_path
          [temp_path]
      | some ps =>
          let temp_path := if temp_path = [] then [destination] else temp_path
          ps.flatMap (fun task => construct_paths parents fuel (temp_path ++ [task]) task)

/-- `.max().unwrap_or(0)` over an iterator of `Nat`s. -/
def maxOr0 : List Nat → Nat
  | [] => 0
  | x :: xs => max x (maxOr0 xs)

/-- The comparator `str::cmp` (byte-lexicographic in Rust, which for UTF-8
agrees with this characterwise comparison).  Comparing the character lists
is the same order as Lean's `String` order (`String.lt_iff_toList_lt`);
the list form is used because it is kernel-computable. -/
def strCmp (a b : String) : Ordering :=
  if a.toList < b.toList then .lt else if b.toList < a.toList then .gt else .eq

/-- `Iterator::cmp` on two label sequences. -/
def lexCmp : List String → List String → Ordering
  | [], [] => .eq
  | [], _ :: _ => .lt
  | _ :: _, [] => .gt
  | a :: as', b :: bs => (strCmp a b).then (lexCmp as' bs)

/-- The sort comparator of `find_critical_paths` as a boolean "less or
equal": descending task count, then ascending lexicographic label order;
`pathLe p q` holds when the comparator does not order `p` strictly after
`q`.  The Rust comparator ends with `.then_with(|| panic!(..))`: on a pair
compared equal it aborts instead of returning `Equal`; the development
proves the sorted list contains no duplicate paths, so that branch is
unreachable and the embedding returns "not greater" there. -/
def pathLe (path1 path2 : List String) : Bool :=
  ((compare path2.length path1.length).then (lexCmp path1 path2)) ≠ .gt

/-- Insert into a list sorted by `le` (the elementary sorting step; the
Rust `sort_unstable_by` result is observationally the same list because the
comparator never returns `Equal` on the deduplicated inputs it is given). -/
def insertSorted (le : α → α → Bool) (x : α) : List α → List α
  | [] => [x]
  | y :: ys => if le x y then x :: y :: ys else y :: insertSorted le x ys

/-- Sort a list by the boolean comparator `le`. -/
def sortL (le : α → α → Bool) (l : List α) : List α :=
  l.foldr (insertSorted le) []

/-- `missing.sort_unstable()` on labels: ascending lexicographic order
(`¬ b < a` is `a ≤ b` in the linear order on labels,
`String.le_iff_toList_le`). -/
def sortLabels (l : List String) : List String :=
  sortL (fun a b => ¬ b.toList < a.toList) l

/-- `CriticalPaths::find_critical_paths`: the critical-path duration is the
maximum longest-path duration over the sinks; paths are reconstructed from
every sink attaining it and sorted.  Returns `(paths, duration)`. -/
def find_critical_paths (parents : List (String × List String))
    (longest : List (String × Nat)) (sinks : List String) :
    List (List String) × Nat :=
  let critical_path_duration := maxOr0 (sinks.map (fun t => aGet! longest t))
  let critical_paths :=
    (sinks.filter (fun t => aGet! longest t = critical_path_duration)).flatMap
      (fun t => (construct_paths parents (parents.length + 1) [] t).map List.reverse)
  (sortL pathLe critical_paths, critical_path_duration)

/-! ### `analyze_schedule` -/

/-- Seeding: one pass over the preceding-task counts; every zero-in-degree
task is pushed with its own duration as completion time and has its
longest-path duration initialised.  Returns `(queue, longest)`. -/
def seedQueue (durs : List (String × Nat)) (counts : List (String × Nat)) :
    List (String × Nat) × List (String × Nat) :=
  counts.foldl
    (fun ql e =>
      if e.2 = 0 then
        (hPush ql.1 (e.1, aGet! durs e.1), aInsert ql.2 e.1 (aGet! durs e.1))
      else ql)
    ([], [])

/-- `analyze_schedule` (`src/analyzer.rs`): validation, Kahn traversal with
longest-path relaxation, cycle detection, critical-path reconstruction. -/
def analyze_schedule (task_orders : List TaskOrder)
    (task_durations : List (String × Nat)) :
    Except AnalysisError ScheduleAnalysis :=
  if task_orders = [] ∧ task_durations = [] then .error .EmptyInput else
  let g := Graph.new task_orders
  let missingD := (g.preceding_task_count.map (fun e => e.1)).filter
      (fun t => ¬ (aGet? task_durations t).isSome)
  if missingD ≠ [] then .error (.MissingDurations (sortLabels missingD)) else
  if task_durations.length ≠ g.preceding_task_count.length then
    .error (.MissingOrders (sortLabels
      ((task_durations.map (fun e => e.1)).filter
        (fun t => ¬ (aGet? g.preceding_task_count t).isSome))))
  else
  let ql := seedQueue task_durations g.preceding_task_count
  if ql.1 = [] then .error .Cycle else
  let st := runLoop g.task_graph task_durations (g.preceding_task_count.length + 1)
      ⟨ql.1, 0, [], [], ql.2, g.preceding_task_count⟩
  if st.counts.all (fun e => e.2 = 0) then
    let cp := find_critical_paths st.parents st.longest st.sinks
    .ok ⟨st.maxPar, st.counts.length, cp.2, cp.1.length, cp.1⟩
  else .error .Cycle

/-! ### `serialize_path` -/

/-- State of the `while label_idx < path.len()` loop of `serialize_path`:
the current line buffer, its accumulated character count, the current label
index, and the lines already written (each `writeln!` appends one line). -/
structure SerState where
  line_buffer : String
  buffered_char_count : Nat
  label_idx : Nat
  out : List String
deriving Repr

/-- The packing loop of `serialize_path`, with explicit fuel: the Rust loop
does not terminate on every input (a label longer than `max_label_len`
makes it flush an empty line and retry forever), so the embedding returns
`none` when the fuel runs out before the loop finishes.  On exit the
remaining line buffer is flushed. -/
def serializeGo (path : List String) (delimiter : String) (max_label_len : Nat) :
    Nat → SerState → Option (List String)
  | 0, _ => none
  | fuel + 1, st =>
      if h : st.label_idx < path.length then
        if st.buffered_char_count + ((path.get ⟨st.label_idx, h⟩).length + delimiter.length)
            ≤ max_label_len + delimiter.length then
          serializeGo path delimiter max_label_len fuel
            ⟨st.line_buffer ++ path.get ⟨st.label_idx, h⟩ ++
               (if st.label_idx ≠ path.length - 1 then delimiter else ""),
             st.buffered_char_count + ((path.get ⟨st.label_idx, h⟩).length + delimiter.length),
             st.label_idx + 1, st.out⟩
        else
          serializeGo path delimiter max_label_len fuel
            ⟨"", 0, st.label_idx, st.out ++ [st.line_buffer]⟩
      else
        some (st.out ++ [st.line_buffer])

/-- `serialize_path`: the emitted lines, or `none` when the packing loop
does not terminate.  `2 * path.length + 1` steps are enough whenever every
label fits (each step either advances the index or is a flush immediately
followed by an advance). -/
def serialize_path (path : List String) (delimiter : String)
    (max_label_len : Nat) : Option (List String) :=
  serializeGo path delimiter max_label_len (2 * path.length + 1) ⟨"", 0, 0, []⟩

/-! ### Specification-side definitions

These formalise the graph-theoretic language of the specification (paths,
sources, sinks, weights, cycles) directly over the input order set. -/

/-- The precedence relation declared by the order set: `edgeOf ords u v`
holds when the order `u → v` is present. -/
def edgeOf (ords : List TaskOrder) (u v : String) : Prop :=
  (⟨u, some v⟩ : TaskOrder) ∈ ords

instance (ords : List TaskOrder) (u v : String) : Decidable (edgeOf ords u v) := by
  unfold edgeOf; infer_instance

/-- All labels mentioned by an order (source, and target when present). -/
def TaskOrder.labels (o : TaskOrder) : List String :=
  o.first :: o.second.toList

/-- The labels mentioned anywhere in the order set. -/
def labelsOf (ords : List TaskOrder) : List String :=
  ords.flatMap TaskOrder.labels

/-- The duration of task `v` as recorded by the duration map. -/
def durOf (durs : List (String × Nat)) (v : String) : Nat :=
  aGet! durs v

/-- A (directed) path of the precedence graph: a nonempty list of mentioned
labels, consecutive elements related by the precedence relation. -/
def IsPath (ords : List TaskOrder) (p : List String) : Prop :=
  p ≠ [] ∧ (∀ x ∈ p, x ∈ labelsOf ords) ∧ List.Chain' (edgeOf ords) p

/-- `v` is a source: no mentioned label must precede it. -/
def IsSource (ords : List TaskOrder) (v : String) : Prop :=
  ∀ u, ¬ edgeOf ords u v

/-- `v` is a sink: it must precede nothing. -/
def IsSink (ords : List TaskOrder) (v : String) : Prop :=
  ∀ w, ¬ edgeOf ords v w

/-- A source-to-sink path. -/
def IsSourceSinkPath (ords : List TaskOrder) (p : List String) : Prop :=
  IsPath ords p ∧ (∀ h : p ≠ [], IsSource ords (p.head h)) ∧
    (∀ h : p ≠ [], IsSink ords (p.getLast h))

/-- The total duration of a path: the exact sum of its tasks' durations. -/
def pathWeight (durs : List (String × Nat)) (p : List String) : Nat :=
  (p.map (durOf durs)).sum

/-- The precedence relation contains a directed cycle. -/
def HasCycle (ords : List TaskOrder) : Prop :=
  ∃ v, Relation.TransGen (edgeOf ords) v v

/-- `w` is the maximum path weight among paths ending at `v` ("the longest
time spent, including the task's own duration, along a path to reach the
task"). -/
def MaxEndW (ords : List TaskOrder) (durs : List (String × Nat))
    (v : String) (w : Nat) : Prop :=
  (∃ p, IsPath ords p ∧ (∃ h : p ≠ [], p.getLast h = v) ∧ pathWeight durs p = w) ∧
  (∀ p, IsPath ords p → (∃ h : p ≠ [], p.getLast h = v) → pathWeight durs p ≤ w)

/-! ### The serializer claims (C8 and C10) -/

/-- If some label at index `i` has more than `max_label_len` characters,
the packing loop never passes index `i`: it keeps flushing and retrying,
so it returns `none` for every fuel. -/
lemma serializeGo_oversize_none (path : List String) (delim : String) (M : Nat)
    (i : Nat) (hi : i < path.length) (hlen : M < (path.get ⟨i, hi⟩).length) :
    ∀ fuel st, st.label_idx ≤ i → serializeGo path delim M fuel st = none := by
  intro fuel
  induction fuel with
  | zero => intro st _; rfl
  | succ fuel ih =>
      intro st hst
      have hidx : st.label_idx < path.length := lt_of_le_of_lt hst hi
      rw [serializeGo, dif_pos hidx]
      by_cases hfit : st.buffered_char_count +
          ((path.get ⟨st.label_idx, hidx⟩).length + delim.length) ≤ M + delim.length
      · rw [if_pos hfit]
        apply ih
        rcases lt_or_eq_of_le hst with h | h
        · exact h
        · exfalso
          subst h
          have h2 : path.get ⟨st.label_idx, hidx⟩ = path.get ⟨st.label_idx, hi⟩ := rfl
          rw [h2] at hfit
          omega
      · rw [if_neg hfit]
        exact ih _ hst

/-- If every label fits within `max_label_len`, the packing loop finishes:
each step either advances the label index or is a flush after which the
current label is appended on the fresh line. -/
lemma serializeGo_fits_some (path : List String) (delim : String) (M : Nat)
    (hlab : ∀ l ∈ path, l.length ≤ M) :
    ∀ fuel st,
      2 * (path.length - st.label_idx) +
        (if st.buffered_char_count = 0 then 1 else 2) ≤ fuel →
      ∃ lines, serializeGo path delim M fuel st = some lines := by
  intro fuel
  induction fuel with
  | zero =>
      intro st hm
      have h1 : (1 : Nat) ≤ (if st.buffered_char_count = 0 then 1 else 2) := by
        split <;> omega
      omega
  | succ fuel ih =>
      intro st hm
      by_cases hidx : st.label_idx < path.length
      · rw [serializeGo, dif_pos hidx]
        by_cases hfit : st.buffered_char_count +
            ((path.get ⟨st.label_idx, hidx⟩).length + delim.length) ≤ M + delim.length
        · rw [if_pos hfit]
          apply ih
          show 2 * (path.length - (st.label_idx + 1)) +
              (if st.buffered_char_count +
                ((path.get ⟨st.label_idx, hidx⟩).length + delim.length) = 0
               then 1 else 2) ≤ fuel
          have h1 : (1 : Nat) ≤ (if st.buffered_char_count = 0 then 1 else 2) := by
            split <;> omega
          have h2 : (if st.buffered_char_count +
              ((path.get ⟨st.label_idx, hidx⟩).length + delim.length) = 0
              then 1 else 2) ≤ 2 := by
            split <;> omega
          omega
        · rw [if_neg hfit]
          apply ih
          show 2 * (path.length - st.label_idx) + (if (0 : Nat) = 0 then 1 else 2) ≤ fuel
          have hb : st.buffered_char_count ≠ 0 := by
            intro hb
            apply hfit
            rw [hb, Nat.zero_add]
            have := hlab _ (path.get_mem st.label_idx hidx)
            omega
          have h1 : (if st.buffered_char_count = 0 then 1 else 2) = 2 := by
            simp [hb]
          have h2 : (if (0 : Nat) = 0 then 1 else 2) = 1 := rfl
          omega
      · rw [serializeGo, dif_neg hidx]
        exact ⟨st.out ++ [st.line_buffer], rfl⟩

/-- Every line the serializer has produced or is producing stays within the
`max_label_len + delimiter` budget: the buffered character count dominates
the buffered line's length and never exceeds the budget. -/
lemma serializeGo_lines_bounded (path : List String) (delim : String) (M : Nat) :
    ∀ fuel st lines,
      st.line_buffer.length ≤ st.buffered_char_count →
      st.buffered_char_count ≤ M + delim.length →
      (∀ line ∈ st.out, line.length ≤ M + delim.length) →
      serializeGo path delim M fuel st = some lines →
      (∀ line ∈ lines, line.length ≤ M + delim.length) ∧ lines ≠ [] := by
  intro fuel
  induction fuel with
  | zero => intro st lines _ _ _ h; exact absurd h (by simp [serializeGo])
  | succ fuel ih =>
      intro st lines hlb hbuf hout h
      by_cases hidx : st.label_idx < path.length
      · rw [serializeGo, dif_pos hidx] at h
        by_cases hfit : st.buffered_char_count +
            ((path.get ⟨st.label_idx, hidx⟩).length + delim.length) ≤ M + delim.length
        · rw [if_pos hfit] at h
          refine ih _ _ ?_ ?_ ?_ h
          · show (st.line_buffer ++ path.get ⟨st.label_idx, hidx⟩ ++
                (if st.label_idx ≠ path.length - 1 then delim else "")).length ≤
                st.buffered_char_count + ((path.get ⟨st.label_idx, hidx⟩).length + delim.length)
            by_cases hl : st.label_idx ≠ path.length - 1
            · rw [if_pos hl]
              simp only [String.length_append]
              omega
            · rw [if_neg hl]
              simp only [String.length_append]
              have he : ("" : String).length = 0 := rfl
              omega
          · exact hfit
          · exact hout
        · rw [if_neg hfit] at h
          refine ih _ _ ?_ ?_ ?_ h
          · show ("" : String).length ≤ 0
            exact Nat.le_of_eq rfl
          · exact Nat.zero_le _
          · show ∀ line ∈ st.out ++ [st.line_buffer], line.length ≤ M + delim.length
            intro line hline
            rcases List.mem_append.1 hline with h2 | h2
            · exact hout _ h2
            · have : line = st.line_buffer := by simpa using h2
              subst this
              omega
      · rw [serializeGo, dif_neg hidx] at h
        have hl : lines = st.out ++ [st.line_buffer] := by
          injection h with h
          exact h.symm
        subst hl
        constructor
        · intro line hline
          rcases List.mem_append.1 hline with h2 | h2
          · exact hout _ h2
          · have : line = st.line_buffer := by simpa using h2
            subst this
            omega
        · simp

/-- C8: in `serialize_path`, a label (followed by the delimiter unless it
is the path's last label) is appended to the current line only if the
line's accumulated character length stays within
`max_label_len + delimiter.length` (that guard is the `if` of
`serializeGo`, which otherwise flushes and retries the label on a fresh
line); consequently whenever the packing loop finishes, every emitted line
has at most `max_label_len + delimiter.length` characters, and the final
(possibly partial) line is always flushed, so at least one line is
emitted. -/
theorem claim_C8 (path : List String) (delimiter : String) (max_label_len : Nat)
    (fuel : Nat) (lines : List String)
    (h : serializeGo path delimiter max_label_len fuel ⟨"", 0, 0, []⟩ = some lines) :
    (∀ line ∈ lines, line.length ≤ max_label_len + delimiter.length) ∧ lines ≠ [] :=
  serializeGo_lines_bounded path delimiter max_label_len fuel _ lines
    (by simp) (by simp) (by simp) h

/-- Witness for C8 at the concrete input of the repository's own
`path_serialization` test. -/
theorem claim_C8_witness :
    (∀ line ∈ ["B->", "D->", "C"], String.length line ≤ 1 + String.length "->") ∧
      (["B->", "D->", "C"] : List String) ≠ [] :=
  claim_C8 ["B", "D", "C"] "->" 1 7 ["B->", "D->", "C"] (by rfl)

/-- C10: the packing loop of `serialize_path` terminates (with some fuel,
i.e. the Rust `while` loop finishes) exactly when every label of the path
has at most `max_label_len` characters; with an oversized label it flushes
an empty line and retries the same label forever. -/
theorem claim_C10 (path : List String) (delimiter : String) (max_label_len : Nat) :
    (∀ l ∈ path, l.length ≤ max_label_len) ↔
      ∃ fuel lines,
        serializeGo path delimiter max_label_len fuel ⟨"", 0, 0, []⟩ = some lines := by
  constructor
  · intro hlab
    obtain ⟨lines, hl⟩ := serializeGo_fits_some path delimiter max_label_len hlab
      (2 * path.length + 1) ⟨"", 0, 0, []⟩ (by simp)
    exact ⟨2 * path.length + 1, lines, hl⟩
  · rintro ⟨fuel, lines, hl⟩
    by_contra hlab
    push_neg at hlab
    obtain ⟨l, hmem, hlen⟩ := hlab
    obtain ⟨i, hget⟩ := List.mem_iff_get.1 hmem
    have hlen2 : max_label_len < (path.get ⟨i.1, i.2⟩).length := by
      have : path.get ⟨i.1, i.2⟩ = l := hget
      rw [this]
      exact hlen
    rw [serializeGo_oversize_none path delimiter max_label_len i.1 i.2 hlen2
      fuel ⟨"", 0, 0, []⟩ (Nat.zero_le _)] at hl
    exact Option.noConfusion hl

/-! ### The sort and the path comparator (claim C4) -/

lemma insertSorted_perm (le : α → α → Bool) (x : α) (l : List α) :
    (insertSorted le x l).Perm (x :: l) := by
  induction l with
  | nil => simp [insertSorted]
  | cons y ys ih =>
      rw [insertSorted]
      split
      · exact List.Perm.refl _
      · exact ((ih.cons y).trans (List.Perm.swap x y ys))

lemma sortL_perm (le : α → α → Bool) (l : List α) : (sortL le l).Perm l := by
  induction l with
  | nil => simp [sortL]
  | cons x xs ih =>
      have : sortL le (x :: xs) = insertSorted le x (sortL le xs) := rfl
      rw [this]
      exact (insertSorted_perm le x (sortL le xs)).trans (ih.cons x)

lemma mem_insertSorted {le : α → α → Bool} {x z : α} {l : List α} :
    z ∈ insertSorted le x l → z = x ∨ z ∈ l := by
  intro hz
  have := (insertSorted_perm le x l).mem_iff.1 hz
  simpa using this

lemma insertSorted_pairwise {le : α → α → Bool}
    (htot : ∀ a b, le a b = true ∨ le b a = true)
    (htr : ∀ a b c, le a b = true → le b c = true → le a c = true)
    (x : α) (l : List α) (hl : l.Pairwise (fun a b => le a b = true)) :
    (insertSorted le x l).Pairwise (fun a b => le a b = true) := by
  induction l with
  | nil => simp [insertSorted]
  | cons y ys ih =>
      rw [insertSorted]
      rcases List.pairwise_cons.1 hl with ⟨hy, hys⟩
      split
      · rename_i hxy
        refine List.pairwise_cons.2 ⟨?_, hl⟩
        intro z hz
        rcases hz with _ | hz
        · exact hxy
        · exact htr _ _ _ hxy (hy _ (by assumption))
      · rename_i hxy
        have hyx : le y x = true := by
          rcases htot x y with h | h
          · exact absurd h hxy
          · exact h
        refine List.pairwise_cons.2 ⟨?_, ih hys⟩
        intro z hz
        rcases mem_insertSorted hz with rfl | hz
        · exact hyx
        · exact hy _ hz

lemma sortL_pairwise {le : α → α → Bool}
    (htot : ∀ a b, le a b = true ∨ le b a = true)
    (htr : ∀ a b c, le a b = true → le b c = true → le a c = true)
    (l : List α) : (sortL le l).Pairwise (fun a b => le a b = true) := by
  induction l with
  | nil => simp [sortL]
  | cons x xs ih => exact insertSorted_pairwise htot htr x (sortL le xs) ih

/-! Properties of `strCmp`, `lexCmp` and `pathLe`. -/

lemma strCmp_eq_eq {a b : String} : strCmp a b = .eq ↔ a = b := by
  unfold strCmp
  rcases lt_trichotomy a.toList b.toList with h | h | h
  · rw [if_pos h]
    constructor
    · intro hx
      exact absurd hx (by simp)
    · rintro rfl
      exact absurd h (lt_irrefl _)
  · have h1 : ¬ a.toList < b.toList := by rw [h]; exact lt_irrefl _
    have h2 : ¬ b.toList < a.toList := by rw [h]; exact lt_irrefl _
    rw [if_neg h1, if_neg h2]
    constructor
    · intro _
      exact String.toList_inj.1 h
    · intro _
      rfl
  · rw [if_neg (not_lt_of_gt h), if_pos h]
    constructor
    · intro hx
      exact absurd hx (by simp)
    · rintro rfl
      exact absurd h (lt_irrefl _)

lemma strCmp_eq_lt {a b : String} : strCmp a b = .lt ↔ a < b := by
  unfold strCmp
  rw [String.lt_iff_toList_lt]
  rcases lt_trichotomy a.toList b.toList with h | h | h
  · rw [if_pos h]
    exact ⟨fun _ => h, fun _ => rfl⟩
  · have h1 : ¬ a.toList < b.toList := by rw [h]; exact lt_irrefl _
    have h2 : ¬ b.toList < a.toList := by rw [h]; exact lt_irrefl _
    rw [if_neg h1, if_neg h2]
    constructor
    · intro hx
      exact absurd hx (by simp)
    · intro hx
      exact absurd hx h1
  · rw [if_neg (not_lt_of_gt h), if_pos h]
    constructor
    · intro hx
      exact absurd hx (by simp)
    · intro hx
      exact absurd hx (not_lt_of_gt h)

lemma strCmp_eq_gt {a b : String} : strCmp a b = .gt ↔ b < a := by
  unfold strCmp
  rw [show (b < a) = (b.toList < a.toList) from propext String.lt_iff_toList_lt]
  rcases lt_trichotomy a.toList b.toList with h | h | h
  · rw [if_pos h]
    constructor
    · intro hx
      exact absurd hx (by simp)
    · intro hx
      exact absurd hx (not_lt_of_gt h)
  · have h1 : ¬ a.toList < b.toList := by rw [h]; exact lt_irrefl _
    have h2 : ¬ b.toList < a.toList := by rw [h]; exact lt_irrefl _
    rw [if_neg h1, if_neg h2]
    constructor
    · intro hx
      exact absurd hx (by simp)
    · intro hx
      exact absurd hx h2
  · rw [if_neg (not_lt_of_gt h), if_pos h]
    exact ⟨fun _ => h, fun _ => rfl⟩

lemma lexCmp_eq_eq : ∀ {p q : List String}, lexCmp p q = .eq ↔ p = q := by
  intro p
  induction p with
  | nil => intro q; cases q <;> simp [lexCmp]
  | cons a as ih =>
      intro q
      cases q with
      | nil => simp [lexCmp]
      | cons b bs =>
          rw [lexCmp]
          constructor
          · intro h
            have hab : strCmp a b = .eq := by
              cases hs : strCmp a b <;> rw [hs] at h <;> simp [Ordering.then] at h ⊢
            have h2 : lexCmp as bs = .eq := by
              rw [hab] at h
              simpa [Ordering.then] using h
            rw [strCmp_eq_eq.1 hab, ih.1 h2]
          · rintro ⟨rfl, rfl⟩
            rw [strCmp_eq_eq.2 rfl]
            simp [Ordering.then, ih.2 rfl]

lemma lexCmp_eq_lt : ∀ {p q : List String}, lexCmp p q = .lt ↔ List.Lex (· < ·) p q := by
  intro p
  induction p with
  | nil =>
      intro q
      cases q <;> simp [lexCmp]
      exact List.Lex.nil
  | cons a as ih =>
      intro q
      cases q with
      | nil =>
          simp [lexCmp]
      | cons b bs =>
          rw [lexCmp]
          constructor
          · intro h
            cases hs : strCmp a b with
            | lt => exact List.Lex.rel (strCmp_eq_lt.1 hs)
            | eq =>
                rw [strCmp_eq_eq.1 hs]
                refine List.Lex.cons ?_
                apply ih.1
                rw [hs] at h
                simpa [Ordering.then] using h
            | gt => rw [hs] at h; simp [Ordering.then] at h
          · intro h
            cases h with
            | rel hab =>
                rw [strCmp_eq_lt.2 hab]
                rfl
            | cons htail =>
                rw [strCmp_eq_eq.2 rfl]
                simpa [Ordering.then] using ih.2 htail

lemma then_eq_lt {a b : Ordering} :
    a.then b = .lt ↔ a = .lt ∨ (a = .eq ∧ b = .lt) := by
  cases a <;> simp [Ordering.then]

lemma then_eq_eq {a b : Ordering} :
    a.then b = .eq ↔ a = .eq ∧ b = .eq := by
  cases a <;> simp [Ordering.then]

lemma then_eq_gt {a b : Ordering} :
    a.then b = .gt ↔ a = .gt ∨ (a = .eq ∧ b = .gt) := by
  cases a <;> simp [Ordering.then]

lemma strCmp_swap (a b : String) : strCmp b a = (strCmp a b).swap := by
  unfold strCmp
  rcases lt_trichotomy a.toList b.toList with h | h | h
  · rw [if_neg (not_lt_of_gt h), if_pos h, if_pos h]
    rfl
  · have h1 : ¬ a.toList < b.toList := by rw [h]; exact lt_irrefl _
    have h2 : ¬ b.toList < a.toList := by rw [h]; exact lt_irrefl _
    rw [if_neg h2, if_neg h1, if_neg h1, if_neg h2]
    rfl
  · rw [if_pos h, if_neg (not_lt_of_gt h), if_pos h]
    rfl

lemma lexCmp_swap : ∀ (p q : List String), lexCmp q p = (lexCmp p q).swap := by
  intro p
  induction p with
  | nil => intro q; cases q <;> simp [lexCmp, Ordering.swap]
  | cons a as ih =>
      intro q
      cases q with
      | nil => simp [lexCmp, Ordering.swap]
      | cons b bs =>
          rw [lexCmp, lexCmp, strCmp_swap, ih bs]
          cases strCmp a b <;> simp [Ordering.then, Ordering.swap]

lemma lexCmp_lt_trans : ∀ {p q r : List String},
    lexCmp p q = .lt → lexCmp q r = .lt → lexCmp p r = .lt := by
  intro p
  induction p with
  | nil =>
      intro q r h1 h2
      cases q with
      | nil => simpa [lexCmp] using h1
      | cons b bs =>
          cases r with
          | nil => simp [lexCmp] at h2
          | cons c cs => simp [lexCmp]
  | cons a as ih =>
      intro q r h1 h2
      cases q with
      | nil => simp [lexCmp] at h1
      | cons b bs =>
          cases r with
          | nil => simp [lexCmp] at h2
          | cons c cs =>
              rw [lexCmp] at h1 h2 ⊢
              rcases then_eq_lt.1 h1 with hab | ⟨hab, htl1⟩ <;>
                rcases then_eq_lt.1 h2 with hbc | ⟨hbc, htl2⟩
              · exact then_eq_lt.2 (Or.inl (strCmp_eq_lt.2
                  (lt_trans (strCmp_eq_lt.1 hab) (strCmp_eq_lt.1 hbc))))
              · rw [strCmp_eq_eq.1 hbc] at hab
                exact then_eq_lt.2 (Or.inl hab)
              · rw [strCmp_eq_eq.1 hab]
                exact then_eq_lt.2 (Or.inl hbc)
              · rw [strCmp_eq_eq.1 hab]
                exact then_eq_lt.2 (Or.inr ⟨hbc, ih htl1 htl2⟩)

/-- The composite comparator of the critical-path sort. -/
def pathCmpO (p q : List String) : Ordering :=
  (compare q.length p.length).then (lexCmp p q)

lemma pathLe_eq_true_iff {p q : List String} :
    pathLe p q = true ↔ pathCmpO p q ≠ .gt := by
  simp [pathLe, pathCmpO]

lemma natCompare_swap (a b : Nat) : compare b a = (compare a b).swap := by
  rcases lt_trichotomy a b with h | h | h
  · rw [Nat.compare_eq_lt.2 h, Nat.compare_eq_gt.2 h]
    rfl
  · subst h
    rw [Nat.compare_eq_eq.2 rfl]
    rfl
  · rw [Nat.compare_eq_gt.2 h, Nat.compare_eq_lt.2 h]
    rfl

lemma pathCmpO_swap (p q : List String) : pathCmpO q p = (pathCmpO p q).swap := by
  rw [pathCmpO, pathCmpO, natCompare_swap q.length p.length, lexCmp_swap]
  cases compare q.length p.length <;> simp [Ordering.then, Ordering.swap]

lemma pathCmpO_eq_eq {p q : List String} : pathCmpO p q = .eq ↔ p = q := by
  rw [pathCmpO, then_eq_eq]
  constructor
  · rintro ⟨-, h2⟩
    exact lexCmp_eq_eq.1 h2
  · rintro rfl
    exact ⟨Nat.compare_eq_eq.2 rfl, lexCmp_eq_eq.2 rfl⟩

lemma pathCmpO_lt_trans {p q r : List String} :
    pathCmpO p q = .lt → pathCmpO q r = .lt → pathCmpO p r = .lt := by
  intro h1 h2
  rw [pathCmpO] at h1 h2 ⊢
  rcases then_eq_lt.1 h1 with hl1 | ⟨he1, hx1⟩ <;>
    rcases then_eq_lt.1 h2 with hl2 | ⟨he2, hx2⟩
  · refine then_eq_lt.2 (Or.inl (Nat.compare_eq_lt.2 ?_))
    have u1 := Nat.compare_eq_lt.1 hl1
    have u2 := Nat.compare_eq_lt.1 hl2
    omega
  · refine then_eq_lt.2 (Or.inl (Nat.compare_eq_lt.2 ?_))
    have u1 := Nat.compare_eq_lt.1 hl1
    have u2 := Nat.compare_eq_eq.1 he2
    omega
  · refine then_eq_lt.2 (Or.inl (Nat.compare_eq_lt.2 ?_))
    have u1 := Nat.compare_eq_eq.1 he1
    have u2 := Nat.compare_eq_lt.1 hl2
    omega
  · refine then_eq_lt.2 (Or.inr ⟨Nat.compare_eq_eq.2 ?_, lexCmp_lt_trans hx1 hx2⟩)
    have u1 := Nat.compare_eq_eq.1 he1
    have u2 := Nat.compare_eq_eq.1 he2
    omega

lemma pathLe_total (p q : List String) : pathLe p q = true ∨ pathLe q p = true := by
  rw [pathLe_eq_true_iff, pathLe_eq_true_iff, pathCmpO_swap p q]
  cases pathCmpO p q <;> simp [Ordering.swap]

lemma pathLe_trans {p q r : List String} :
    pathLe p q = true → pathLe q r = true → pathLe p r = true := by
  rw [pathLe_eq_true_iff, pathLe_eq_true_iff, pathLe_eq_true_iff]
  intro h1 h2
  cases hc1 : pathCmpO p q with
  | lt =>
      cases hc2 : pathCmpO q r with
      | lt =>
          rw [pathCmpO_lt_trans hc1 hc2]
          simp
      | eq =>
          rw [← pathCmpO_eq_eq.1 hc2, hc1]
          simp
      | gt => exact absurd hc2 h2
  | eq =>
      rw [pathCmpO_eq_eq.1 hc1]
      exact h2
  | gt => exact absurd hc1 h1

lemma pathLe_imp {p q : List String} (h : pathLe p q = true) :
    q.length ≤ p.length ∧
      (p.length = q.length → p = q ∨ List.Lex (· < ·) p q) := by
  rw [pathLe_eq_true_iff, pathCmpO] at h
  cases hc : compare q.length p.length with
  | lt =>
      have hlt := Nat.compare_eq_lt.1 hc
      exact ⟨le_of_lt hlt, fun he => absurd he (by omega)⟩
  | eq =>
      have hlen := Nat.compare_eq_eq.1 hc
      refine ⟨le_of_eq hlen, fun _ => ?_⟩
      rw [hc] at h
      cases hx : lexCmp p q with
      | lt => exact Or.inr (lexCmp_eq_lt.1 hx)
      | eq => exact Or.inl (lexCmp_eq_eq.1 hx)
      | gt =>
          rw [hx] at h
          exact absurd rfl h
  | gt =>
      rw [hc] at h
      exact absurd rfl h

/-- The output of the critical-path sort is ordered by the comparator. -/
lemma sortL_pathLe_sorted (l : List (List String)) :
    (sortL pathLe l).Pairwise
      (fun p q => q.length ≤ p.length ∧
        (p.length = q.length → p = q ∨ List.Lex (· < ·) p q)) :=
  (sortL_pairwise pathLe_total (fun _ _ _ => pathLe_trans) l).imp pathLe_imp

/-- Whenever `analyze_schedule` succeeds, the reported critical paths are
the sorted output of `find_critical_paths` (and the reported count is their
number). -/
lemma analyze_ok_paths {ords : List TaskOrder} {durs : List (String × Nat)}
    {a : ScheduleAnalysis} (h : analyze_schedule ords durs = .ok a) :
    ∃ l, a.critical_paths = sortL pathLe l ∧ a.critical_path_count = a.critical_paths.length := by
  rw [analyze_schedule] at h
  split at h
  · exact absurd h (by simp)
  dsimp only at h
  split at h
  · exact absurd h (by simp)
  split at h
  · exact absurd h (by simp)
  split at h
  · exact absurd h (by simp)
  split at h
  · injection h with ha
    subst ha
    exact ⟨_, rfl, rfl⟩
  · exact absurd h (by simp)

/-- C4: whenever `analyze_schedule` succeeds, `critical_paths` is sorted so
that every path with more tasks precedes every path with fewer tasks, and
among paths of equal task count the lexicographically smaller label
sequence comes first (`List.Lex (· < ·)` on label sequences). -/
theorem claim_C4 (ords : List TaskOrder) (durs : List (String × Nat))
    (a : ScheduleAnalysis) (h : analyze_schedule ords durs = .ok a) :
    a.critical_paths.Pairwise
      (fun p q => q.length ≤ p.length ∧
        (p.length = q.length → p = q ∨ List.Lex (· < ·) p q)) := by
  obtain ⟨l, hl, -⟩ := analyze_ok_paths h
  rw [hl]
  exact sortL_pathLe_sorted l

/-- Decidable equality of analysis results (used to evaluate the embedding
at concrete inputs). -/
instance {ε α : Type} [DecidableEq ε] [DecidableEq α] : DecidableEq (Except ε α)
  | .error a, .error b =>
      if h : a = b then isTrue (by rw [h]) else
        isFalse (fun hc => h (by injection hc))
  | .error _, .ok _ => isFalse (fun hc => Except.noConfusion hc)
  | .ok _, .error _ => isFalse (fun hc => Except.noConfusion hc)
  | .ok a, .ok b =>
      if h : a = b then isTrue (by rw [h]) else
        isFalse (fun hc => h (by injection hc))

/-- Witness for C4: the repository test schedule `A → B, B → C, C → D,
C → E, C → F` plus isolated `K` with durations `1,1,1,1,1,1,4`. -/
theorem claim_C4_witness :
    ([["A", "B", "C", "D"], ["A", "B", "C", "E"], ["A", "B", "C", "F"], ["K"]] :
        List (List String)).Pairwise
      (fun p q => q.length ≤ p.length ∧
        (p.length = q.length → p = q ∨ List.Lex (· < ·) p q)) :=
  claim_C4
    [⟨"A", some "B"⟩, ⟨"B", some "C"⟩, ⟨"C", some "D"⟩, ⟨"C", some "E"⟩,
     ⟨"C", some "F"⟩, ⟨"K", none⟩]
    [("A", 1), ("B", 1), ("C", 1), ("D", 1), ("E", 1), ("F", 1), ("K", 4)]
    ⟨4, 7, 4, 4, [["A", "B", "C", "D"], ["A", "B", "C", "E"], ["A", "B", "C", "F"], ["K"]]⟩
    (by decide)

/-! ### Association-list lemmas -/

lemma aGet?_nil {k : String} : aGet? ([] : List (String × α)) k = none := rfl

lemma aGet?_cons {e : String × α} {m : List (String × α)} {k : String} :
    aGet? (e :: m) k = if e.1 = k then some e.2 else aGet? m k := by
  by_cases h : e.1 = k <;> simp [aGet?, List.find?_cons, h]

lemma aGet?_eq_none_iff {m : List (String × α)} {k : String} :
    aGet? m k = none ↔ k ∉ m.map Prod.fst := by
  induction m with
  | nil => simp [aGet?]
  | cons e m ih =>
      rw [aGet?_cons]
      by_cases h : e.1 = k
      · simp [h]
      · have h2 : ¬ (k = e.1) := fun hc => h hc.symm
        simp [h, h2, ih]

lemma aGet?_isSome_iff {m : List (String × α)} {k : String} :
    (aGet? m k).isSome = true ↔ k ∈ m.map Prod.fst := by
  constructor
  · intro h
    by_contra hc
    rw [aGet?_eq_none_iff.2 hc] at h
    simp at h
  · intro h
    cases ho : aGet? m k
    · exact absurd h (aGet?_eq_none_iff.1 ho)
    · simp

lemma aGet?_append_of_none {m₁ m₂ : List (String × α)} {k : String}
    (h : aGet? m₁ k = none) : aGet? (m₁ ++ m₂) k = aGet? m₂ k := by
  induction m₁ with
  | nil => simp
  | cons e m ih =>
      rw [aGet?_cons] at h
      rw [List.cons_append, aGet?_cons]
      by_cases he : e.1 = k
      · rw [if_pos he] at h
        exact absurd h (by simp)
      · rw [if_neg he] at h
        rw [if_neg he]
        exact ih h

lemma aGet?_append_of_some {m₁ m₂ : List (String × α)} {k : String} {v : α}
    (h : aGet? m₁ k = some v) : aGet? (m₁ ++ m₂) k = some v := by
  induction m₁ with
  | nil => simp [aGet?] at h
  | cons e m ih =>
      rw [aGet?_cons] at h
      rw [List.cons_append, aGet?_cons]
      by_cases he : e.1 = k
      · rwa [if_pos he] at h ⊢
      · rw [if_neg he] at h ⊢
        exact ih h

lemma aGet?_map_upd_self (m : List (String × α)) (k : String) (v : α) :
    aGet? (m.map (fun e => if e.1 = k then (k, v) else e)) k =
      (aGet? m k).map (fun _ => v) := by
  induction m with
  | nil => simp [aGet?]
  | cons e m ih =>
      rw [List.map_cons, aGet?_cons, aGet?_cons]
      by_cases he : e.1 = k
      · rw [if_pos he]
        simp [he]
      · rw [if_neg he]
        simp only [if_neg he]
        rw [ih]

lemma aGet?_map_upd_other (m : List (String × α)) (k : String) (v : α)
    {k' : String} (hk : k' ≠ k) :
    aGet? (m.map (fun e => if e.1 = k then (k, v) else e)) k' = aGet? m k' := by
  induction m with
  | nil => simp [aGet?]
  | cons e m ih =>
      rw [List.map_cons, aGet?_cons, aGet?_cons]
      by_cases he : e.1 = k
      · rw [if_pos he]
        have : ¬ ((k, v).1 = k') := fun hc => hk (by simpa using hc.symm)
        simp only [this, if_false]
        rw [ih]
        have he2 : ¬ (e.1 = k') := by rw [he]; exact fun hc => hk hc.symm
        rw [if_neg he2]
      · rw [if_neg he]
        by_cases he2 : e.1 = k'
        · rw [if_pos he2, if_pos he2]
        · rw [if_neg he2, if_neg he2, ih]

lemma aGet?_aInsert_self (m : List (String × α)) (k : String) (v : α) :
    aGet? (aInsert m k v) k = some v := by
  rw [aInsert]
  split
  · rename_i hs
    rw [aGet?_map_upd_self]
    have : (aGet? m k).isSome = true := by
      rw [aGet?] at *
      cases hf : m.find? (fun e => e.1 = k)
      · rw [hf] at hs
        exact absurd hs (by simp)
      · simp [hf]
    cases ho : aGet? m k
    · rw [ho] at this
      exact absurd this (by simp)
    · simp
  · rename_i hs
    have hn : aGet? m k = none := by
      rw [aGet?]
      cases hf : m.find? (fun e => e.1 = k)
      · simp
      · rw [hf] at hs
        exact absurd (by simp : (Option.some _).isSome = true) hs
    rw [aGet?_append_of_none hn, aGet?_cons]
    simp

lemma aGet?_aInsert_other (m : List (String × α)) (k : String) (v : α)
    {k' : String} (hk : k' ≠ k) :
    aGet? (aInsert m k v) k' = aGet? m k' := by
  rw [aInsert]
  split
  · exact aGet?_map_upd_other m k v hk
  · by_cases ho : (aGet? m k').isSome
    · cases hv : aGet? m k'
      · rw [hv] at ho
        exact absurd ho (by simp)
      · exact aGet?_append_of_some hv
    · have hn : aGet? m k' = none := by
        cases hv : aGet? m k'
        · rfl
        · rw [hv] at ho
          exact absurd (by simp) ho
      rw [aGet?_append_of_none hn, aGet?_cons]
      have : ¬ ((k, v).1 = k') := fun hc => hk (by simpa using hc.symm)
      rw [if_neg this, hn]
      rfl

lemma aGet?_aModify_self (m : List (String × α)) (k : String) (f : α → α) :
    aGet? (aModify m k f) k = (aGet? m k).map f := by
  rw [aModify]
  induction m with
  | nil => simp [aGet?]
  | cons e m ih =>
      rw [List.map_cons, aGet?_cons, aGet?_cons]
      by_cases he : e.1 = k
      · rw [if_pos he]
        simp [he]
      · rw [if_neg he]
        simp only [if_neg he]
        exact ih

lemma aGet?_aModify_other (m : List (String × α)) (k : String) (f : α → α)
    {k' : String} (hk : k' ≠ k) :
    aGet? (aModify m k f) k' = aGet? m k' := by
  rw [aModify]
  induction m with
  | nil => simp [aGet?]
  | cons e m ih =>
      rw [List.map_cons, aGet?_cons, aGet?_cons]
      by_cases he : e.1 = k
      · rw [if_pos he]
        have he2 : ¬ (e.1 = k') := by
          rw [he]
          exact fun hc => hk hc.symm
        simp only [he2, if_false]
        exact ih
      · rw [if_neg he]
        by_cases he2 : e.1 = k'
        · rw [if_pos he2, if_pos he2]
        · rw [if_neg he2, if_neg he2]
          exact ih

lemma find?_isSome_eq_aGet?_isSome (m : List (String × α)) (k : String) :
    (m.find? (fun e => e.1 = k)).isSome = (aGet? m k).isSome := by
  rw [aGet?]
  cases m.find? (fun e => e.1 = k) <;> rfl

lemma keys_aModify (m : List (String × α)) (k : String) (f : α → α) :
    (aModify m k f).map Prod.fst = m.map Prod.fst := by
  rw [aModify]
  induction m with
  | nil => rfl
  | cons e m ih =>
      rw [List.map_cons, List.map_cons, List.map_cons]
      by_cases he : e.1 = k
      · rw [if_pos he]
        exact congrArg _ ih
      · rw [if_neg he]
        exact congrArg _ ih

lemma keys_map_upd (m : List (String × α)) (k : String) (v : α) :
    (m.map (fun e => if e.1 = k then (k, v) else e)).map Prod.fst =
      m.map Prod.fst := by
  induction m with
  | nil => rfl
  | cons e m ih =>
      rw [List.map_cons, List.map_cons, List.map_cons]
      by_cases he : e.1 = k
      · rw [if_pos he]
        show k :: _ = e.1 :: _
        rw [he]
        exact congrArg _ ih
      · rw [if_neg he]
        exact congrArg _ ih

lemma keys_aInsert (m : List (String × α)) (k : String) (v : α) :
    (aInsert m k v).map Prod.fst =
      if k ∈ m.map Prod.fst then m.map Prod.fst else m.map Prod.fst ++ [k] := by
  rw [aInsert]
  by_cases hs : (m.find? (fun e => e.1 = k)).isSome
  · rw [if_pos hs]
    have hk : k ∈ m.map Prod.fst := by
      rw [← aGet?_isSome_iff, ← find?_isSome_eq_aGet?_isSome]
      exact hs
    rw [if_pos hk]
    exact keys_map_upd m k v
  · rw [if_neg hs]
    have hk : k ∉ m.map Prod.fst := by
      rw [← aGet?_isSome_iff, ← find?_isSome_eq_aGet?_isSome]
      simpa using hs
    rw [if_neg hk, List.map_append]
    rfl

/-! ### Characterization of `Graph.new` -/

/-- Number of precedence edges into `v` declared by the order set (the true
in-degree of `v`). -/
def inCount (ords : List TaskOrder) (v : String) : Nat :=
  (ords.filter (fun o => o.second = some v)).length

/-- The adjacency list the graph builder accumulates for `u`: the targets
of the orders whose first component is `u`, in order-set order. -/
def outList (ords : List TaskOrder) (u : String) : List String :=
  (ords.filter (fun o => o.first = u)).filterMap (fun o => o.second)

lemma mem_labelsOf {ords : List TaskOrder} {v : String} :
    v ∈ labelsOf ords ↔ ∃ o ∈ ords, o.first = v ∨ o.second = some v := by
  rw [labelsOf, List.mem_flatMap]
  constructor
  · rintro ⟨o, ho, hv⟩
    rw [TaskOrder.labels, List.mem_cons] at hv
    rcases hv with rfl | hv
    · exact ⟨o, ho, Or.inl rfl⟩
    · refine ⟨o, ho, Or.inr ?_⟩
      cases hs : o.second with
      | none => rw [hs] at hv; simp at hv
      | some w =>
          rw [hs] at hv
          simp at hv
          rw [hv]
  · rintro ⟨o, ho, hv | hv⟩
    · refine ⟨o, ho, ?_⟩
      rw [TaskOrder.labels, ← hv]
      exact List.mem_cons_self _ _
    · refine ⟨o, ho, ?_⟩
      rw [TaskOrder.labels, hv]
      simp

lemma inCount_eq_zero {ords : List TaskOrder} {v : String}
    (h : v ∉ labelsOf ords) : inCount ords v = 0 := by
  rw [inCount, List.length_eq_zero]
  rw [List.filter_eq_nil_iff]
  intro o ho
  simp only [decide_eq_true_eq]
  intro hs
  exact h (mem_labelsOf.2 ⟨o, ho, Or.inr hs⟩)

lemma aGet?_append_single {m : List (String × α)} {k k' : String} {v : α} :
    aGet? (m ++ [(k, v)]) k' =
      if (aGet? m k').isSome then aGet? m k'
      else if k = k' then some v else none := by
  cases ho : aGet? m k' with
  | some w =>
      rw [aGet?_append_of_some ho]
      simp
  | none =>
      rw [aGet?_append_of_none ho, aGet?_cons]
      simp [aGet?]

lemma Graph.step_none (g : Graph) (f : String) :
    Graph.step g ⟨f, none⟩ =
      ⟨if (aGet? g.task_graph f).isSome then g.task_graph
          else g.task_graph ++ [(f, [])],
        if (aGet? g.preceding_task_count f).isSome then g.preceding_task_count
          else g.preceding_task_count ++ [(f, 0)]⟩ := rfl

lemma Graph.step_some (g : Graph) (f s : String) :
    Graph.step g ⟨f, some s⟩ =
      (let pc := if (aGet? g.preceding_task_count f).isSome then
          g.preceding_task_count else g.preceding_task_count ++ [(f, 0)]
       let tg := if (aGet? g.task_graph f).isSome then
          g.task_graph else g.task_graph ++ [(f, [])]
       ⟨aModify tg f (fun l => l ++ [s]),
        match aGet? pc s with
        | some c => aInsert pc s (c + 1)
        | none => pc ++ [(s, 1)]⟩) := rfl

lemma outList_eq_nil {l : List TaskOrder} {u : String}
    (h : u ∉ l.map TaskOrder.first) : outList l u = [] := by
  rw [outList]
  have : l.filter (fun o => o.first = u) = [] := by
    rw [List.filter_eq_nil_iff]
    intro o ho
    simp only [decide_eq_true_eq]
    intro hf
    exact h (List.mem_map.2 ⟨o, ho, hf⟩)
  rw [this]
  rfl

/-- The full characterization of the graph builder, proven by one pass
over the order set: in-degree entries exist exactly for mentioned labels
and hold the true in-degree; adjacency entries exist exactly for first
components and hold the successor list in declaration order; the key list
of the in-degree map has no duplicates. -/
lemma graphNew_spec (ords : List TaskOrder) :
    (∀ v, aGet? (Graph.new ords).preceding_task_count v =
      if v ∈ labelsOf ords then some (inCount ords v) else none) ∧
    (∀ u, aGet? (Graph.new ords).task_graph u =
      if u ∈ ords.map TaskOrder.first then some (outList ords u) else none) ∧
    ((Graph.new ords).preceding_task_count.map Prod.fst).Nodup := by
  induction ords using List.reverseRecOn with
  | nil =>
      refine ⟨?_, ?_, ?_⟩
      · intro v
        rw [show labelsOf [] = [] from rfl]
        simp [Graph.new, aGet?]
      · intro u
        simp [Graph.new, aGet?]
      · simp [Graph.new]
  | append_singleton l o ih =>
      obtain ⟨ihp, iht, ihn⟩ := ih
      have hstep : Graph.new (l ++ [o]) = Graph.step (Graph.new l) o := by
        rw [Graph.new, Graph.new, List.foldl_append]
        rfl
      have hlab : ∀ v, v ∈ labelsOf (l ++ [o]) ↔
          (v ∈ labelsOf l ∨ o.first = v ∨ o.second = some v) := by
        intro v
        rw [mem_labelsOf]
        constructor
        · rintro ⟨o2, ho2, hc⟩
          rcases List.mem_append.1 ho2 with h | h
          · exact Or.inl (mem_labelsOf.2 ⟨o2, h, hc⟩)
          · have : o2 = o := by simpa using h
            subst this
            exact Or.inr hc
        · rintro (hc | hc)
          · obtain ⟨o2, h, hc⟩ := mem_labelsOf.1 hc
            exact ⟨o2, List.mem_append_left _ h, hc⟩
          · exact ⟨o, List.mem_append_right _ (by simp), hc⟩
      have hin : ∀ v, inCount (l ++ [o]) v =
          inCount l v + (if o.second = some v then 1 else 0) := by
        intro v
        rw [inCount, inCount, List.filter_append, List.length_append]
        congr 1
        by_cases hs : o.second = some v <;> simp [hs]
      have hout : ∀ u, outList (l ++ [o]) u =
          outList l u ++ (if o.first = u then o.second.toList else []) := by
        intro u
        rw [outList, outList, List.filter_append, List.filterMap_append]
        congr 1
        by_cases hf : o.first = u
        · rw [if_pos hf]
          have h2 : List.filter (fun o2 => o2.first = u) [o] = [o] := by
            simp [hf]
          rw [h2]
          obtain ⟨f2, s2⟩ := o
          cases s2 <;> rfl
        · rw [if_neg hf]
          have h2 : List.filter (fun o2 => o2.first = u) [o] = [] := by
            simp [hf]
          rw [h2]
          rfl
      obtain ⟨of, os⟩ := o
      have hpc1 : ∀ v,
          aGet? (if (aGet? (Graph.new l).preceding_task_count of).isSome then
              (Graph.new l).preceding_task_count
            else (Graph.new l).preceding_task_count ++ [(of, 0)]) v =
            if v ∈ labelsOf l ∨ of = v then some (inCount l v) else none := by
        intro v
        by_cases hf : of ∈ labelsOf l
        · rw [if_pos (by rw [ihp of, if_pos hf]; rfl)]
          rw [ihp v]
          by_cases hv : v ∈ labelsOf l
          · rw [if_pos hv, if_pos (Or.inl hv)]
          · rw [if_neg hv, if_neg ?_]
            rintro (h | h)
            · exact hv h
            · exact hv (h ▸ hf)
        · rw [if_neg (by rw [ihp of, if_neg hf]; simp)]
          rw [aGet?_append_single, ihp v]
          by_cases hv : v ∈ labelsOf l
          · rw [if_pos hv]
            simp only [Option.isSome_some, if_pos rfl, if_pos (Or.inl hv)]
            rfl
          · rw [if_neg hv]
            simp only [Option.isSome_none, Bool.false_eq_true, if_false]
            by_cases hfv : of = v
            · rw [if_pos hfv, if_pos (Or.inr hfv)]
              rw [← hfv] at hv
              rw [inCount_eq_zero (hfv ▸ hv)]
            · rw [if_neg hfv, if_neg ?_]
              rintro (h | h)
              · exact hv h
              · exact hfv h
      have htg1 : ∀ u,
          aGet? (if (aGet? (Graph.new l).task_graph of).isSome then
              (Graph.new l).task_graph
            else (Graph.new l).task_graph ++ [(of, [])]) u =
            if u ∈ l.map TaskOrder.first ∨ of = u then some (outList l u)
            else none := by
        intro u
        by_cases hf : of ∈ l.map TaskOrder.first
        · rw [if_pos (by rw [iht of, if_pos hf]; rfl)]
          rw [iht u]
          by_cases hu : u ∈ l.map TaskOrder.first
          · rw [if_pos hu, if_pos (Or.inl hu)]
          · rw [if_neg hu, if_neg ?_]
            rintro (h | h)
            · exact hu h
            · exact hu (h ▸ hf)
        · rw [if_neg (by rw [iht of, if_neg hf]; simp)]
          rw [aGet?_append_single, iht u]
          by_cases hu : u ∈ l.map TaskOrder.first
          · rw [if_pos hu]
            simp only [Option.isSome_some, if_pos rfl, if_pos (Or.inl hu)]
            rfl
          · rw [if_neg hu]
            simp only [Option.isSome_none, Bool.false_eq_true, if_false]
            by_cases hfu : of = u
            · rw [if_pos hfu, if_pos (Or.inr hfu)]
              rw [outList_eq_nil (hfu ▸ hu)]
            · rw [if_neg hfu, if_neg ?_]
              rintro (h | h)
              · exact hu h
              · exact hfu h
      have hkeys1 :
          ((if (aGet? (Graph.new l).preceding_task_count of).isSome then
              (Graph.new l).preceding_task_count
            else (Graph.new l).preceding_task_count ++ [(of, 0)]).map
              Prod.fst).Nodup ∧
          (∀ v, v ∈ ((if (aGet? (Graph.new l).preceding_task_count of).isSome then
              (Graph.new l).preceding_task_count
            else (Graph.new l).preceding_task_count ++ [(of, 0)]).map Prod.fst) ↔
            (v ∈ labelsOf l ∨ of = v)) := by
        constructor
        · by_cases hf : of ∈ labelsOf l
          · rw [if_pos (by rw [ihp of, if_pos hf]; rfl)]
            exact ihn
          · rw [if_neg (by rw [ihp of, if_neg hf]; simp)]
            rw [List.map_append]
            refine List.Nodup.append ihn (by simp) ?_
            intro v hv hv2
            have : v = of := by simpa using hv2
            subst this
            have := aGet?_isSome_iff.2 hv
            rw [ihp v, if_neg hf] at this
            simp at this
        · intro v
          rw [← aGet?_isSome_iff, hpc1 v]
          by_cases hv : v ∈ labelsOf l ∨ of = v <;> simp [hv]
      have hmemfirsts : ∀ u : String,
          u ∈ (l ++ [(⟨of, os⟩ : TaskOrder)]).map TaskOrder.first ↔
            (u ∈ l.map TaskOrder.first ∨ of = u) := by
        intro u
        rw [List.map_append, List.mem_append]
        constructor
        · rintro (h | h)
          · exact Or.inl h
          · refine Or.inr ?_
            have h2 : u = of := by simpa using h
            exact h2.symm
        · rintro (h | h)
          · exact Or.inl h
          · refine Or.inr ?_
            rw [← h]
            simp
      rw [hstep]
      cases os with
      | none =>
          rw [Graph.step_none]
          refine ⟨?_, ?_, hkeys1.1⟩
          · intro v
            show aGet? (if (aGet? (Graph.new l).preceding_task_count of).isSome then
                (Graph.new l).preceding_task_count
              else (Graph.new l).preceding_task_count ++ [(of, 0)]) v = _
            rw [hpc1 v]
            simp only [hlab v, hin v]
            show _ = if v ∈ labelsOf l ∨ of = v ∨ (none : Option String) = some v
              then some (inCount l v +
                if (none : Option String) = some v then 1 else 0) else none
            rw [if_neg (show ¬ (none : Option String) = some v by simp)]
            by_cases hv : v ∈ labelsOf l ∨ of = v
            · rw [if_pos hv, if_pos (by rcases hv with h | h
                                        · exact Or.inl h
                                        · exact Or.inr (Or.inl h))]
              simp
            · rw [if_neg hv, if_neg ?_]
              rintro (h | h | h)
              · exact hv (Or.inl h)
              · exact hv (Or.inr h)
              · exact Option.noConfusion h
          · intro u
            show aGet? (if (aGet? (Graph.new l).task_graph of).isSome then
                (Graph.new l).task_graph
              else (Graph.new l).task_graph ++ [(of, [])]) u = _
            rw [htg1 u]
            simp only [hout u, hmemfirsts u]
            show _ = if u ∈ l.map TaskOrder.first ∨ of = u
              then some (outList l u ++
                if of = u then (none : Option String).toList else []) else none
            by_cases hu : u ∈ l.map TaskOrder.first ∨ of = u
            · rw [if_pos hu, if_pos hu]
              by_cases hfu : of = u <;> simp [hfu]
            · rw [if_neg hu, if_neg hu]
      | some snd =>
          rw [Graph.step_some]
          dsimp only
          refine ⟨?_, ?_, ?_⟩
          · intro v
            simp only [hlab v, hin v]
            show aGet? (match aGet? (if (aGet? (Graph.new l).preceding_task_count of).isSome
                  then (Graph.new l).preceding_task_count
                  else (Graph.new l).preceding_task_count ++ [(of, 0)]) snd with
                | some c => aInsert (if (aGet? (Graph.new l).preceding_task_count of).isSome
                    then (Graph.new l).preceding_task_count
                    else (Graph.new l).preceding_task_count ++ [(of, 0)]) snd (c + 1)
                | none => (if (aGet? (Graph.new l).preceding_task_count of).isSome
                    then (Graph.new l).preceding_task_count
                    else (Graph.new l).preceding_task_count ++ [(of, 0)]) ++ [(snd, 1)]) v =
              if v ∈ labelsOf l ∨ of = v ∨ some snd = some v
              then some (inCount l v + if some snd = some v then 1 else 0) else none
            cases hsnd : aGet? (if (aGet? (Graph.new l).preceding_task_count of).isSome
                then (Graph.new l).preceding_task_count
                else (Graph.new l).preceding_task_count ++ [(of, 0)]) snd with
            | some c =>
                rw [hpc1 snd] at hsnd
                by_cases hs : snd ∈ labelsOf l ∨ of = snd
                · rw [if_pos hs] at hsnd
                  injection hsnd with hc
                  subst hc
                  by_cases hv : v = snd
                  · subst hv
                    rw [aGet?_aInsert_self]
                    rw [if_pos (Or.inr (Or.inr rfl)), if_pos rfl]
                  · rw [aGet?_aInsert_other _ _ _ (fun hc => hv hc), hpc1 v]
                    rw [if_neg (show ¬ some snd = some v from
                      fun hc => hv (by injection hc with h5; exact h5.symm))]
                    by_cases hv2 : v ∈ labelsOf l ∨ of = v
                    · rw [if_pos hv2, if_pos (by rcases hv2 with h | h
                                                 · exact Or.inl h
                                                 · exact Or.inr (Or.inl h))]
                      simp
                    · rw [if_neg hv2, if_neg ?_]
                      rintro (h | h | h)
                      · exact hv2 (Or.inl h)
                      · exact hv2 (Or.inr h)
                      · exact hv (by injection h with h5; exact h5.symm)
                · rw [if_neg hs] at hsnd
                  exact absurd hsnd (by simp)
            | none =>
                rw [hpc1 snd] at hsnd
                by_cases hs : snd ∈ labelsOf l ∨ of = snd
                · rw [if_pos hs] at hsnd
                  exact absurd hsnd (by simp)
                · rw [if_neg hs] at hsnd
                  rw [aGet?_append_single, hpc1 v]
                  by_cases hv : v = snd
                  · subst hv
                    rw [if_neg hs]
                    have hv2 : v ∉ labelsOf l := fun hc => hs (Or.inl hc)
                    rw [inCount_eq_zero hv2]
                    simp
                  · by_cases hv2 : v ∈ labelsOf l ∨ of = v
                    · rw [if_pos hv2]
                      rw [if_pos (show ((some (inCount l v)).isSome : Bool) = true
                        from rfl)]
                      rw [if_pos (by rcases hv2 with h | h
                                     · exact Or.inl h
                                     · exact Or.inr (Or.inl h))]
                      rw [if_neg (show ¬ some snd = some v from
                        fun hc => hv (by injection hc with h5; exact h5.symm))]
                      simp
                    · rw [if_neg hv2]
                      simp only [Option.isSome_none, Bool.false_eq_true, if_false]
                      rw [if_neg (fun hc => hv hc.symm), if_neg ?_]
                      rintro (h | h | h)
                      · exact hv2 (Or.inl h)
                      · exact hv2 (Or.inr h)
                      · exact hv (by injection h with h5; exact h5.symm)
          · intro u
            simp only [hout u, hmemfirsts u]
            show aGet? (aModify (if (aGet? (Graph.new l).task_graph of).isSome
                then (Graph.new l).task_graph
                else (Graph.new l).task_graph ++ [(of, [])]) of
                (fun l2 => l2 ++ [snd])) u =
              if u ∈ l.map TaskOrder.first ∨ of = u
              then some (outList l u ++ if of = u then [snd] else []) else none
            by_cases hu : u = of
            · rw [hu, aGet?_aModify_self, htg1 of]
              rw [if_pos (Or.inr rfl), if_pos (Or.inr rfl), if_pos rfl]
              rfl
            · rw [aGet?_aModify_other _ _ _ hu, htg1 u]
              by_cases hu2 : u ∈ l.map TaskOrder.first ∨ of = u
              · rcases hu2 with h | h
                · rw [if_pos (Or.inl h), if_pos (Or.inl h)]
                  rw [if_neg (fun hc => hu hc.symm)]
                  simp
                · exact absurd h.symm hu
              · rw [if_neg hu2, if_neg hu2]
          · show (List.map Prod.fst (match aGet? (if (aGet? (Graph.new l).preceding_task_count of).isSome
                then (Graph.new l).preceding_task_count
                else (Graph.new l).preceding_task_count ++ [(of, 0)]) snd with
              | some c => aInsert (if (aGet? (Graph.new l).preceding_task_count of).isSome
                  then (Graph.new l).preceding_task_count
                  else (Graph.new l).preceding_task_count ++ [(of, 0)]) snd (c + 1)
              | none => (if (aGet? (Graph.new l).preceding_task_count of).isSome
                  then (Graph.new l).preceding_task_count
                  else (Graph.new l).preceding_task_count ++ [(of, 0)]) ++ [(snd, 1)])).Nodup
            cases hsnd : aGet? (if (aGet? (Graph.new l).preceding_task_count of).isSome
                then (Graph.new l).preceding_task_count
                else (Graph.new l).preceding_task_count ++ [(of, 0)]) snd with
            | some c =>
                rw [keys_aInsert]
                rw [if_pos ?_]
                · exact hkeys1.1
                · rw [← aGet?_isSome_iff, hsnd]
                  rfl
            | none =>
                rw [List.map_append]
                refine List.Nodup.append hkeys1.1 (by simp) ?_
                intro v hv hv2
                have h2 : v = snd := by simpa using hv2
                subst h2
                have h3 := aGet?_isSome_iff.2 hv
                rw [hsnd] at h3
                simp at h3
/-! ### Sorted label lists (claims C5 and C6) -/

lemma sortLabels_perm (l : List String) : (sortLabels l).Perm l :=
  sortL_perm _ l

lemma sortLabels_pairwise_le (l : List String) :
    (sortLabels l).Pairwise (fun a b => a.toList ≤ b.toList) := by
  have h := @sortL_pairwise String (fun a b => decide (¬ b.toList < a.toList))
    (fun a b => by
      rcases le_total a.toList b.toList with h | h
      · exact Or.inl (by simpa using not_lt_of_ge h)
      · exact Or.inr (by simpa using not_lt_of_ge h))
    (fun a b c hab hbc => by
      simp only [decide_eq_true_iff] at hab hbc ⊢
      rw [not_lt] at hab hbc ⊢
      exact le_trans hab hbc) l
  exact h.imp (fun {a b} hab => by
    simp only [decide_eq_true_iff] at hab
    exact not_lt.1 hab)

/-- On a duplicate-free list the label sort produces a strictly ascending
list. -/
lemma sortLabels_strict {l : List String} (hnd : l.Nodup) :
    (sortLabels l).Pairwise (fun a b => a < b) := by
  have hs := sortLabels_pairwise_le l
  have hd : (sortLabels l).Nodup := (sortLabels_perm l).nodup_iff.2 hnd
  have := List.Pairwise.and hs hd
  exact this.imp (fun {a b} hab => by
    rcases hab with ⟨hle, hne⟩
    rw [String.lt_iff_toList_lt]
    refine lt_of_le_of_ne hle ?_
    intro hc
    exact hne (String.toList_inj.1 hc))

/-- C5: if at least one label mentioned by the order set (as source,
target, or standalone) has no recorded duration, and the input is not
empty, `analyze_schedule` fails with `MissingDurations` carrying exactly
those labels in strictly ascending lexicographic order. -/
theorem claim_C5 (ords : List TaskOrder) (durs : List (String × Nat))
    (hne : ¬ (ords = [] ∧ durs = []))
    (h : ∃ v ∈ labelsOf ords, v ∉ durs.map Prod.fst) :
    ∃ L, analyze_schedule ords durs = .error (.MissingDurations L) ∧
      (∀ x, x ∈ L ↔ (x ∈ labelsOf ords ∧ x ∉ durs.map Prod.fst)) ∧
      L.Pairwise (fun a b => a < b) := by
  obtain ⟨hpc, -, hnd⟩ := graphNew_spec ords
  have hkey : ∀ v, v ∈ (Graph.new ords).preceding_task_count.map Prod.fst ↔
      v ∈ labelsOf ords := by
    intro v
    rw [← aGet?_isSome_iff, hpc v]
    by_cases hv : v ∈ labelsOf ords <;> simp [hv]
  have hmem : ∀ x, x ∈ ((Graph.new ords).preceding_task_count.map
      (fun e => e.1)).filter (fun t => ¬ (aGet? durs t).isSome) ↔
      (x ∈ labelsOf ords ∧ x ∉ durs.map Prod.fst) := by
    intro x
    rw [List.mem_filter]
    constructor
    · rintro ⟨h1, h2⟩
      refine ⟨(hkey x).1 h1, ?_⟩
      rw [← aGet?_isSome_iff]
      simpa using h2
    · rintro ⟨h1, h2⟩
      refine ⟨(hkey x).2 h1, ?_⟩
      rw [← aGet?_isSome_iff] at h2
      simpa using h2
  have hne2 : ((Graph.new ords).preceding_task_count.map
      (fun e => e.1)).filter (fun t => ¬ (aGet? durs t).isSome) ≠ [] := by
    obtain ⟨v, hv1, hv2⟩ := h
    intro hc
    have := (hmem v).2 ⟨hv1, hv2⟩
    rw [hc] at this
    simp at this
  refine ⟨sortLabels (((Graph.new ords).preceding_task_count.map
      (fun e => e.1)).filter (fun t => ¬ (aGet? durs t).isSome)), ?_, ?_, ?_⟩
  · rw [analyze_schedule, if_neg hne]
    dsimp only
    rw [if_pos hne2]
  · intro x
    rw [(sortLabels_perm _).mem_iff]
    exact hmem x
  · refine sortLabels_strict (List.Nodup.filter _ ?_)
    exact hnd

/-- Witness for C5: order set `{A, B, D → L}` with durations only for `A`
and `L` (from the repository's `missing_durations` test). -/
theorem claim_C5_witness :
    ∃ L, analyze_schedule [⟨"A", none⟩, ⟨"B", none⟩, ⟨"D", some "L"⟩]
        [("A", 2), ("L", 1)] = .error (.MissingDurations L) ∧
      (∀ x, x ∈ L ↔ (x ∈ labelsOf [⟨"A", none⟩, ⟨"B", none⟩, ⟨"D", some "L"⟩] ∧
        x ∉ ([("A", 2), ("L", 1)] : List (String × Nat)).map Prod.fst)) ∧
      L.Pairwise (fun a b => a < b) :=
  claim_C5 [⟨"A", none⟩, ⟨"B", none⟩, ⟨"D", some "L"⟩] [("A", 2), ("L", 1)]
    (by decide) ⟨"B", by decide, by decide⟩

/-- C6: if every label of the order set has a recorded duration but some
duration-map label never appears in the order set, `analyze_schedule`
fails with `MissingOrders` carrying exactly those labels in strictly
ascending lexicographic order (the code reaches this branch through the
`task_durations.len() != preceding_task_count.len()` size comparison). -/
theorem claim_C6 (ords : List TaskOrder) (durs : List (String × Nat))
    (hnd : (durs.map Prod.fst).Nodup)
    (hcov : ∀ v ∈ labelsOf ords, v ∈ durs.map Prod.fst)
    (hex : ∃ v ∈ durs.map Prod.fst, v ∉ labelsOf ords) :
    ∃ L, analyze_schedule ords durs = .error (.MissingOrders L) ∧
      (∀ x, x ∈ L ↔ (x ∈ durs.map Prod.fst ∧ x ∉ labelsOf ords)) ∧
      L.Pairwise (fun a b => a < b) := by
  obtain ⟨hpc, -, hndp⟩ := graphNew_spec ords
  have hkey : ∀ v, v ∈ (Graph.new ords).preceding_task_count.map Prod.fst ↔
      v ∈ labelsOf ords := by
    intro v
    rw [← aGet?_isSome_iff, hpc v]
    by_cases hv : v ∈ labelsOf ords <;> simp [hv]
  have hne : ¬ (ords = [] ∧ durs = []) := by
    rintro ⟨-, h2⟩
    obtain ⟨v, hv, -⟩ := hex
    rw [h2] at hv
    simp at hv
  have hmissing : ((Graph.new ords).preceding_task_count.map
      (fun e => e.1)).filter (fun t => ¬ (aGet? durs t).isSome) = [] := by
    rw [List.filter_eq_nil_iff]
    intro x hx
    have := hcov x ((hkey x).1 hx)
    rw [← aGet?_isSome_iff] at this
    simp [this]
  have hlen : durs.length ≠ (Graph.new ords).preceding_task_count.length := by
    have h1 : (Graph.new ords).preceding_task_count.length =
        ((Graph.new ords).preceding_task_count.map Prod.fst).length := by
      rw [List.length_map]
    have h2 : durs.length = (durs.map Prod.fst).length := by
      rw [List.length_map]
    rw [h1, h2]
    have hsub : ((Graph.new ords).preceding_task_count.map Prod.fst).toFinset ⊂
        (durs.map Prod.fst).toFinset := by
      rw [Finset.ssubset_iff_of_subset]
      · obtain ⟨v, hv1, hv2⟩ := hex
        refine ⟨v, List.mem_toFinset.2 hv1, ?_⟩
        rw [List.mem_toFinset, hkey v]
        exact hv2
      · intro x hx
        rw [List.mem_toFinset] at hx ⊢
        exact hcov x ((hkey x).1 hx)
    have := Finset.card_lt_card hsub
    rw [List.toFinset_card_of_nodup hndp, List.toFinset_card_of_nodup hnd] at this
    omega
  have hmem : ∀ x, x ∈ (durs.map (fun e => e.1)).filter
      (fun t => ¬ (aGet? (Graph.new ords).preceding_task_count t).isSome) ↔
      (x ∈ durs.map Prod.fst ∧ x ∉ labelsOf ords) := by
    intro x
    rw [List.mem_filter]
    constructor
    · rintro ⟨h1, h2⟩
      refine ⟨h1, ?_⟩
      rw [← hkey x, ← aGet?_isSome_iff]
      simpa using h2
    · rintro ⟨h1, h2⟩
      refine ⟨h1, ?_⟩
      rw [← hkey x, ← aGet?_isSome_iff] at h2
      simpa using h2
  refine ⟨sortLabels ((durs.map (fun e => e.1)).filter
      (fun t => ¬ (aGet? (Graph.new ords).preceding_task_count t).isSome)), ?_, ?_, ?_⟩
  · rw [analyze_schedule, if_neg hne]
    dsimp only
    rw [if_neg (by rw [hmissing]; exact fun hc => hc rfl), if_pos hlen]
  · intro x
    rw [(sortLabels_perm _).mem_iff]
    exact hmem x
  · exact sortLabels_strict (List.Nodup.filter _ hnd)

/-- Witness for C6: order set `{A, D → L}`, durations for `A, B, D, L`
(from the repository's `missing_orders` test). -/
theorem claim_C6_witness :
    ∃ L, analyze_schedule [⟨"A", none⟩, ⟨"D", some "L"⟩]
        [("A", 2), ("B", 3), ("D", 7), ("L", 1)] = .error (.MissingOrders L) ∧
      (∀ x, x ∈ L ↔ (x ∈ ([("A", 2), ("B", 3), ("D", 7), ("L", 1)] :
          List (String × Nat)).map Prod.fst ∧
        x ∉ labelsOf [⟨"A", none⟩, ⟨"D", some "L"⟩])) ∧
      L.Pairwise (fun a b => a < b) :=
  claim_C6 [⟨"A", none⟩, ⟨"D", some "L"⟩] [("A", 2), ("B", 3), ("D", 7), ("L", 1)]
    (by decide) (by decide) ⟨"B", by decide, by decide⟩

/-! ### Spec-side graph theory for the traversal proofs -/

/-- The task set of an input: the keys of the in-degree map (every label
mentioned by the order set, each once). -/
def tasksOf (ords : List TaskOrder) : List String :=
  (Graph.new ords).preceding_task_count.map Prod.fst

/-- The predecessors of `v` in the precedence relation, as a finite set. -/
def predsF (ords : List TaskOrder) (v : String) : Finset String :=
  ((ords.filter (fun o => o.second = some v)).map TaskOrder.first).toFinset

/-- The popped tasks among the predecessors of `v` ("relaxers"): the
sources of the in-edges of `v` the traversal has already processed. -/
def rlxF (ords : List TaskOrder) (P : List String) (v : String) : Finset String :=
  (P.filter (fun u => decide (edgeOf ords u v))).toFinset

lemma mem_predsF {ords : List TaskOrder} {u v : String} :
    u ∈ predsF ords v ↔ edgeOf ords u v := by
  rw [predsF, List.mem_toFinset, List.mem_map]
  constructor
  · rintro ⟨o, ho, rfl⟩
    rw [List.mem_filter] at ho
    have h2 : o.second = some v := by simpa using ho.2
    have : o = ⟨o.first, some v⟩ := by
      cases o
      simp at h2 ⊢
      exact h2
    rw [edgeOf, ← this]
    exact ho.1
  · intro h
    refine ⟨⟨u, some v⟩, ?_, rfl⟩
    rw [List.mem_filter]
    exact ⟨h, by simp⟩

lemma mem_rlxF {ords : List TaskOrder} {P : List String} {u v : String} :
    u ∈ rlxF ords P v ↔ (u ∈ P ∧ edgeOf ords u v) := by
  rw [rlxF, List.mem_toFinset, List.mem_filter]
  simp

lemma rlxF_subset_predsF {ords : List TaskOrder} {P : List String} {v : String} :
    rlxF ords P v ⊆ predsF ords v := by
  intro u hu
  rw [mem_rlxF] at hu
  rw [mem_predsF]
  exact hu.2

lemma edgeOf_mem_left {ords : List TaskOrder} {u v : String}
    (h : edgeOf ords u v) : u ∈ labelsOf ords :=
  mem_labelsOf.2 ⟨⟨u, some v⟩, h, Or.inl rfl⟩

lemma edgeOf_mem_right {ords : List TaskOrder} {u v : String}
    (h : edgeOf ords u v) : v ∈ labelsOf ords :=
  mem_labelsOf.2 ⟨⟨u, some v⟩, h, Or.inr rfl⟩

lemma mem_tasksOf {ords : List TaskOrder} {v : String} :
    v ∈ tasksOf ords ↔ v ∈ labelsOf ords := by
  obtain ⟨hpc, -, -⟩ := graphNew_spec ords
  rw [tasksOf, ← aGet?_isSome_iff, hpc v]
  by_cases hv : v ∈ labelsOf ords <;> simp [hv]

lemma tasksOf_nodup (ords : List TaskOrder) : (tasksOf ords).Nodup :=
  (graphNew_spec ords).2.2

lemma mem_outList {ords : List TaskOrder} {u v : String} :
    v ∈ outList ords u ↔ edgeOf ords u v := by
  rw [outList, List.mem_filterMap]
  constructor
  · rintro ⟨o, ho, h2⟩
    rw [List.mem_filter] at ho
    have h3 : o.first = u := by simpa using ho.2
    have : o = ⟨u, some v⟩ := by
      cases o
      simp at h2 h3 ⊢
      exact ⟨h3, h2⟩
    rw [edgeOf, ← this]
    exact ho.1
  · intro h
    refine ⟨⟨u, some v⟩, ?_, rfl⟩
    rw [List.mem_filter]
    exact ⟨h, by simp⟩

lemma outList_eq_nil_iff_isSink {ords : List TaskOrder} {v : String} :
    outList ords v = [] ↔ IsSink ords v := by
  rw [IsSink]
  constructor
  · intro h w hw
    rw [← mem_outList, h] at hw
    exact List.not_mem_nil w hw
  · intro h
    cases ho : outList ords v with
    | nil => rfl
    | cons w ws =>
        exfalso
        refine h w ?_
        rw [← mem_outList, ho]
        exact List.mem_cons_self _ _

lemma isSource_iff_predsF_empty {ords : List TaskOrder} {v : String} :
    IsSource ords v ↔ predsF ords v = ∅ := by
  rw [IsSource]
  constructor
  · intro h
    rw [Finset.eq_empty_iff_forall_not_mem]
    intro u hu
    exact h u (mem_predsF.1 hu)
  · intro h u hu
    rw [← @mem_predsF ords u v] at hu
    rw [h] at hu
    exact Finset.not_mem_empty u hu

/-- In-degree entries of a deduplicated order set count exactly the
distinct predecessors. -/
lemma inCount_eq_card_predsF {ords : List TaskOrder} (hnd : ords.Nodup)
    (v : String) : inCount ords v = (predsF ords v).card := by
  rw [inCount, predsF]
  have hnd2 : ((ords.filter (fun o => o.second = some v)).map
      TaskOrder.first).Nodup := by
    refine List.Nodup.map_on ?_ (hnd.filter _)
    intro o1 h1 o2 h2 hf
    rw [List.mem_filter] at h1 h2
    have e1 : o1.second = some v := by simpa using h1.2
    have e2 : o2.second = some v := by simpa using h2.2
    cases o1
    cases o2
    simp at e1 e2 hf ⊢
    rw [e1, e2, hf]
    simp
  rw [List.toFinset_card_of_nodup hnd2, List.length_map]

/-- Every list of tasks has a member with no `r`-predecessor inside the
list, provided `r` has no cycles. -/
lemma exists_rel_min {r : String → String → Prop}
    (hirr : ∀ v, ¬ Relation.TransGen r v v) (T : List String) (hT : T ≠ []) :
    ∃ v ∈ T, ∀ u ∈ T, ¬ r u v := by
  haveI hfin : Finite {x // x ∈ T} := (T.finite_toSet).to_subtype
  let r2 : {x // x ∈ T} → {x // x ∈ T} → Prop :=
    fun a b => Relation.TransGen r a.1 b.1
  haveI : IsTrans {x // x ∈ T} r2 := ⟨fun _ _ _ hab hbc => hab.trans hbc⟩
  haveI : IsIrrefl {x // x ∈ T} r2 := ⟨fun a ha => hirr a.1 ha⟩
  have hwf : WellFounded r2 := Finite.wellFounded_of_trans_of_irrefl r2
  obtain ⟨v0, hv0⟩ := List.exists_mem_of_ne_nil T hT
  obtain ⟨m, -, hmin⟩ := hwf.has_min Set.univ ⟨⟨v0, hv0⟩, Set.mem_univ _⟩
  refine ⟨m.1, m.2, ?_⟩
  intro u hu hedge
  exact hmin ⟨u, hu⟩ (Set.mem_univ _) (Relation.TransGen.single hedge)

/-- A chain step relation connects the head to every later element by a
transitive chain. -/
lemma chain'_transGen {r : String → String → Prop} :
    ∀ {l : List String} {a b : String}, List.Chain' r (a :: l) → b ∈ l →
      Relation.TransGen r a b := by
  intro l
  induction l with
  | nil => intro a b _ hb; exact absurd hb (List.not_mem_nil b)
  | cons c l ih =>
      intro a b hch hb
      have h1 : r a c := (List.chain'_cons.1 hch).1
      rcases List.mem_cons.1 hb with rfl | hb
      · exact Relation.TransGen.single h1
      · exact (Relation.TransGen.single h1).trans (ih (List.chain'_cons.1 hch).2 hb)

/-- In an acyclic precedence relation every path visits each task at most
once. -/
lemma path_nodup {ords : List TaskOrder} (hcy : ¬ HasCycle ords) :
    ∀ {p : List String}, List.Chain' (edgeOf ords) p → p.Nodup := by
  intro p
  induction p with
  | nil => intro _; exact List.nodup_nil
  | cons a l ih =>
      intro hch
      rw [List.nodup_cons]
      refine ⟨?_, ih (List.Chain'.tail hch)⟩
      intro ha
      exact hcy ⟨a, chain'_transGen hch ha⟩

lemma pathWeight_append (durs : List (String × Nat)) (p q : List String) :
    pathWeight durs (p ++ q) = pathWeight durs p + pathWeight durs q := by
  rw [pathWeight, pathWeight, pathWeight, List.map_append, List.sum_append]

/-- In an acyclic graph the weight of any path is bounded by the sum of
all task durations. -/
lemma pathWeight_le_total {ords : List TaskOrder} {durs : List (String × Nat)}
    (hcy : ¬ HasCycle ords) {p : List String} (hp : IsPath ords p) :
    pathWeight durs p ≤ ((tasksOf ords).map (durOf durs)).sum := by
  obtain ⟨-, hmem, hch⟩ := hp
  have hnd : p.Nodup := path_nodup hcy hch
  have hsub : p.toFinset ⊆ (tasksOf ords).toFinset := by
    intro x hx
    rw [List.mem_toFinset] at hx ⊢
    rw [mem_tasksOf]
    exact hmem x hx
  calc pathWeight durs p = p.toFinset.sum (durOf durs) := by
        rw [pathWeight, List.sum_toFinset _ hnd]
    _ ≤ (tasksOf ords).toFinset.sum (durOf durs) :=
        Finset.sum_le_sum_of_subset hsub
    _ = ((tasksOf ords).map (durOf durs)).sum := by
        rw [List.sum_toFinset _ (tasksOf_nodup ords)]

lemma maxEndW_unique {ords : List TaskOrder} {durs : List (String × Nat)}
    {v : String} {w1 w2 : Nat} (h1 : MaxEndW ords durs v w1)
    (h2 : MaxEndW ords durs v w2) : w1 = w2 := by
  obtain ⟨⟨p1, hp1, hl1, hw1⟩, hb1⟩ := h1
  obtain ⟨⟨p2, hp2, hl2, hw2⟩, hb2⟩ := h2
  have e1 := hb2 p1 hp1 hl1
  have e2 := hb1 p2 hp2 hl2
  omega

/-- The singleton path. -/
lemma isPath_singleton {ords : List TaskOrder} {v : String}
    (hv : v ∈ labelsOf ords) : IsPath ords [v] := by
  refine ⟨by simp, ?_, by simp⟩
  intro x hx
  have : x = v := by simpa using hx
  rw [this]
  exact hv

/-- Every task has a maximal ending-path weight: the weight set is
nonempty (the singleton path) and bounded (paths are duplicate-free). -/
lemma maxEndW_exists {ords : List TaskOrder} {durs : List (String × Nat)}
    (hcy : ¬ HasCycle ords) {v : String} (hv : v ∈ labelsOf ords) :
    ∃ w, MaxEndW ords durs v w := by
  classical
  set S : Set Nat :=
    {w | ∃ p, IsPath ords p ∧ (∃ h : p ≠ [], p.getLast h = v) ∧
      pathWeight durs p = w} with hS
  have hne : S.Nonempty := by
    refine ⟨pathWeight durs [v], [v], isPath_singleton hv, ⟨by simp, by simp⟩, rfl⟩
  have hbd : BddAbove S := by
    refine ⟨((tasksOf ords).map (durOf durs)).sum, ?_⟩
    rintro w ⟨p, hp, -, rfl⟩
    exact pathWeight_le_total hcy hp
  refine ⟨sSup S, ?_, ?_⟩
  · exact Nat.sSup_mem hne hbd
  · intro p hp hl
    exact le_csSup hbd ⟨p, hp, hl, rfl⟩

/-- A task with no predecessors has maximal ending weight equal to its own
duration. -/
lemma maxEndW_source {ords : List TaskOrder} {durs : List (String × Nat)}
    {v : String} (hv : v ∈ labelsOf ords) (hsrc : predsF ords v = ∅) :
    MaxEndW ords durs v (durOf durs v) := by
  constructor
  · exact ⟨[v], isPath_singleton hv, ⟨by simp, by simp⟩, by simp [pathWeight]⟩
  · intro p hp hl
    obtain ⟨hne, hmem, hch⟩ := hp
    obtain ⟨h2, hlast⟩ := hl
    have hsplit : p = p.dropLast ++ [v] := by
      rw [← hlast]
      exact (List.dropLast_append_getLast h2).symm
    cases hd : p.dropLast with
    | nil =>
        rw [hsplit, hd, List.nil_append]
        simp [pathWeight]
    | cons a l =>
        exfalso
        rw [hsplit, hd] at hch
        rw [List.chain'_append] at hch
        obtain ⟨-, -, h3⟩ := hch
        have hgl : (a :: l).getLast? = some ((a :: l).getLast (by simp)) :=
          List.getLast?_eq_getLast _ (by simp)
        have h4 : edgeOf ords ((a :: l).getLast (by simp)) v := h3 _ hgl v rfl
        have h5 : (a :: l).getLast (by simp) ∈ predsF ords v := mem_predsF.2 h4
        rw [hsrc] at h5
        exact Finset.not_mem_empty _ h5

/-- The optimal-substructure step: when all predecessors of `v` are
accounted for, the partial maximum over predecessors is the true maximal
ending weight of `v`. -/
lemma maxEndW_of_pmax {ords : List TaskOrder} {durs : List (String × Nat)}
    (hcy : ¬ HasCycle ords) {v : String} (hv : v ∈ labelsOf ords) {w : Nat}
    (hatt : ∃ u ∈ predsF ords v, ∃ wu, MaxEndW ords durs u wu ∧ w = wu + durOf durs v)
    (hub : ∀ u ∈ predsF ords v, ∀ wu, MaxEndW ords durs u wu →
      wu + durOf durs v ≤ w) :
    MaxEndW ords durs v w := by
  constructor
  · obtain ⟨u, hu, wu, hwu, rfl⟩ := hatt
    obtain ⟨⟨p, hp, ⟨hpne, hplast⟩, hpw⟩, -⟩ := hwu
    refine ⟨p ++ [v], ?_, ⟨by simp, by simp⟩, ?_⟩
    · obtain ⟨-, hmem, hch⟩ := hp
      refine ⟨by simp, ?_, ?_⟩
      · intro x hx
        rcases List.mem_append.1 hx with hx | hx
        · exact hmem x hx
        · have : x = v := by simpa using hx
          rw [this]
          exact hv
      · rw [List.chain'_append]
        refine ⟨hch, by simp, ?_⟩
        intro x hx y hy
        have hy2 : y = v := by
          have h6 : ([v] : List String).head? = some v := rfl
          rw [h6, Option.mem_some_iff] at hy
          exact hy.symm
        have hx2 : x = u := by
          rw [List.getLast?_eq_getLast _ hpne, Option.mem_some_iff] at hx
          rw [← hx]
          exact hplast
        rw [hx2, hy2]
        exact mem_predsF.1 hu
    · rw [pathWeight_append, hpw]
      simp [pathWeight]
  · intro p hp hl
    obtain ⟨hne, hmem, hch⟩ := hp
    obtain ⟨h2, hlast⟩ := hl
    have hsplit : p = p.dropLast ++ [v] := by
      rw [← hlast]
      exact (List.dropLast_append_getLast h2).symm
    cases hd : p.dropLast with
    | nil =>
        rw [hsplit, hd, List.nil_append]
        obtain ⟨u, hu, wu, hwu, rfl⟩ := hatt
        have h6 : pathWeight durs [v] = durOf durs v := by simp [pathWeight]
        rw [h6]
        omega
    | cons a l =>
        have hch2 := hch
        rw [hsplit, hd, List.chain'_append] at hch2
        obtain ⟨hch3, -, h3⟩ := hch2
        have hgl : (a :: l).getLast? = some ((a :: l).getLast (by simp)) :=
          List.getLast?_eq_getLast _ (by simp)
        have h4 : edgeOf ords ((a :: l).getLast (by simp)) v := h3 _ hgl v rfl
        have hp2 : IsPath ords (a :: l) := by
          refine ⟨by simp, ?_, hch3⟩
          intro x hx
          refine hmem x ?_
          rw [hsplit, hd]
          exact List.mem_append_left _ hx
        obtain ⟨wu, hwu⟩ := maxEndW_exists hcy
          (hp2.2.1 ((a :: l).getLast (by simp)) (List.getLast_mem (by simp)))
        have hq : pathWeight durs (a :: l) ≤ wu :=
          hwu.2 (a :: l) hp2 ⟨by simp, rfl⟩
        have h5 := hub ((a :: l).getLast (by simp)) (mem_predsF.2 h4) wu hwu
        have h6 : pathWeight durs p = pathWeight durs (a :: l) + durOf durs v := by
          conv =>
            lhs
            rw [hsplit, hd]
          rw [pathWeight_append]
          have h7 : pathWeight durs [v] = durOf durs v := by simp [pathWeight]
          rw [h7]
        omega
/-- In an acyclic graph every path extends backwards to a path of at least
the same weight that starts at a source. -/
lemma extend_to_source {ords : List TaskOrder} {durs : List (String × Nat)}
    (hcy : ¬ HasCycle ords) :
    ∀ n p, (tasksOf ords).length + 1 - p.length ≤ n → IsPath ords p →
      ∃ q, IsPath ords q ∧ (∃ hq : q ≠ [], ∀ hp : p ≠ [],
        q.getLast hq = p.getLast hp ∧ IsSource ords (q.head hq)) ∧
        pathWeight durs p ≤ pathWeight durs q := by
  intro n
  induction n with
  | zero =>
      intro p hlen hp
      exfalso
      have h1 : p.Nodup := path_nodup hcy hp.2.2
      have h2 : p.length ≤ (tasksOf ords).length := by
        have h3 : p.toFinset ⊆ (tasksOf ords).toFinset := by
          intro x hx
          rw [List.mem_toFinset] at hx ⊢
          rw [mem_tasksOf]
          exact hp.2.1 x hx
        have h4 := Finset.card_le_card h3
        rw [List.toFinset_card_of_nodup h1,
          List.toFinset_card_of_nodup (tasksOf_nodup ords)] at h4
        exact h4
      omega
  | succ n ih =>
      intro p hlen hp
      have hpne : p ≠ [] := hp.1
      by_cases hsrc : predsF ords (p.head hpne) = ∅
      · refine ⟨p, hp, ⟨hpne, ?_⟩, le_refl _⟩
        intro hp2
        exact ⟨rfl, isSource_iff_predsF_empty.2 hsrc⟩
      · obtain ⟨u, hu⟩ := Finset.nonempty_iff_ne_empty.2 hsrc
        have hedge : edgeOf ords u (p.head hpne) := mem_predsF.1 hu
        have hp2 : IsPath ords (u :: p) := by
          refine ⟨by simp, ?_, ?_⟩
          · intro x hx
            rcases List.mem_cons.1 hx with rfl | hx
            · exact edgeOf_mem_left hedge
            · exact hp.2.1 x hx
          · rw [List.chain'_cons']
            refine ⟨?_, hp.2.2⟩
            intro y hy
            rw [List.head?_eq_head hpne] at hy
            have h7 : p.head hpne = y := by
              cases hy
              rfl
            rw [← h7]
            exact hedge
        have hlen2 : (tasksOf ords).length + 1 - (u :: p).length ≤ n := by
          have h1 : (u :: p).Nodup := path_nodup hcy hp2.2.2
          have h2 : (u :: p).length ≤ (tasksOf ords).length := by
            have h3 : (u :: p).toFinset ⊆ (tasksOf ords).toFinset := by
              intro x hx
              rw [List.mem_toFinset] at hx ⊢
              rw [mem_tasksOf]
              exact hp2.2.1 x hx
            have h4 := Finset.card_le_card h3
            rw [List.toFinset_card_of_nodup h1,
              List.toFinset_card_of_nodup (tasksOf_nodup ords)] at h4
            exact h4
          simp only [List.length_cons] at h2 ⊢
          omega
        obtain ⟨q, hq, ⟨hqne, hqlast⟩, hqw⟩ := ih (u :: p) hlen2 hp2
        refine ⟨q, hq, ⟨hqne, ?_⟩, ?_⟩
        · intro hp3
          obtain ⟨hl, hs⟩ := hqlast (by simp)
          refine ⟨?_, hs⟩
          rw [hl]
          rw [List.getLast_cons hpne]
        · refine le_trans ?_ hqw
          have : pathWeight durs (u :: p) = durOf durs u + pathWeight durs p := by
            rw [pathWeight, pathWeight, List.map_cons, List.sum_cons]
          omega

/-! ### The loop invariant -/

/-- Partial maximum: `w` is the greatest value of `wu + duration v` over
the relaxers `u ∈ R` (each with its maximal ending weight `wu`). -/
def PMaxW (ords : List TaskOrder) (durs : List (String × Nat))
    (R : Finset String) (v : String) (w : Nat) : Prop :=
  (∃ u ∈ R, ∃ wu, MaxEndW ords durs u wu ∧ w = wu + durOf durs v) ∧
  (∀ u ∈ R, ∀ wu, MaxEndW ords durs u wu → wu + durOf durs v ≤ w)

/-- The parent-list characterization: `l` collects exactly the relaxers
whose optimal path attains the recorded longest value `w`. -/
def ParOk (ords : List TaskOrder) (durs : List (String × Nat))
    (R : Finset String) (v : String) (l : List String) (w : Nat) : Prop :=
  l.Nodup ∧ ∀ u, u ∈ l ↔ (u ∈ R ∧ ∃ wu, MaxEndW ords durs u wu ∧
    wu + durOf durs v = w)

/-- The invariant of the `while` loop at iteration boundaries.  `P` is the
list of popped tasks in pop order; `R v` abbreviates the processed-in-edge
sources `rlxF ords P v`. -/
structure LoopInv (ords : List TaskOrder) (durs : List (String × Nat))
    (s : LoopState) (P : List String) : Prop where
  popNodup : P.Nodup
  popTasks : ∀ v ∈ P, v ∈ tasksOf ords
  qNodup : (s.queue.map Prod.fst).Nodup
  qTasks : ∀ e ∈ s.queue, e.1 ∈ tasksOf ords
  qNotPopped : ∀ e ∈ s.queue, e.1 ∉ P
  ckeys : s.counts.map Prod.fst = tasksOf ords
  cval : ∀ v ∈ tasksOf ords, aGet? s.counts v =
    some ((predsF ords v \ rlxF ords P v).card)
  pushedIff : ∀ v ∈ tasksOf ords,
    ((v ∈ P ∨ v ∈ s.queue.map Prod.fst) ↔ predsF ords v ⊆ rlxF ords P v)
  popOrder : ∀ i (h : i < P.length) u, edgeOf ords u (P.get ⟨i, h⟩) →
    u ∈ P.take i
  lguard : ¬ HasCycle ords → ∀ v ∈ tasksOf ords,
    (v ∈ P ∨ v ∈ s.queue.map Prod.fst) →
    ∃ w, aGet? s.longest v = some w ∧ MaxEndW ords durs v w
  lpart : ¬ HasCycle ords → ∀ v ∈ tasksOf ords,
    ¬ (v ∈ P ∨ v ∈ s.queue.map Prod.fst) →
    ((aGet? s.longest v = none ∧ rlxF ords P v = ∅) ∨
     (∃ w, aGet? s.longest v = some w ∧ rlxF ords P v ≠ ∅ ∧
       PMaxW ords durs (rlxF ords P v) v w))
  parNone : ∀ v, rlxF ords P v = ∅ → aGet? s.parents v = none
  parSome : ¬ HasCycle ords → ∀ v, rlxF ords P v ≠ ∅ →
    ∃ l w, aGet? s.parents v = some l ∧
      aGet? s.longest v = some w ∧ ParOk ords durs (rlxF ords P v) v l w
  sinksEq : s.sinks = P.filter (fun v => decide (outList ords v = []))

/-- The processed relaxer set in the middle of processing task `x`, after
the prefix `pre` of its adjacency list. -/
def rlxM (ords : List TaskOrder) (P : List String) (x : String)
    (pre : List String) (v : String) : Finset String :=
  rlxF ords P v ∪ (if v ∈ pre then {x} else ∅)

/-- The invariant in the middle of the `for &to_task in adjacent_tasks`
loop of popped task `x` (which has a nonempty adjacency list `pre ++ suf`,
of which `pre` is already processed). -/
structure MidInv (ords : List TaskOrder) (durs : List (String × Nat))
    (s : LoopState) (P : List String) (x : String) (pre : List String) :
    Prop where
  popNodup : P.Nodup
  popTasks : ∀ v ∈ P, v ∈ tasksOf ords
  xNotPopped : x ∉ P
  xTask : x ∈ tasksOf ords
  xNoSelf : ¬ edgeOf ords x x
  xPreds : ∀ u, edgeOf ords u x → u ∈ P
  qNodup : (s.queue.map Prod.fst).Nodup
  qTasks : ∀ e ∈ s.queue, e.1 ∈ tasksOf ords
  qNotPopped : ∀ e ∈ s.queue, e.1 ∉ P ∧ e.1 ≠ x
  ckeys : s.counts.map Prod.fst = tasksOf ords
  cval : ∀ v ∈ tasksOf ords, aGet? s.counts v =
    some ((predsF ords v \ rlxM ords P x pre v).card)
  pushedIff : ∀ v ∈ tasksOf ords,
    ((v ∈ P ∨ v = x ∨ v ∈ s.queue.map Prod.fst) ↔
      predsF ords v ⊆ rlxM ords P x pre v)
  popOrder : ∀ i (h : i < P.length) u, edgeOf ords u (P.get ⟨i, h⟩) →
    u ∈ P.take i
  lguard : ¬ HasCycle ords → ∀ v ∈ tasksOf ords,
    (v ∈ P ∨ v = x ∨ v ∈ s.queue.map Prod.fst) →
    ∃ w, aGet? s.longest v = some w ∧ MaxEndW ords durs v w
  lpart : ¬ HasCycle ords → ∀ v ∈ tasksOf ords,
    ¬ (v ∈ P ∨ v = x ∨ v ∈ s.queue.map Prod.fst) →
    ((aGet? s.longest v = none ∧ rlxM ords P x pre v = ∅) ∨
     (∃ w, aGet? s.longest v = some w ∧ rlxM ords P x pre v ≠ ∅ ∧
       PMaxW ords durs (rlxM ords P x pre v) v w))
  parNone : ∀ v, rlxM ords P x pre v = ∅ → aGet? s.parents v = none
  parSome : ¬ HasCycle ords → ∀ v, rlxM ords P x pre v ≠ ∅ →
    ∃ l w, aGet? s.parents v = some l ∧
      aGet? s.longest v = some w ∧ ParOk ords durs (rlxM ords P x pre v) v l w
  sinksEq : s.sinks = (P ++ [x]).filter (fun v => decide (outList ords v = []))

lemma hPush_perm (q : List (String × Nat)) (x : String × Nat) :
    (hPush q x).Perm (x :: q) := by
  induction q with
  | nil => simp [hPush]
  | cons y ys ih =>
      rw [hPush]
      split
      · exact (ih.cons y).trans (List.Perm.swap x y ys)
      · exact List.Perm.refl _

lemma aGet?_eq_some_iff_of_nodup {m : List (String × α)} {k : String} {c : α}
    (hnd : (m.map Prod.fst).Nodup) : aGet? m k = some c ↔ (k, c) ∈ m := by
  induction m with
  | nil => simp [aGet?]
  | cons e m ih =>
      rw [aGet?_cons]
      rw [List.map_cons, List.nodup_cons] at hnd
      by_cases he : e.1 = k
      · rw [if_pos he]
        constructor
        · intro h
          have h2 : c = e.2 := by
            injection h with h
            exact h.symm
          rw [h2, ← he]
          exact List.mem_cons_self _ _
        · intro h
          rcases List.mem_cons.1 h with h | h
          · rw [← h]
          · exfalso
            refine hnd.1 ?_
            exact List.mem_map.2 ⟨(k, c), h, he.symm⟩
      · rw [if_neg he]
        rw [ih hnd.2]
        constructor
        · exact fun h => List.mem_cons_of_mem _ h
        · intro h
          rcases List.mem_cons.1 h with h | h
          · exfalso
            rw [← h] at he
            exact he rfl
          · exact h

/-- Characterization of the seeding pass: the queue holds exactly the
zero-in-degree entries (paired with their durations), and the longest map
holds exactly their durations. -/
lemma seedQueue_spec (durs : List (String × Nat)) (counts : List (String × Nat)) :
    ((seedQueue durs counts).1).Perm
      ((counts.filter (fun e => e.2 = 0)).map (fun e => (e.1, aGet! durs e.1))) ∧
    (∀ v, aGet? (seedQueue durs counts).2 v =
      if v ∈ (counts.filter (fun e => e.2 = 0)).map Prod.fst
      then some (aGet! durs v) else none) := by
  suffices h : ∀ q lg, (counts.foldl
      (fun ql e => if e.2 = 0 then
        (hPush ql.1 (e.1, aGet! durs e.1), aInsert ql.2 e.1 (aGet! durs e.1))
        else ql) (q, lg)).1.Perm
        (q ++ (counts.filter (fun e => e.2 = 0)).map (fun e => (e.1, aGet! durs e.1))) ∧
      (∀ v, aGet? (counts.foldl
      (fun ql e => if e.2 = 0 then
        (hPush ql.1 (e.1, aGet! durs e.1), aInsert ql.2 e.1 (aGet! durs e.1))
        else ql) (q, lg)).2 v =
        if v ∈ (counts.filter (fun e => e.2 = 0)).map Prod.fst
        then some (aGet! durs v) else aGet? lg v) by
    have h2 := h [] []
    constructor
    · simpa using h2.1
    · intro v
      have h3 := h2.2 v
      rw [show (seedQueue durs counts) = (counts.foldl
        (fun ql e => if e.2 = 0 then
          (hPush ql.1 (e.1, aGet! durs e.1), aInsert ql.2 e.1 (aGet! durs e.1))
          else ql) ([], [])) from rfl, h3]
      by_cases hv : v ∈ (counts.filter (fun e => e.2 = 0)).map Prod.fst <;>
        simp [hv, aGet?]
  induction counts with
  | nil =>
      intro q lg
      simp
  | cons e counts ih =>
      intro q lg
      rw [List.foldl_cons]
      by_cases he : e.2 = 0
      · rw [if_pos he]
        obtain ⟨ih1, ih2⟩ := ih (hPush q (e.1, aGet! durs e.1))
          (aInsert lg e.1 (aGet! durs e.1))
        constructor
        · refine ih1.trans ?_
          have hfe : (e :: counts).filter (fun e => e.2 = 0) =
              e :: counts.filter (fun e => e.2 = 0) := by
            rw [List.filter_cons, if_pos (by simpa using he)]
          rw [hfe, List.map_cons]
          refine List.Perm.trans (List.Perm.append_right _ (hPush_perm q _)) ?_
          exact List.perm_middle.symm
        · intro v
          rw [ih2 v]
          have hfe : (e :: counts).filter (fun e => e.2 = 0) =
              e :: counts.filter (fun e => e.2 = 0) := by
            rw [List.filter_cons, if_pos (by simpa using he)]
          rw [hfe, List.map_cons]
          by_cases hv : v ∈ (counts.filter (fun e => e.2 = 0)).map Prod.fst
          · rw [if_pos hv, if_pos (List.mem_cons_of_mem _ hv)]
          · rw [if_neg hv]
            by_cases hv2 : v = e.1
            · rw [if_pos (by rw [hv2]; exact List.mem_cons_self _ _)]
              rw [hv2, aGet?_aInsert_self]
            · rw [if_neg ?_]
              · exact aGet?_aInsert_other _ _ _ (fun hc => hv2 hc)
              · intro hc
                rcases List.mem_cons.1 hc with hc | hc
                · exact hv2 hc
                · exact hv hc
      · rw [if_neg he]
        obtain ⟨ih1, ih2⟩ := ih q lg
        have hfe : (e :: counts).filter (fun e => e.2 = 0) =
            counts.filter (fun e => e.2 = 0) := by
          rw [List.filter_cons, if_neg (by simpa using he)]
        constructor
        · rw [hfe]
          exact ih1
        · intro v
          rw [hfe]
          exact ih2 v

lemma rlxF_nil (ords : List TaskOrder) (v : String) : rlxF ords [] v = ∅ := rfl

/-- The state after seeding satisfies the loop invariant with no popped
tasks. -/
lemma loopInv_init (ords : List TaskOrder) (durs : List (String × Nat))
    (hnd : ords.Nodup) :
    LoopInv ords durs
      ⟨(seedQueue durs (Graph.new ords).preceding_task_count).1, 0, [], [],
        (seedQueue durs (Graph.new ords).preceding_task_count).2,
        (Graph.new ords).preceding_task_count⟩ [] := by
  obtain ⟨hpc, -, hkn⟩ := graphNew_spec ords
  obtain ⟨hq, hl⟩ := seedQueue_spec durs (Graph.new ords).preceding_task_count
  have hzk : ∀ v, v ∈ ((Graph.new ords).preceding_task_count.filter
      (fun e => e.2 = 0)).map Prod.fst ↔ (v ∈ tasksOf ords ∧ predsF ords v = ∅) := by
    intro v
    rw [List.mem_map]
    constructor
    · rintro ⟨e, he, rfl⟩
      rw [List.mem_filter] at he
      have he2 : e.2 = 0 := by simpa using he.2
      have hin : aGet? (Graph.new ords).preceding_task_count e.1 = some 0 := by
        rw [aGet?_eq_some_iff_of_nodup hkn]
        rw [← he2]
        exact he.1
      rw [hpc e.1] at hin
      by_cases hv : e.1 ∈ labelsOf ords
      · rw [if_pos hv] at hin
        injection hin with hin
        refine ⟨mem_tasksOf.2 hv, ?_⟩
        rw [← Finset.card_eq_zero, ← inCount_eq_card_predsF hnd, hin]
      · rw [if_neg hv] at hin
        exact absurd hin (by simp)
    · rintro ⟨hv, hsrc⟩
      have hin : aGet? (Graph.new ords).preceding_task_count v = some 0 := by
        rw [hpc v, if_pos (mem_tasksOf.1 hv)]
        rw [inCount_eq_card_predsF hnd, hsrc]
        simp
      rw [aGet?_eq_some_iff_of_nodup hkn] at hin
      refine ⟨(v, 0), ?_, rfl⟩
      rw [List.mem_filter]
      exact ⟨hin, by simp⟩
  have hqk : ((seedQueue durs (Graph.new ords).preceding_task_count).1.map
      Prod.fst).Perm (((Graph.new ords).preceding_task_count.filter
      (fun e => e.2 = 0)).map Prod.fst) := by
    have h2 := hq.map Prod.fst
    rw [List.map_map] at h2
    exact h2
  have hqmem : ∀ v, v ∈ (seedQueue durs (Graph.new ords).preceding_task_count).1.map
      Prod.fst ↔ (v ∈ tasksOf ords ∧ predsF ords v = ∅) := by
    intro v
    rw [hqk.mem_iff]
    exact hzk v
  refine ⟨List.nodup_nil, by simp, ?_, ?_, by simp, rfl, ?_, ?_, ?_, ?_, ?_, ?_, ?_, rfl⟩
  · refine hqk.nodup_iff.2 ?_
    refine List.Nodup.sublist ?_ hkn
    exact List.Sublist.map _ (List.filter_sublist _)
  · intro e he
    have : e.1 ∈ (seedQueue durs (Graph.new ords).preceding_task_count).1.map
        Prod.fst := List.mem_map.2 ⟨e, he, rfl⟩
    exact ((hqmem e.1).1 this).1
  · intro v hv
    rw [hpc v, if_pos (mem_tasksOf.1 hv), rlxF_nil, Finset.sdiff_empty,
      inCount_eq_card_predsF hnd]
  · intro v hv
    rw [rlxF_nil]
    constructor
    · rintro (h | h)
      · exact absurd h (List.not_mem_nil v)
      · rw [Finset.subset_empty]
        exact ((hqmem v).1 h).2
    · intro h
      rw [Finset.subset_empty] at h
      exact Or.inr ((hqmem v).2 ⟨hv, h⟩)
  · intro i h
    exact absurd h (by simp)
  · intro _ v hv hp
    rcases hp with h | h
    · exact absurd h (List.not_mem_nil v)
    · have h2 := (hqmem v).1 h
      refine ⟨aGet! durs v, ?_, ?_⟩
      · rw [hl v, if_pos ((hzk v).2 h2)]
      · exact maxEndW_source (mem_tasksOf.1 hv) h2.2
  · intro _ v hv hp
    refine Or.inl ⟨?_, rlxF_nil ords v⟩
    rw [hl v, if_neg ?_]
    intro hc
    exact hp (Or.inr ((hqmem v).2 ((hzk v).1 hc)))
  · intro v _
    rfl
  · intro _ v hv
    exact absurd (rlxF_nil ords v) hv

/-! ### Preservation of the invariant by `processEdge` -/

/-- Deduplicated order sets have duplicate-free adjacency lists. -/
lemma outList_nodup {ords : List TaskOrder} (hnd : ords.Nodup) (u : String) :
    (outList ords u).Nodup := by
  rw [outList]
  have hsub : ∀ o ∈ ords.filter (fun o => o.first = u), o.first = u := by
    intro o ho
    have := (List.mem_filter.1 ho).2
    simpa using this
  have hnd2 : (ords.filter (fun o => o.first = u)).Nodup := hnd.filter _
  revert hsub hnd2
  induction ords.filter (fun o => o.first = u) with
  | nil => intro _ _; simp
  | cons o l ih =>
      intro hsub hnd2
      rw [List.filterMap_cons]
      rw [List.nodup_cons] at hnd2
      cases ho : o.second with
      | none => exact ih (fun o' ho' => hsub o' (List.mem_cons_of_mem _ ho')) hnd2.2
      | some sfin =>
          rw [List.nodup_cons]
          refine ⟨?_, ih (fun o' ho' => hsub o' (List.mem_cons_of_mem _ ho')) hnd2.2⟩
          intro hc
          rw [List.mem_filterMap] at hc
          obtain ⟨o', ho', ho2⟩ := hc
          have he : o' = o := by
            have h1 : o'.first = u := hsub o' (List.mem_cons_of_mem _ ho')
            have h2 : o.first = u := hsub o (List.mem_cons_self _ _)
            cases o'
            cases o
            simp at ho ho2 h1 h2 ⊢
            rw [h1, h2, ho, ho2]
            simp
          rw [he] at ho'
          exact hnd2.1 ho'

lemma mem_rlxM {ords : List TaskOrder} {P : List String} {x : String}
    {pre : List String} {v u : String} :
    u ∈ rlxM ords P x pre v ↔ ((u ∈ P ∧ edgeOf ords u v) ∨ (v ∈ pre ∧ u = x)) := by
  rw [rlxM, Finset.mem_union, mem_rlxF]
  by_cases hv : v ∈ pre <;> simp [hv]

lemma rlxM_append_other {ords : List TaskOrder} {P : List String} {x : String}
    {pre : List String} {w v : String} (hv : v ≠ w) :
    rlxM ords P x (pre ++ [w]) v = rlxM ords P x pre v := by
  rw [rlxM, rlxM]
  congr 1
  by_cases hp : v ∈ pre
  · rw [if_pos (List.mem_append_left _ hp), if_pos hp]
  · rw [if_neg hp, if_neg ?_]
    intro hc
    rcases List.mem_append.1 hc with hc | hc
    · exact hp hc
    · exact hv (by simpa using hc)

lemma rlxM_self_of_not_mem {ords : List TaskOrder} {P : List String} {x : String}
    {pre : List String} {w : String} (hw : w ∉ pre) :
    rlxM ords P x pre w = rlxF ords P w := by
  rw [rlxM, if_neg hw, Finset.union_empty]

lemma rlxM_append_self {ords : List TaskOrder} {P : List String} {x : String}
    {pre : List String} {w : String} :
    rlxM ords P x (pre ++ [w]) w = rlxF ords P w ∪ {x} := by
  rw [rlxM, if_pos (List.mem_append_right _ (by simp))]

lemma card_sdiff_union_singleton {s t : Finset String} {x : String}
    (hx : x ∈ s) (hxt : x ∉ t) :
    (s \ t).card = (s \ (t ∪ {x})).card + 1 := by
  have h1 : s \ (t ∪ {x}) = (s \ t).erase x := by
    ext y
    simp only [Finset.mem_sdiff, Finset.mem_erase, Finset.mem_union,
      Finset.mem_singleton]
    tauto
  have h2 : x ∈ s \ t := Finset.mem_sdiff.2 ⟨hx, hxt⟩
  rw [h1, Finset.card_erase_of_mem h2]
  have := Finset.card_pos.2 ⟨x, h2⟩
  omega

/-- The common tail of `processEdge`: decrement the in-degree count of the
edge target and push it when the count hits zero, with the already-updated
longest map `L'` and parent map `p'`. -/
def pushHalf (s : LoopState) (w : String) (L' : List (String × Nat))
    (p' : List (String × List String)) : LoopState :=
  if aGet! (aModify s.counts w (fun c => c - 1)) w = 0 then
    ⟨hPush s.queue (w, aGet! L' w), s.maxPar, s.sinks, p', L',
      aModify s.counts w (fun c => c - 1)⟩
  else ⟨s.queue, s.maxPar, s.sinks, p', L', aModify s.counts w (fun c => c - 1)⟩

lemma processEdge_eq_none {durs : List (String × Nat)} {fromT toT : String}
    {s : LoopState} (h : aGet? s.longest toT = none) :
    processEdge durs fromT toT s =
      pushHalf s toT (aInsert s.longest toT (aGet! s.longest fromT + aGet! durs toT))
        (aInsert s.parents toT [fromT]) := by
  unfold processEdge pushHalf
  rw [h]

lemma processEdge_eq_gt {durs : List (String × Nat)} {fromT toT : String}
    {s : LoopState} {prev : Nat} (h : aGet? s.longest toT = some prev)
    (hgt : aGet! s.longest fromT + aGet! durs toT > prev) :
    processEdge durs fromT toT s =
      pushHalf s toT (aInsert s.longest toT (aGet! s.longest fromT + aGet! durs toT))
        (aInsert s.parents toT [fromT]) := by
  unfold processEdge pushHalf
  rw [h]
  simp only [if_pos hgt]

lemma processEdge_eq_eq {durs : List (String × Nat)} {fromT toT : String}
    {s : LoopState} {prev : Nat} (h : aGet? s.longest toT = some prev)
    (heq : aGet! s.longest fromT + aGet! durs toT = prev) :
    processEdge durs fromT toT s =
      pushHalf s toT s.longest (aModify s.parents toT (fun l => l ++ [fromT])) := by
  unfold processEdge pushHalf
  rw [h]
  simp only [if_neg (by omega : ¬ aGet! s.longest fromT + aGet! durs toT > prev),
    if_pos heq]

lemma processEdge_eq_lt {durs : List (String × Nat)} {fromT toT : String}
    {s : LoopState} {prev : Nat} (h : aGet? s.longest toT = some prev)
    (hlt : aGet! s.longest fromT + aGet! durs toT < prev) :
    processEdge durs fromT toT s =
      pushHalf s toT s.longest s.parents := by
  unfold processEdge pushHalf
  rw [h]
  simp only [if_neg (by omega : ¬ aGet! s.longest fromT + aGet! durs toT > prev),
    if_neg (by omega : ¬ aGet! s.longest fromT + aGet! durs toT = prev)]

/-- Preservation of the mid-loop invariant by the count-decrement-and-push
tail of `processEdge`, given updated longest/parent maps that are correct
for the extended relaxer set of the edge target `w`. -/
lemma midInv_push_half {ords : List TaskOrder} {durs : List (String × Nat)}
    {s : LoopState} {P : List String} {x : String} {pre : List String}
    {w : String} {L' : List (String × Nat)} {p' : List (String × List String)}
    (hmid : MidInv ords durs s P x pre)
    (hedge : edgeOf ords x w) (hwpre : w ∉ pre)
    (hLo : ∀ v, v ≠ w → aGet? L' v = aGet? s.longest v)
    (hpo : ∀ v, v ≠ w → aGet? p' v = aGet? s.parents v)
    (hLw : ¬ HasCycle ords → ∃ wd, aGet? L' w = some wd ∧
      PMaxW ords durs (rlxF ords P w ∪ {x}) w wd)
    (hpw : ¬ HasCycle ords → ∃ l wd, aGet? p' w = some l ∧ aGet? L' w = some wd ∧
      ParOk ords durs (rlxF ords P w ∪ {x}) w l wd) :
    MidInv ords durs (pushHalf s w L' p') P x (pre ++ [w]) := by
  have hwW : w ∈ tasksOf ords := mem_tasksOf.2 (edgeOf_mem_right hedge)
  have hwlab : w ∈ labelsOf ords := edgeOf_mem_right hedge
  have hwx : w ≠ x := fun h => hmid.xNoSelf (h ▸ hedge)
  have hxpw : x ∈ predsF ords w := mem_predsF.2 hedge
  have hxnr : x ∉ rlxF ords P w := fun h => hmid.xNotPopped (mem_rlxF.1 h).1
  have hun : ¬ (w ∈ P ∨ w = x ∨ w ∈ s.queue.map Prod.fst) := by
    intro h
    have h2 := (hmid.pushedIff w hwW).1 h
    rw [rlxM_self_of_not_mem hwpre] at h2
    exact hxnr (h2 hxpw)
  have hwP : w ∉ P := fun h => hun (Or.inl h)
  have hwQ : w ∉ s.queue.map Prod.fst := fun h => hun (Or.inr (Or.inr h))
  have hcold : aGet? s.counts w =
      some ((predsF ords w \ rlxF ords P w).card) := by
    have h1 := hmid.cval w hwW
    rw [rlxM_self_of_not_mem hwpre] at h1
    exact h1
  have hcardeq : (predsF ords w \ rlxF ords P w).card =
      (predsF ords w \ (rlxF ords P w ∪ {x})).card + 1 :=
    card_sdiff_union_singleton hxpw hxnr
  have hc2w : aGet? (aModify s.counts w (fun c => c - 1)) w =
      some ((predsF ords w \ (rlxF ords P w ∪ {x})).card) := by
    rw [aGet?_aModify_self, hcold]
    simp only [Option.map_some']
    congr 1
    omega
  have hgetc : aGet! (aModify s.counts w (fun c => c - 1)) w =
      (predsF ords w \ (rlxF ords P w ∪ {x})).card := by
    rw [aGet!, hc2w]
    rfl
  have hc2o : ∀ v, v ≠ w → aGet? (aModify s.counts w (fun c => c - 1)) v =
      aGet? s.counts v := fun v hv => aGet?_aModify_other _ _ _ hv
  have hRw' : rlxM ords P x (pre ++ [w]) w = rlxF ords P w ∪ {x} :=
    rlxM_append_self
  have hne' : rlxF ords P w ∪ {x} ≠ ∅ := by
    intro hc
    have hx2 : x ∈ rlxF ords P w ∪ {x} := Finset.mem_union_right _ (by simp)
    rw [hc] at hx2
    simpa using hx2
  unfold pushHalf
  by_cases hz : aGet! (aModify s.counts w (fun c => c - 1)) w = 0
  · rw [if_pos hz]
    have hqperm : ((hPush s.queue (w, aGet! L' w)).map Prod.fst).Perm
        (w :: s.queue.map Prod.fst) := by
      have h1 := (hPush_perm s.queue (w, aGet! L' w)).map Prod.fst
      simpa using h1
    have hqmem : ∀ v, v ∈ (hPush s.queue (w, aGet! L' w)).map Prod.fst ↔
        (v = w ∨ v ∈ s.queue.map Prod.fst) := by
      intro v
      rw [hqperm.mem_iff]
      simp
    have hsubw : predsF ords w ⊆ rlxF ords P w ∪ {x} := by
      rw [hgetc] at hz
      exact Finset.sdiff_eq_empty_iff_subset.1 (Finset.card_eq_zero.1 hz)
    have hseteq : rlxF ords P w ∪ {x} = predsF ords w := by
      refine Finset.Subset.antisymm ?_ hsubw
      exact Finset.union_subset rlxF_subset_predsF
        (Finset.singleton_subset_iff.2 hxpw)
    refine ⟨hmid.popNodup, hmid.popTasks, hmid.xNotPopped, hmid.xTask,
      hmid.xNoSelf, hmid.xPreds, ?_, ?_, ?_, ?_, ?_, ?_, hmid.popOrder,
      ?_, ?_, ?_, ?_, ?_⟩
    · show ((hPush s.queue (w, aGet! L' w)).map Prod.fst).Nodup
      rw [hqperm.nodup_iff, List.nodup_cons]
      exact ⟨hwQ, hmid.qNodup⟩
    · intro e he
      have h1 := (hPush_perm s.queue (w, aGet! L' w)).mem_iff.1 he
      rcases List.mem_cons.1 h1 with rfl | h2
      · exact hwW
      · exact hmid.qTasks e h2
    · intro e he
      have h1 := (hPush_perm s.queue (w, aGet! L' w)).mem_iff.1 he
      rcases List.mem_cons.1 h1 with rfl | h2
      · exact ⟨hwP, hwx⟩
      · exact hmid.qNotPopped e h2
    · show (aModify s.counts w (fun c => c - 1)).map Prod.fst = tasksOf ords
      rw [keys_aModify]
      exact hmid.ckeys
    · intro v hv
      by_cases hvw : v = w
      · subst hvw
        show aGet? (aModify s.counts v (fun c => c - 1)) v =
          some ((predsF ords v \ rlxM ords P x (pre ++ [v]) v).card)
        rw [hRw']
        exact hc2w
      · show aGet? (aModify s.counts w (fun c => c - 1)) v =
          some ((predsF ords v \ rlxM ords P x (pre ++ [w]) v).card)
        rw [hc2o v hvw, rlxM_append_other hvw]
        exact hmid.cval v hv
    · intro v hv
      show (v ∈ P ∨ v = x ∨ v ∈ (hPush s.queue (w, aGet! L' w)).map Prod.fst) ↔
        predsF ords v ⊆ rlxM ords P x (pre ++ [w]) v
      by_cases hvw : v = w
      · subst hvw
        rw [hRw']
        constructor
        · intro _
          exact hsubw
        · intro _
          exact Or.inr (Or.inr ((hqmem v).2 (Or.inl rfl)))
      · rw [rlxM_append_other hvw, hqmem v]
        rw [show (v ∈ P ∨ v = x ∨ v = w ∨ v ∈ s.queue.map Prod.fst) ↔
            (v ∈ P ∨ v = x ∨ v ∈ s.queue.map Prod.fst) from by tauto]
        exact hmid.pushedIff v hv
    · intro hcy v hv hp'
      by_cases hvw : v = w
      · subst hvw
        obtain ⟨wd, hwd, hPM⟩ := hLw hcy
        refine ⟨wd, hwd, ?_⟩
        rw [hseteq] at hPM
        exact maxEndW_of_pmax hcy hwlab hPM.1 hPM.2
      · show ∃ wv, aGet? L' v = some wv ∧ MaxEndW ords durs v wv
        rw [hLo v hvw]
        refine hmid.lguard hcy v hv ?_
        rcases hp' with h | h | h
        · exact Or.inl h
        · exact Or.inr (Or.inl h)
        · rcases (hqmem v).1 h with h2 | h2
          · exact absurd h2 hvw
          · exact Or.inr (Or.inr h2)
    · intro hcy v hv hnp
      by_cases hvw : v = w
      · subst hvw
        exact absurd (Or.inr (Or.inr ((hqmem v).2 (Or.inl rfl)))) hnp
      · show (aGet? L' v = none ∧ rlxM ords P x (pre ++ [w]) v = ∅) ∨
          (∃ wv, aGet? L' v = some wv ∧ rlxM ords P x (pre ++ [w]) v ≠ ∅ ∧
            PMaxW ords durs (rlxM ords P x (pre ++ [w]) v) v wv)
        rw [hLo v hvw, rlxM_append_other hvw]
        refine hmid.lpart hcy v hv ?_
        intro hc
        refine hnp ?_
        rcases hc with h | h | h
        · exact Or.inl h
        · exact Or.inr (Or.inl h)
        · exact Or.inr (Or.inr ((hqmem v).2 (Or.inr h)))
    · intro v hveq
      by_cases hvw : v = w
      · subst hvw
        rw [hRw'] at hveq
        exact absurd hveq hne'
      · show aGet? p' v = none
        rw [hpo v hvw]
        refine hmid.parNone v ?_
        rw [← rlxM_append_other hvw]
        exact hveq
    · intro hcy v hvne
      by_cases hvw : v = w
      · subst hvw
        obtain ⟨l, wd, hpl, hld, hPO⟩ := hpw hcy
        refine ⟨l, wd, hpl, hld, ?_⟩
        show ParOk ords durs (rlxM ords P x (pre ++ [v]) v) v l wd
        rw [hRw']
        exact hPO
      · show ∃ l wv, aGet? p' v = some l ∧ aGet? L' v = some wv ∧
          ParOk ords durs (rlxM ords P x (pre ++ [w]) v) v l wv
        rw [hpo v hvw, hLo v hvw, rlxM_append_other hvw]
        refine hmid.parSome hcy v ?_
        rw [← rlxM_append_other hvw]
        exact hvne
    · exact hmid.sinksEq
  · rw [if_neg hz]
    refine ⟨hmid.popNodup, hmid.popTasks, hmid.xNotPopped, hmid.xTask,
      hmid.xNoSelf, hmid.xPreds, hmid.qNodup, hmid.qTasks, hmid.qNotPopped,
      ?_, ?_, ?_, hmid.popOrder, ?_, ?_, ?_, ?_, hmid.sinksEq⟩
    · show (aModify s.counts w (fun c => c - 1)).map Prod.fst = tasksOf ords
      rw [keys_aModify]
      exact hmid.ckeys
    · intro v hv
      by_cases hvw : v = w
      · subst hvw
        show aGet? (aModify s.counts v (fun c => c - 1)) v =
          some ((predsF ords v \ rlxM ords P x (pre ++ [v]) v).card)
        rw [hRw']
        exact hc2w
      · show aGet? (aModify s.counts w (fun c => c - 1)) v =
          some ((predsF ords v \ rlxM ords P x (pre ++ [w]) v).card)
        rw [hc2o v hvw, rlxM_append_other hvw]
        exact hmid.cval v hv
    · intro v hv
      show (v ∈ P ∨ v = x ∨ v ∈ s.queue.map Prod.fst) ↔
        predsF ords v ⊆ rlxM ords P x (pre ++ [w]) v
      by_cases hvw : v = w
      · subst hvw
        rw [hRw']
        constructor
        · intro h
          exact absurd h hun
        · intro hsub
          exfalso
          refine hz ?_
          rw [hgetc, Finset.card_eq_zero, Finset.sdiff_eq_empty_iff_subset]
          exact hsub
      · rw [rlxM_append_other hvw]
        exact hmid.pushedIff v hv
    · intro hcy v hv hp'
      by_cases hvw : v = w
      · subst hvw
        exact absurd hp' hun
      · show ∃ wv, aGet? L' v = some wv ∧ MaxEndW ords durs v wv
        rw [hLo v hvw]
        exact hmid.lguard hcy v hv hp'
    · intro hcy v hv hnp
      by_cases hvw : v = w
      · subst hvw
        obtain ⟨wd, hwd, hPM⟩ := hLw hcy
        refine Or.inr ⟨wd, hwd, ?_, ?_⟩
        · show rlxM ords P x (pre ++ [v]) v ≠ ∅
          rw [hRw']
          exact hne'
        · show PMaxW ords durs (rlxM ords P x (pre ++ [v]) v) v wd
          rw [hRw']
          exact hPM
      · show (aGet? L' v = none ∧ rlxM ords P x (pre ++ [w]) v = ∅) ∨
          (∃ wv, aGet? L' v = some wv ∧ rlxM ords P x (pre ++ [w]) v ≠ ∅ ∧
            PMaxW ords durs (rlxM ords P x (pre ++ [w]) v) v wv)
        rw [hLo v hvw, rlxM_append_other hvw]
        exact hmid.lpart hcy v hv hnp
    · intro v hveq
      by_cases hvw : v = w
      · subst hvw
        rw [hRw'] at hveq
        exact absurd hveq hne'
      · show aGet? p' v = none
        rw [hpo v hvw]
        refine hmid.parNone v ?_
        rw [← rlxM_append_other hvw]
        exact hveq
    · intro hcy v hvne
      by_cases hvw : v = w
      · subst hvw
        obtain ⟨l, wd, hpl, hld, hPO⟩ := hpw hcy
        refine ⟨l, wd, hpl, hld, ?_⟩
        show ParOk ords durs (rlxM ords P x (pre ++ [v]) v) v l wd
        rw [hRw']
        exact hPO
      · show ∃ l wv, aGet? p' v = some l ∧ aGet? L' v = some wv ∧
          ParOk ords durs (rlxM ords P x (pre ++ [w]) v) v l wv
        rw [hpo v hvw, hLo v hvw, rlxM_append_other hvw]
        refine hmid.parSome hcy v ?_
        rw [← rlxM_append_other hvw]
        exact hvne

/-- Processing one out-edge `x → w` preserves the mid-loop invariant,
extending the processed prefix of `x`'s adjacency list. -/
lemma midInv_processEdge {ords : List TaskOrder} {durs : List (String × Nat)}
    {s : LoopState} {P : List String} {x : String} {pre : List String}
    {w : String}
    (hmid : MidInv ords durs s P x pre)
    (hedge : edgeOf ords x w) (hwpre : w ∉ pre) :
    MidInv ords durs (processEdge durs x w s) P x (pre ++ [w]) := by
  have hwW : w ∈ tasksOf ords := mem_tasksOf.2 (edgeOf_mem_right hedge)
  have hxpw : x ∈ predsF ords w := mem_predsF.2 hedge
  have hxnr : x ∉ rlxF ords P w := fun h => hmid.xNotPopped (mem_rlxF.1 h).1
  have hun : ¬ (w ∈ P ∨ w = x ∨ w ∈ s.queue.map Prod.fst) := by
    intro h
    have h2 := (hmid.pushedIff w hwW).1 h
    rw [rlxM_self_of_not_mem hwpre] at h2
    exact hxnr (h2 hxpw)
  have halt : ¬ HasCycle ords → ∃ wx, aGet? s.longest x = some wx ∧
      MaxEndW ords durs x wx ∧
      aGet! s.longest x + aGet! durs w = wx + durOf durs w := by
    intro hcy
    obtain ⟨wx, hwx, hM⟩ := hmid.lguard hcy x hmid.xTask (Or.inr (Or.inl rfl))
    refine ⟨wx, hwx, hM, ?_⟩
    rw [aGet!, hwx]
    rfl
  cases hlw : aGet? s.longest w with
  | none =>
      have hR : ¬ HasCycle ords → rlxF ords P w = ∅ := by
        intro hcy
        rcases hmid.lpart hcy w hwW hun with ⟨-, h2⟩ | ⟨wv, h1, -, -⟩
        · rw [rlxM_self_of_not_mem hwpre] at h2
          exact h2
        · rw [hlw] at h1
          exact Option.noConfusion h1
      rw [processEdge_eq_none hlw]
      refine midInv_push_half hmid hedge hwpre
        (fun v hv => aGet?_aInsert_other _ _ _ hv)
        (fun v hv => aGet?_aInsert_other _ _ _ hv) ?_ ?_
      · intro hcy
        obtain ⟨wx, hwx, hM, heq⟩ := halt hcy
        refine ⟨aGet! s.longest x + aGet! durs w, aGet?_aInsert_self _ _ _, ?_, ?_⟩
        · refine ⟨x, ?_, wx, hM, heq⟩
          rw [hR hcy]
          simp
        · intro u hu wu hwu
          rw [hR hcy] at hu
          have hux : u = x := by simpa using hu
          subst hux
          rw [maxEndW_unique hwu hM]
          omega
      · intro hcy
        obtain ⟨wx, hwx, hM, heq⟩ := halt hcy
        refine ⟨[x], aGet! s.longest x + aGet! durs w,
          aGet?_aInsert_self _ _ _, aGet?_aInsert_self _ _ _, by simp, ?_⟩
        intro u
        rw [hR hcy]
        constructor
        · intro hu
          have hux : u = x := by simpa using hu
          subst hux
          exact ⟨by simp, wx, hM, heq.symm⟩
        · rintro ⟨hu, -⟩
          have hux : u = x := by simpa using hu
          simp [hux]
  | some prev =>
      have hPM : ¬ HasCycle ords → rlxF ords P w ≠ ∅ ∧
          PMaxW ords durs (rlxF ords P w) w prev := by
        intro hcy
        rcases hmid.lpart hcy w hwW hun with ⟨h1, -⟩ | ⟨wv, h1, h2, h3⟩
        · rw [hlw] at h1
          exact Option.noConfusion h1
        · rw [hlw] at h1
          injection h1 with h4
          subst h4
          rw [rlxM_self_of_not_mem hwpre] at h2 h3
          exact ⟨h2, h3⟩
      have hold : ¬ HasCycle ords → ∃ l, aGet? s.parents w = some l ∧
          ParOk ords durs (rlxF ords P w) w l prev := by
        intro hcy
        obtain ⟨l, wv, hpl, hlv, hPO⟩ := hmid.parSome hcy w
          (by rw [rlxM_self_of_not_mem hwpre]; exact (hPM hcy).1)
        rw [hlw] at hlv
        injection hlv with hlv2
        subst hlv2
        rw [rlxM_self_of_not_mem hwpre] at hPO
        exact ⟨l, hpl, hPO⟩
      rcases Nat.lt_trichotomy prev (aGet! s.longest x + aGet! durs w) with
        hgt | heqc | hlt
      · rw [processEdge_eq_gt hlw hgt]
        refine midInv_push_half hmid hedge hwpre
          (fun v hv => aGet?_aInsert_other _ _ _ hv)
          (fun v hv => aGet?_aInsert_other _ _ _ hv) ?_ ?_
        · intro hcy
          obtain ⟨wx, hwx, hM, heq⟩ := halt hcy
          refine ⟨aGet! s.longest x + aGet! durs w, aGet?_aInsert_self _ _ _, ?_, ?_⟩
          · exact ⟨x, Finset.mem_union_right _ (by simp), wx, hM, heq⟩
          · intro u hu wu hwu
            rcases Finset.mem_union.1 hu with hu2 | hu2
            · have h5 := (hPM hcy).2.2 u hu2 wu hwu
              omega
            · have hux : u = x := by simpa using hu2
              subst hux
              rw [maxEndW_unique hwu hM]
              omega
        · intro hcy
          obtain ⟨wx, hwx, hM, heq⟩ := halt hcy
          refine ⟨[x], aGet! s.longest x + aGet! durs w,
            aGet?_aInsert_self _ _ _, aGet?_aInsert_self _ _ _, by simp, ?_⟩
          intro u
          constructor
          · intro hu
            have hux : u = x := by simpa using hu
            subst hux
            exact ⟨Finset.mem_union_right _ (by simp), wx, hM, heq.symm⟩
          · rintro ⟨hu, wu, hwu, hequ⟩
            rcases Finset.mem_union.1 hu with hu2 | hu2
            · exfalso
              have h5 := (hPM hcy).2.2 u hu2 wu hwu
              omega
            · simpa using hu2
      · rw [processEdge_eq_eq hlw heqc.symm]
        refine midInv_push_half hmid hedge hwpre (fun v hv => rfl)
          (fun v hv => aGet?_aModify_other _ _ _ hv) ?_ ?_
        · intro hcy
          obtain ⟨wx, hwx, hM, heq⟩ := halt hcy
          refine ⟨prev, hlw, ?_, ?_⟩
          · obtain ⟨u, hu, wu, hwu, hequ⟩ := (hPM hcy).2.1
            exact ⟨u, Finset.mem_union_left _ hu, wu, hwu, hequ⟩
          · intro u hu wu hwu
            rcases Finset.mem_union.1 hu with hu2 | hu2
            · exact (hPM hcy).2.2 u hu2 wu hwu
            · have hux : u = x := by simpa using hu2
              subst hux
              rw [maxEndW_unique hwu hM]
              omega
        · intro hcy
          obtain ⟨wx, hwx, hM, heq⟩ := halt hcy
          obtain ⟨l, hpl, hPO⟩ := hold hcy
          have hxl : x ∉ l := fun hc => hxnr ((hPO.2 x).1 hc).1
          refine ⟨l ++ [x], prev, ?_, hlw, ?_, ?_⟩
          · rw [aGet?_aModify_self, hpl]
            rfl
          · rw [List.nodup_append]
            refine ⟨hPO.1, by simp, ?_⟩
            intro a ha hax
            have ha2 : a = x := by simpa using hax
            exact hxl (ha2 ▸ ha)
          · intro u
            rw [List.mem_append]
            constructor
            · rintro (hu | hu)
              · obtain ⟨huR, wu, hwu, hequ⟩ := (hPO.2 u).1 hu
                exact ⟨Finset.mem_union_left _ huR, wu, hwu, hequ⟩
              · have hux : u = x := by simpa using hu
                subst hux
                refine ⟨Finset.mem_union_right _ (by simp), wx, hM, ?_⟩
                omega
            · rintro ⟨hu, wu, hwu, hequ⟩
              rcases Finset.mem_union.1 hu with hu2 | hu2
              · exact Or.inl ((hPO.2 u).2 ⟨hu2, wu, hwu, hequ⟩)
              · right
                simpa using hu2
      · rw [processEdge_eq_lt hlw hlt]
        refine midInv_push_half hmid hedge hwpre (fun v hv => rfl)
          (fun v hv => rfl) ?_ ?_
        · intro hcy
          obtain ⟨wx, hwx, hM, heq⟩ := halt hcy
          refine ⟨prev, hlw, ?_, ?_⟩
          · obtain ⟨u, hu, wu, hwu, hequ⟩ := (hPM hcy).2.1
            exact ⟨u, Finset.mem_union_left _ hu, wu, hwu, hequ⟩
          · intro u hu wu hwu
            rcases Finset.mem_union.1 hu with hu2 | hu2
            · exact (hPM hcy).2.2 u hu2 wu hwu
            · have hux : u = x := by simpa using hu2
              subst hux
              rw [maxEndW_unique hwu hM]
              omega
        · intro hcy
          obtain ⟨wx, hwx, hM, heq⟩ := halt hcy
          obtain ⟨l, hpl, hPO⟩ := hold hcy
          refine ⟨l, prev, hpl, hlw, hPO.1, ?_⟩
          intro u
          constructor
          · intro hu
            obtain ⟨huR, wu, hwu, hequ⟩ := (hPO.2 u).1 hu
            exact ⟨Finset.mem_union_left _ huR, wu, hwu, hequ⟩
          · rintro ⟨hu, wu, hwu, hequ⟩
            rcases Finset.mem_union.1 hu with hu2 | hu2
            · exact (hPO.2 u).2 ⟨hu2, wu, hwu, hequ⟩
            · exfalso
              have hux : u = x := by simpa using hu2
              subst hux
              rw [maxEndW_unique hwu hM] at hequ
              omega

/-! ### One loop iteration -/

lemma rlxF_append_eq_rlxM {ords : List TaskOrder} {P : List String}
    {x : String} {v : String} :
    rlxF ords (P ++ [x]) v = rlxM ords P x (outList ords x) v := by
  ext u
  rw [mem_rlxF, mem_rlxM, mem_outList]
  constructor
  · rintro ⟨hu, he⟩
    rcases List.mem_append.1 hu with h | h
    · exact Or.inl ⟨h, he⟩
    · have h2 : u = x := by simpa using h
      subst h2
      exact Or.inr ⟨he, rfl⟩
  · rintro (⟨hu, he⟩ | ⟨he, rfl⟩)
    · exact ⟨List.mem_append_left _ hu, he⟩
    · exact ⟨List.mem_append_right _ (by simp), he⟩

/-- Entering the processing of a popped task `x`: the boundary invariant,
the pop, and the sink bookkeeping give the mid-loop invariant with an empty
processed prefix (`mp` is the updated parallelism tally, unconstrained). -/
lemma midInv_enter {ords : List TaskOrder} {durs : List (String × Nat)}
    {s : LoopState} {P : List String} {x : String} {ex : Nat}
    {rest : List (String × Nat)} (mp : Nat)
    (hinv : LoopInv ords durs s P) (hq : s.queue = (x, ex) :: rest) :
    MidInv ords durs
      ⟨rest, mp, (if outList ords x = [] then s.sinks ++ [x] else s.sinks),
        s.parents, s.longest, s.counts⟩ P x [] := by
  have hxq : (x, ex) ∈ s.queue := by
    rw [hq]
    exact List.mem_cons_self _ _
  have hxT : x ∈ tasksOf ords := hinv.qTasks (x, ex) hxq
  have hxP : x ∉ P := hinv.qNotPopped (x, ex) hxq
  have hxm : x ∈ s.queue.map Prod.fst := by
    rw [hq]
    simp
  have hpush : predsF ords x ⊆ rlxF ords P x :=
    (hinv.pushedIff x hxT).1 (Or.inr hxm)
  have hmap : s.queue.map Prod.fst = x :: rest.map Prod.fst := by
    rw [hq]
    rfl
  have hnq := hinv.qNodup
  rw [hmap, List.nodup_cons] at hnq
  have hrlx : ∀ v, rlxM ords P x [] v = rlxF ords P v :=
    fun v => rlxM_self_of_not_mem (List.not_mem_nil v)
  have hpiff : ∀ v, (v ∈ P ∨ v = x ∨ v ∈ rest.map Prod.fst) ↔
      (v ∈ P ∨ v ∈ s.queue.map Prod.fst) := by
    intro v
    rw [hmap, List.mem_cons]
  refine ⟨hinv.popNodup, hinv.popTasks, hxP, hxT, ?_, ?_, hnq.2, ?_, ?_,
    hinv.ckeys, ?_, ?_, hinv.popOrder, ?_, ?_, ?_, ?_, ?_⟩
  · intro he
    exact hxP (mem_rlxF.1 (hpush (mem_predsF.2 he))).1
  · intro u hu
    exact (mem_rlxF.1 (hpush (mem_predsF.2 hu))).1
  · intro e he
    refine hinv.qTasks e ?_
    rw [hq]
    exact List.mem_cons_of_mem _ he
  · intro e he
    refine ⟨hinv.qNotPopped e (by rw [hq]; exact List.mem_cons_of_mem _ he), ?_⟩
    intro hex
    refine hnq.1 ?_
    rw [← hex]
    exact List.mem_map.2 ⟨e, he, rfl⟩
  · intro v hv
    rw [hrlx v]
    exact hinv.cval v hv
  · intro v hv
    show (v ∈ P ∨ v = x ∨ v ∈ rest.map Prod.fst) ↔
      predsF ords v ⊆ rlxM ords P x [] v
    rw [hrlx v, hpiff v]
    exact hinv.pushedIff v hv
  · intro hcy v hv hp
    exact hinv.lguard hcy v hv ((hpiff v).1 hp)
  · intro hcy v hv hnp
    show (aGet? s.longest v = none ∧ rlxM ords P x [] v = ∅) ∨
      (∃ wv, aGet? s.longest v = some wv ∧ rlxM ords P x [] v ≠ ∅ ∧
        PMaxW ords durs (rlxM ords P x [] v) v wv)
    rw [hrlx v]
    exact hinv.lpart hcy v hv (fun hc => hnp ((hpiff v).2 hc))
  · intro v hveq
    rw [hrlx v] at hveq
    exact hinv.parNone v hveq
  · intro hcy v hvne
    rw [hrlx v] at hvne
    show ∃ l wv, aGet? s.parents v = some l ∧ aGet? s.longest v = some wv ∧
      ParOk ords durs (rlxM ords P x [] v) v l wv
    rw [hrlx v]
    exact hinv.parSome hcy v hvne
  · show (if outList ords x = [] then s.sinks ++ [x] else s.sinks) =
      (P ++ [x]).filter (fun v => decide (outList ords v = []))
    rw [List.filter_append]
    by_cases hox : outList ords x = []
    · rw [if_pos hox, hinv.sinksEq]
      congr 1
      simp [hox]
    · rw [if_neg hox, hinv.sinksEq]
      have h1 : ([x] : List String).filter
          (fun v => decide (outList ords v = [])) = [] := by
        simp [hox]
      rw [h1, List.append_nil]

/-- Leaving the processing of `x` after its whole adjacency list: the
mid-loop invariant becomes the boundary invariant with `x` popped. -/
lemma midInv_exit {ords : List TaskOrder} {durs : List (String × Nat)}
    {s : LoopState} {P : List String} {x : String} {pre : List String}
    (hpre : outList ords x = pre) (hmid : MidInv ords durs s P x pre) :
    LoopInv ords durs s (P ++ [x]) := by
  subst hpre
  have hrlx : ∀ v, rlxF ords (P ++ [x]) v =
      rlxM ords P x (outList ords x) v := fun v => rlxF_append_eq_rlxM
  have hmem : ∀ v, v ∈ P ++ [x] ↔ (v ∈ P ∨ v = x) := by
    intro v
    rw [List.mem_append]
    simp
  refine ⟨?_, ?_, hmid.qNodup, hmid.qTasks, ?_, hmid.ckeys, ?_, ?_, ?_, ?_,
    ?_, ?_, ?_, hmid.sinksEq⟩
  · rw [List.nodup_append]
    refine ⟨hmid.popNodup, by simp, ?_⟩
    intro a ha hax
    have h2 : a = x := by simpa using hax
    subst h2
    exact hmid.xNotPopped ha
  · intro v hv
    rcases (hmem v).1 hv with h | h
    · exact hmid.popTasks v h
    · subst h
      exact hmid.xTask
  · intro e he
    intro hc
    rcases (hmem e.1).1 hc with h | h
    · exact (hmid.qNotPopped e he).1 h
    · exact (hmid.qNotPopped e he).2 h
  · intro v hv
    rw [hrlx v]
    exact hmid.cval v hv
  · intro v hv
    rw [hrlx v, hmem v, or_assoc]
    exact hmid.pushedIff v hv
  · intro i h u hedge2
    by_cases hi : i < P.length
    · have hget : (P ++ [x]).get ⟨i, h⟩ = P.get ⟨i, hi⟩ := by
        rw [List.get_eq_getElem, List.get_eq_getElem]
        exact List.getElem_append_left hi
      rw [hget] at hedge2
      have h2 := hmid.popOrder i hi u hedge2
      rw [List.take_append_of_le_length (le_of_lt hi)]
      exact h2
    · have hieq : i = P.length := by
        have h3 := h
        rw [List.length_append] at h3
        simp only [List.length_singleton] at h3
        omega
      subst hieq
      have hget : (P ++ [x]).get ⟨P.length, h⟩ = x := by
        rw [List.get_eq_getElem]
        rw [List.getElem_append_right (le_refl _)]
        simp
      rw [hget] at hedge2
      have h2 := hmid.xPreds u hedge2
      rw [List.take_append_of_le_length (le_refl _), List.take_length]
      exact h2
  · intro hcy v hv hp
    rw [hmem v, or_assoc] at hp
    exact hmid.lguard hcy v hv hp
  · intro hcy v hv hnp
    rw [hmem v, or_assoc] at hnp
    rw [hrlx v]
    exact hmid.lpart hcy v hv hnp
  · intro v hveq
    rw [hrlx v] at hveq
    exact hmid.parNone v hveq
  · intro hcy v hvne
    rw [hrlx v] at hvne
    rw [hrlx v]
    exact hmid.parSome hcy v hvne

/-- Folding `processEdge` over the unprocessed suffix of the adjacency
list preserves the mid-loop invariant up to the full list. -/
lemma midInv_fold {ords : List TaskOrder} {durs : List (String × Nat)}
    {P : List String} {x : String} (hnd : ords.Nodup)
    (suf pre : List String) (s : LoopState)
    (hout : outList ords x = pre ++ suf) (hmid : MidInv ords durs s P x pre) :
    MidInv ords durs (suf.foldl (fun s toT => processEdge durs x toT s) s)
      P x (outList ords x) := by
  induction suf generalizing pre s with
  | nil =>
      rw [List.foldl_nil]
      rw [List.append_nil] at hout
      rw [hout]
      exact hmid
  | cons w suf ih =>
      rw [List.foldl_cons]
      have hedge : edgeOf ords x w := by
        rw [← @mem_outList ords x w, hout]
        exact List.mem_append_right _ (List.mem_cons_self _ _)
      have hnodup := outList_nodup hnd x
      rw [hout, List.nodup_append] at hnodup
      have hwpre : w ∉ pre := by
        intro hc
        exact hnodup.2.2 hc (List.mem_cons_self _ _)
      refine ih (pre ++ [w]) _ ?_ (midInv_processEdge hmid hedge hwpre)
      rw [hout]
      simp

lemma stepTask_eq_some {adj : List (String × List String)}
    {durs : List (String × Nat)} {s : LoopState} {fromT : String}
    {adjacent : List String} (h : aGet? adj fromT = some adjacent) :
    stepTask adj durs s fromT =
      adjacent.foldl (fun s toT => processEdge durs fromT toT s)
        (if adjacent = [] then { s with sinks := s.sinks ++ [fromT] } else s) := by
  unfold stepTask
  rw [h]

lemma stepTask_eq_none {adj : List (String × List String)}
    {durs : List (String × Nat)} {s : LoopState} {fromT : String}
    (h : aGet? adj fromT = none) :
    stepTask adj durs s fromT = { s with sinks := s.sinks ++ [fromT] } := by
  unfold stepTask
  rw [h]

/-- One iteration of the `while` loop: pop `x` and process it. -/
lemma loopInv_stepTask {ords : List TaskOrder} {durs : List (String × Nat)}
    {s : LoopState} {P : List String} {x : String} {ex : Nat}
    {rest : List (String × Nat)} (hnd : ords.Nodup)
    (hinv : LoopInv ords durs s P) (hq : s.queue = (x, ex) :: rest) (mp : Nat) :
    LoopInv ords durs
      (stepTask (Graph.new ords).task_graph durs
        ⟨rest, mp, s.sinks, s.parents, s.longest, s.counts⟩ x) (P ++ [x]) := by
  obtain ⟨-, htg, -⟩ := graphNew_spec ords
  have henter := midInv_enter mp hinv hq
  by_cases hxf : x ∈ ords.map TaskOrder.first
  · rw [stepTask_eq_some (by rw [htg x, if_pos hxf])]
    by_cases hox : outList ords x = []
    · rw [hox, if_pos rfl, List.foldl_nil]
      rw [if_pos hox] at henter
      exact midInv_exit hox henter
    · rw [if_neg hox]
      rw [if_neg hox] at henter
      exact midInv_exit rfl
        (midInv_fold hnd (outList ords x) [] _ (List.nil_append _).symm henter)
  · rw [stepTask_eq_none (by rw [htg x, if_neg hxf])]
    have hox : outList ords x = [] := outList_eq_nil hxf
    rw [if_pos hox] at henter
    exact midInv_exit hox henter

lemma runLoop_succ_nil {adj : List (String × List String)}
    {durs : List (String × Nat)} {fuel : Nat} {s : LoopState}
    (h : s.queue = []) : runLoop adj durs (fuel + 1) s = s := by
  unfold runLoop
  rw [h]

lemma runLoop_succ_cons {adj : List (String × List String)}
    {durs : List (String × Nat)} {fuel : Nat} {s : LoopState} {x : String}
    {ex : Nat} {rest : List (String × Nat)} (h : s.queue = (x, ex) :: rest) :
    runLoop adj durs (fuel + 1) s =
      runLoop adj durs fuel (stepTask adj durs
        ⟨rest, max s.maxPar (rest.length + 1), s.sinks, s.parents, s.longest,
          s.counts⟩ x) := by
  conv_lhs => rw [runLoop]
  rw [h]
  rfl

lemma length_le_tasks {ords : List TaskOrder} {P : List String} (hnd : P.Nodup)
    (hsub : ∀ v ∈ P, v ∈ tasksOf ords) : P.length ≤ (tasksOf ords).length := by
  have h3 : P.toFinset ⊆ (tasksOf ords).toFinset := by
    intro x hx
    rw [List.mem_toFinset] at hx ⊢
    exact hsub x hx
  have h4 := Finset.card_le_card h3
  rw [List.toFinset_card_of_nodup hnd,
    List.toFinset_card_of_nodup (tasksOf_nodup ords)] at h4
  exact h4

/-- Running the loop with enough fuel empties the queue and maintains the
boundary invariant; each task pops at most once, so one unit of fuel per
yet-unpopped task plus one final check suffices. -/
lemma runLoop_inv {ords : List TaskOrder} {durs : List (String × Nat)}
    (hnd : ords.Nodup) :
    ∀ (fuel : Nat) (s : LoopState) (P : List String),
      LoopInv ords durs s P →
      (tasksOf ords).length + 1 ≤ fuel + P.length →
      ∃ Q, LoopInv ords durs
          (runLoop (Graph.new ords).task_graph durs fuel s) (P ++ Q) ∧
        (runLoop (Graph.new ords).task_graph durs fuel s).queue = [] := by
  intro fuel
  induction fuel with
  | zero =>
      intro s P hinv hbound
      exfalso
      have h1 : P.length ≤ (tasksOf ords).length :=
        length_le_tasks hinv.popNodup hinv.popTasks
      omega
  | succ fuel ih =>
      intro s P hinv hbound
      cases hq : s.queue with
      | nil =>
          refine ⟨[], ?_, ?_⟩
          · rw [runLoop_succ_nil hq, List.append_nil]
            exact hinv
          · rw [runLoop_succ_nil hq]
            exact hq
      | cons e rest =>
          obtain ⟨x, ex⟩ := e
          rw [runLoop_succ_cons hq]
          have hstep := loopInv_stepTask hnd hinv hq (max s.maxPar (rest.length + 1))
          have hbound2 : (tasksOf ords).length + 1 ≤ fuel + (P ++ [x]).length := by
            rw [List.length_append]
            simp only [List.length_singleton]
            omega
          obtain ⟨Q, hQ, hqe⟩ := ih _ (P ++ [x]) hstep hbound2
          refine ⟨[x] ++ Q, ?_, hqe⟩
          rw [← List.append_assoc]
          exact hQ

/-! ### The final state -/

/-- When the loop has drained its queue on an acyclic input, every task has
been popped. -/
lemma final_all_popped {ords : List TaskOrder} {durs : List (String × Nat)}
    {s : LoopState} {P : List String} (hcy : ¬ HasCycle ords)
    (hinv : LoopInv ords durs s P) (hqe : s.queue = []) :
    ∀ v ∈ tasksOf ords, v ∈ P := by
  by_contra hc
  push_neg at hc
  obtain ⟨v0, hv0T, hv0P⟩ := hc
  have hirr : ∀ v, ¬ Relation.TransGen (edgeOf ords) v v :=
    fun v hv => hcy ⟨v, hv⟩
  have hTne : (tasksOf ords).filter (fun v => decide (v ∉ P)) ≠ [] := by
    intro hnil
    have : v0 ∈ (tasksOf ords).filter (fun v => decide (v ∉ P)) :=
      List.mem_filter.2 ⟨hv0T, by simpa using hv0P⟩
    rw [hnil] at this
    exact List.not_mem_nil _ this
  obtain ⟨v, hvT, hmin⟩ := exists_rel_min hirr _ hTne
  rw [List.mem_filter] at hvT
  have hvP : v ∉ P := by simpa using hvT.2
  have hsub : predsF ords v ⊆ rlxF ords P v := by
    intro u hu
    have he := mem_predsF.1 hu
    have huT : u ∈ tasksOf ords := mem_tasksOf.2 (edgeOf_mem_left he)
    have huP : u ∈ P := by
      by_contra huP
      exact hmin u (List.mem_filter.2 ⟨huT, by simpa using huP⟩) he
    exact mem_rlxF.2 ⟨huP, he⟩
  have hpushed := (hinv.pushedIff v hvT.1).2 hsub
  rcases hpushed with h | h
  · exact hvP h
  · rw [hqe] at h
    exact absurd h (List.not_mem_nil _)

/-- On an acyclic input the drained loop leaves every in-degree count at
zero. -/
lemma final_counts_zero {ords : List TaskOrder} {durs : List (String × Nat)}
    {s : LoopState} {P : List String} (hcy : ¬ HasCycle ords)
    (hinv : LoopInv ords durs s P) (hqe : s.queue = []) :
    s.counts.all (fun e => e.2 = 0) = true := by
  rw [List.all_eq_true]
  intro e he
  have hkT : e.1 ∈ tasksOf ords := by
    rw [← hinv.ckeys]
    exact List.mem_map.2 ⟨e, he, rfl⟩
  have hknd : (s.counts.map Prod.fst).Nodup := by
    rw [hinv.ckeys]
    exact tasksOf_nodup ords
  have hlook : aGet? s.counts e.1 = some e.2 :=
    (aGet?_eq_some_iff_of_nodup hknd).2 (by rw [← Prod.mk.eta (p := e)] at he; exact he)
  rw [hinv.cval e.1 hkT] at hlook
  have hsub : predsF ords e.1 ⊆ rlxF ords P e.1 := by
    intro u hu
    have he2 := mem_predsF.1 hu
    have huT : u ∈ tasksOf ords := mem_tasksOf.2 (edgeOf_mem_left he2)
    exact mem_rlxF.2 ⟨final_all_popped hcy hinv hqe u huT, he2⟩
  have hz : (predsF ords e.1 \ rlxF ords P e.1).card = 0 := by
    rw [Finset.card_eq_zero, Finset.sdiff_eq_empty_iff_subset]
    exact hsub
  injection hlook with hlook2
  simp only [decide_eq_true_eq]
  omega

/-- No vertex lying on a directed cycle is ever popped: the pop order is
topological, and the first-popped cycle vertex would need a yet-unpopped
predecessor. -/
lemma cycle_not_popped {ords : List TaskOrder} {durs : List (String × Nat)}
    {s : LoopState} {P : List String} (hinv : LoopInv ords durs s P) :
    ∀ v, Relation.TransGen (edgeOf ords) v v → v ∉ P := by
  have hstrong : ∀ i, ∀ (h : i < P.length),
      ¬ Relation.TransGen (edgeOf ords) (P.get ⟨i, h⟩) (P.get ⟨i, h⟩) := by
    intro i
    induction i using Nat.strong_induction_on with
    | _ i ih =>
        intro h htg
        obtain ⟨u, hvu, huv⟩ := Relation.TransGen.tail'_iff.1 htg
        have hu := hinv.popOrder i h u huv
        obtain ⟨⟨j, hj⟩, hget⟩ := List.mem_iff_get.1 hu
        have hjlt : j < i := by
          have h2 := hj
          rw [List.length_take] at h2
          omega
        have hjlen : j < P.length := lt_trans hjlt h
        have hPj : P.get ⟨j, hjlen⟩ = u := by
          rw [← hget, List.get_eq_getElem, List.get_eq_getElem,
            List.getElem_take]
        refine ih j hjlt hjlen ?_
        rw [hPj]
        exact Relation.TransGen.trans_left (Relation.TransGen.single huv) hvu
  intro v htg hvP
  obtain ⟨⟨i, hi⟩, hget⟩ := List.mem_iff_get.1 hvP
  refine hstrong i hi ?_
  rw [hget]
  exact htg

/-- On a cyclic input some in-degree count never reaches zero. -/
lemma final_counts_nonzero {ords : List TaskOrder} {durs : List (String × Nat)}
    {s : LoopState} {P : List String} (hcy : HasCycle ords)
    (hinv : LoopInv ords durs s P) :
    s.counts.all (fun e => e.2 = 0) = false := by
  obtain ⟨v, htg⟩ := hcy
  obtain ⟨u, hvu, huv⟩ := Relation.TransGen.tail'_iff.1 htg
  have hutg : Relation.TransGen (edgeOf ords) u u :=
    Relation.TransGen.trans_left (Relation.TransGen.single huv) hvu
  have hvT : v ∈ tasksOf ords := mem_tasksOf.2 (edgeOf_mem_right huv)
  have hvP : v ∉ P := cycle_not_popped hinv v htg
  have huP : u ∉ P := cycle_not_popped hinv u hutg
  have hunr : u ∉ rlxF ords P v := fun hc => huP (mem_rlxF.1 hc).1
  have hupred : u ∈ predsF ords v := mem_predsF.2 huv
  have hcard : (predsF ords v \ rlxF ords P v).card ≠ 0 := by
    intro hz
    rw [Finset.card_eq_zero, Finset.sdiff_eq_empty_iff_subset] at hz
    exact hunr (hz hupred)
  have hlook := hinv.cval v hvT
  have hknd : (s.counts.map Prod.fst).Nodup := by
    rw [hinv.ckeys]
    exact tasksOf_nodup ords
  have hmem : (v, (predsF ords v \ rlxF ords P v).card) ∈ s.counts :=
    (aGet?_eq_some_iff_of_nodup hknd).1 hlook
  rw [List.all_eq_false]
  refine ⟨_, hmem, ?_⟩
  simpa using hcard

/-- If the seeding pass pushes nothing although tasks exist, the graph is
cyclic: an acyclic nonempty task set has a zero-in-degree member. -/
lemma seed_empty_cycle {ords : List TaskOrder} {durs : List (String × Nat)}
    (hnd : ords.Nodup) (hne : tasksOf ords ≠ [])
    (hempty : (seedQueue durs (Graph.new ords).preceding_task_count).1 = []) :
    HasCycle ords := by
  by_contra hcy
  have hirr : ∀ v, ¬ Relation.TransGen (edgeOf ords) v v :=
    fun v hv => hcy ⟨v, hv⟩
  obtain ⟨v, hvT, hmin⟩ := exists_rel_min hirr (tasksOf ords) hne
  have hsrc : predsF ords v = ∅ := by
    rw [Finset.eq_empty_iff_forall_not_mem]
    intro u hu
    have he := mem_predsF.1 hu
    exact hmin u (mem_tasksOf.2 (edgeOf_mem_left he)) he
  obtain ⟨hq, -⟩ := seedQueue_spec durs (Graph.new ords).preceding_task_count
  rw [hempty] at hq
  have hfe : ((Graph.new ords).preceding_task_count.filter
      (fun e => e.2 = 0)).map (fun e => (e.1, aGet! durs e.1)) = [] :=
    (hq.symm.eq_nil)
  rw [List.map_eq_nil_iff] at hfe
  obtain ⟨hpc, -, hkeysnd⟩ := graphNew_spec ords
  have hv0 : aGet? (Graph.new ords).preceding_task_count v = some 0 := by
    rw [hpc v, if_pos (mem_tasksOf.1 hvT)]
    rw [inCount_eq_card_predsF hnd, hsrc]
    simp
  have hmem : (v, 0) ∈ (Graph.new ords).preceding_task_count :=
    (aGet?_eq_some_iff_of_nodup hkeysnd).1 hv0
  have hmf : (v, 0) ∈ (Graph.new ords).preceding_task_count.filter
      (fun e => e.2 = 0) := List.mem_filter.2 ⟨hmem, by simp⟩
  rw [hfe] at hmf
  exact absurd hmf (List.not_mem_nil _)

/-- On an acyclic input with tasks present, the seeding pass pushes at
least one task. -/
lemma seed_nonempty {ords : List TaskOrder} {durs : List (String × Nat)}
    (hnd : ords.Nodup) (hne : tasksOf ords ≠ []) (hcy : ¬ HasCycle ords) :
    (seedQueue durs (Graph.new ords).preceding_task_count).1 ≠ [] :=
  fun hempty => hcy (seed_empty_cycle hnd hne hempty)

/-! ### The backtracking reconstruction -/

/-- A backward descent from `v` along recorded parent links, ending at a
parentless task: the call shapes of the `construct_paths` recursion. -/
def DescOk (parents : List (String × List String)) : String → List String → Prop
  | v, [] => aGet? parents v = none
  | v, u :: d => ∃ ps, aGet? parents v = some ps ∧ u ∈ ps ∧ DescOk parents u d

/-- All descents from `v` shorter than the fuel bound, in recursion
order. -/
def descListF (parents : List (String × List String)) :
    Nat → String → List (List String)
  | 0, _ => []
  | fuel + 1, v =>
      match aGet? parents v with
      | none => [[]]
      | some ps => ps.flatMap (fun u => (descListF parents fuel u).map (u :: ·))

/-- `construct_paths` with a nonempty accumulated path prepends it to every
descent it can reach within its fuel. -/
lemma construct_paths_eq (parents : List (String × List String)) :
    ∀ (fuel : Nat) (temp : List String) (v : String), temp ≠ [] →
      construct_paths parents fuel temp v =
        (descListF parents fuel v).map (fun d => temp ++ d) := by
  intro fuel
  induction fuel with
  | zero =>
      intro temp v hne
      rfl
  | succ fuel ih =>
      intro temp v hne
      rw [construct_paths, descListF]
      cases hp : aGet? parents v with
      | none =>
          rw [if_neg hne]
          simp
      | some ps =>
          rw [if_neg hne]
          have h1 : ∀ u, construct_paths parents fuel (temp ++ [u]) u =
              (descListF parents fuel u).map (fun d => (temp ++ [u]) ++ d) :=
            fun u => ih (temp ++ [u]) u (by simp)
          simp only [h1, List.map_flatMap, List.map_map]
          congr 1
          funext u
          congr 1
          funext d
          simp

/-- Membership in the fueled descent list. -/
lemma descListF_mem (parents : List (String × List String)) :
    ∀ (fuel : Nat) (v : String) (d : List String),
      d ∈ descListF parents fuel v ↔
        (DescOk parents v d ∧ d.length < fuel) := by
  intro fuel
  induction fuel with
  | zero =>
      intro v d
      rw [descListF]
      simp
  | succ fuel ih =>
      intro v d
      rw [descListF]
      cases hp : aGet? parents v with
      | none =>
          constructor
          · intro hd
            have hd2 : d = [] := by simpa using hd
            subst hd2
            exact ⟨hp, by simp⟩
          · rintro ⟨hD, -⟩
            cases d with
            | nil => simp
            | cons u d' =>
                obtain ⟨ps, hps, -, -⟩ := hD
                rw [hp] at hps
                exact absurd hps (by simp)
      | some ps =>
          rw [List.mem_flatMap]
          constructor
          · rintro ⟨u, hu, hd⟩
            rw [List.mem_map] at hd
            obtain ⟨d', hd', rfl⟩ := hd
            obtain ⟨hD, hlen⟩ := (ih u d').1 hd'
            refine ⟨⟨ps, hp, hu, hD⟩, ?_⟩
            rw [List.length_cons]
            omega
          · rintro ⟨hD, hlen⟩
            cases d with
            | nil =>
                have hD2 : aGet? parents v = none := hD
                rw [hp] at hD2
                exact absurd hD2 (by simp)
            | cons u d' =>
                obtain ⟨ps', hps', hu, hD'⟩ := hD
                rw [hp] at hps'
                injection hps' with hps2
                subst hps2
                refine ⟨u, hu, ?_⟩
                rw [List.mem_map]
                refine ⟨d', (ih u d').2 ⟨hD', ?_⟩, rfl⟩
                rw [List.length_cons] at hlen
                omega

lemma nodup_flatMap {α β : Type} {l : List α} {f : α → List β}
    (hnd : l.Nodup) (hf : ∀ a ∈ l, (f a).Nodup)
    (hdisj : ∀ a₁ ∈ l, ∀ a₂ ∈ l, a₁ ≠ a₂ →
      ∀ b, b ∈ f a₁ → b ∈ f a₂ → False) :
    (l.flatMap f).Nodup := by
  induction l with
  | nil => simp
  | cons a l ih =>
      rw [List.flatMap_cons, List.nodup_append]
      rw [List.nodup_cons] at hnd
      refine ⟨hf a (List.mem_cons_self _ _),
        ih hnd.2 (fun a' ha' => hf a' (List.mem_cons_of_mem _ ha'))
          (fun a₁ h₁ a₂ h₂ => hdisj a₁ (List.mem_cons_of_mem _ h₁)
            a₂ (List.mem_cons_of_mem _ h₂)), ?_⟩
      intro b hb hb2
      rw [List.mem_flatMap] at hb2
      obtain ⟨a', ha', hba'⟩ := hb2
      have hne : a ≠ a' := fun hc => hnd.1 (hc ▸ ha')
      exact hdisj a (List.mem_cons_self _ _) a' (List.mem_cons_of_mem _ ha')
        hne b hb hba'

/-- Distinct descents: the recorded parent lists being duplicate-free makes
the descent list duplicate-free. -/
lemma descListF_nodup (parents : List (String × List String))
    (hps : ∀ v ps, aGet? parents v = some ps → ps.Nodup) :
    ∀ (fuel : Nat) (v : String), (descListF parents fuel v).Nodup := by
  intro fuel
  induction fuel with
  | zero =>
      intro v
      rw [descListF]
      exact List.nodup_nil
  | succ fuel ih =>
      intro v
      rw [descListF]
      cases hp : aGet? parents v with
      | none => simp
      | some ps =>
          refine nodup_flatMap (hps v ps hp) ?_ ?_
          · intro u hu
            exact (ih u).map (fun d1 d2 h => by injection h)
          · intro u₁ h₁ u₂ h₂ hne b hb1 hb2
            rw [List.mem_map] at hb1 hb2
            obtain ⟨d₁, -, rfl⟩ := hb1
            obtain ⟨d₂, -, he⟩ := hb2
            injection he with he1
            exact hne he1.symm

/-- Descents follow reversed edges. -/
lemma descOk_chain {ords : List TaskOrder}
    {parents : List (String × List String)}
    (hedge : ∀ v ps, aGet? parents v = some ps → ∀ u ∈ ps, edgeOf ords u v) :
    ∀ (d : List String) (v : String), DescOk parents v d →
      List.Chain' (fun a b => edgeOf ords b a) (v :: d) := by
  intro d
  induction d with
  | nil =>
      intro v _
      simp
  | cons u d' ih =>
      intro v hD
      obtain ⟨ps, hps, hu, hD'⟩ := hD
      rw [List.chain'_cons']
      refine ⟨?_, ih u hD'⟩
      intro y hy
      have hy2 : y = u := by
        rw [List.head?_cons, Option.mem_some_iff] at hy
        exact hy.symm
      subst hy2
      exact hedge v ps hps y hu

/-- The tail end of a descent is parentless. -/
lemma descOk_last {parents : List (String × List String)} :
    ∀ (d : List String) (v : String), DescOk parents v d →
      aGet? parents ((v :: d).getLast (by simp)) = none := by
  intro d
  induction d with
  | nil =>
      intro v hD
      exact hD
  | cons u d' ih =>
      intro v hD
      obtain ⟨-, -, -, hD'⟩ := hD
      rw [List.getLast_cons (by simp : (u :: d') ≠ [])]
      exact ih u hD'

/-- A descent never exceeds the number of parent entries: each non-final
element of the (duplicate-free) chain is a distinct parent-map key. -/
lemma descOk_length {parents : List (String × List String)}
    {d : List String} {v : String} (hD : DescOk parents v d)
    (hnd : (v :: d).Nodup) : d.length ≤ parents.length := by
  have hkeys : ∀ w ∈ (v :: d).dropLast, (aGet? parents w).isSome := by
    clear hnd
    induction d generalizing v with
    | nil =>
        intro w hw
        simp at hw
    | cons u d' ih =>
        intro w hw
        obtain ⟨ps, hps, -, hD'⟩ := hD
        rw [show (v :: u :: d').dropLast = v :: (u :: d').dropLast from rfl] at hw
        rcases List.mem_cons.1 hw with rfl | hw
        · rw [hps]
          rfl
        · exact ih hD' w hw
  have hsub : (v :: d).dropLast ⊆ parents.map Prod.fst := by
    intro w hw
    have h2 := hkeys w hw
    rw [aGet?_isSome_iff] at h2
    exact h2
  have hnd2 : ((v :: d).dropLast).Nodup :=
    hnd.sublist (List.dropLast_sublist _)
  have hcard : ((v :: d).dropLast).length ≤ (parents.map Prod.fst).length := by
    have h3 : ((v :: d).dropLast).toFinset ⊆ (parents.map Prod.fst).toFinset := by
      intro w hw
      rw [List.mem_toFinset] at hw ⊢
      exact hsub hw
    have h4 := Finset.card_le_card h3
    rw [List.toFinset_card_of_nodup hnd2] at h4
    exact le_trans h4 (List.toFinset_card_le _)
  rw [List.length_dropLast, List.length_cons, List.length_map] at hcard
  omega

lemma maxOr0_ge {l : List Nat} {a : Nat} (h : a ∈ l) : a ≤ maxOr0 l := by
  induction l with
  | nil => exact absurd h (List.not_mem_nil _)
  | cons x xs ih =>
      rw [maxOr0]
      rcases List.mem_cons.1 h with rfl | h
      · exact le_max_left _ _
      · exact le_trans (ih h) (le_max_right _ _)

lemma maxOr0_mem {l : List Nat} (h : l ≠ []) : maxOr0 l ∈ l := by
  induction l with
  | nil => exact absurd rfl h
  | cons x xs ih =>
      rw [maxOr0]
      cases hxs : xs with
      | nil =>
          subst hxs
          simp [maxOr0]
      | cons y ys =>
          subst hxs
          rcases le_total (maxOr0 (y :: ys)) x with hle | hle
          · rw [max_eq_left hle]
            simp
          · rw [max_eq_right hle]
            exact List.mem_cons_of_mem _ (ih (by simp))

/-- Every element of a descent chain is a mentioned label. -/
lemma descOk_labels {ords : List TaskOrder} {durs : List (String × Nat)}
    {parents : List (String × List String)} {longest : List (String × Nat)}
    (hSome : ∀ v ps, aGet? parents v = some ps → ∃ Wv,
      aGet? longest v = some Wv ∧ ParOk ords durs (predsF ords v) v ps Wv) :
    ∀ (d : List String) (v : String), v ∈ labelsOf ords →
      DescOk parents v d → ∀ x ∈ v :: d, x ∈ labelsOf ords := by
  intro d
  induction d with
  | nil =>
      intro v hv _ x hx
      have h2 : x = v := by simpa using hx
      rw [h2]
      exact hv
  | cons u d' ih =>
      intro v hv hD x hx
      obtain ⟨ps, hps, hu, hD'⟩ := hD
      obtain ⟨Wv, -, hPO⟩ := hSome v ps hps
      have hupred : u ∈ predsF ords v := ((hPO.2 u).1 hu).1
      have hulab : u ∈ labelsOf ords := edgeOf_mem_left (mem_predsF.1 hupred)
      rcases List.mem_cons.1 hx with rfl | hx
      · exact hv
      · exact ih u hulab hD' x hx

/-- The weight of a reconstructed path is the recorded maximal ending
weight of the task it was reconstructed from. -/
lemma descOk_weight {ords : List TaskOrder} {durs : List (String × Nat)}
    {parents : List (String × List String)} {longest : List (String × Nat)}
    (hSome : ∀ v ps, aGet? parents v = some ps → ∃ Wv,
      aGet? longest v = some Wv ∧ ParOk ords durs (predsF ords v) v ps Wv)
    (hNone : ∀ v, aGet? parents v = none → predsF ords v = ∅)
    (hLong : ∀ v, v ∈ labelsOf ords → ∀ Wv, aGet? longest v = some Wv →
      MaxEndW ords durs v Wv) :
    ∀ (d : List String) (v : String), v ∈ labelsOf ords →
      DescOk parents v d → ∀ Wv, MaxEndW ords durs v Wv →
      pathWeight durs ((v :: d).reverse) = Wv := by
  intro d
  induction d with
  | nil =>
      intro v hv hD Wv hM
      have hsrc : predsF ords v = ∅ := hNone v hD
      have h2 : Wv = durOf durs v :=
        maxEndW_unique hM (maxEndW_source hv hsrc)
      rw [h2]
      simp [pathWeight]
  | cons u d' ih =>
      intro v hv hD Wv hM
      obtain ⟨ps, hps, hu, hD'⟩ := hD
      obtain ⟨Wv', hlg, hPO⟩ := hSome v ps hps
      have hM' : MaxEndW ords durs v Wv' := hLong v hv Wv' hlg
      have hWeq : Wv = Wv' := maxEndW_unique hM hM'
      obtain ⟨hupred, wu, hMu, hequ⟩ := (hPO.2 u).1 hu
      have hulab : u ∈ labelsOf ords := edgeOf_mem_left (mem_predsF.1 hupred)
      have hih := ih u hulab hD' wu hMu
      rw [List.reverse_cons, pathWeight_append, hih]
      have h3 : pathWeight durs [v] = durOf durs v := by simp [pathWeight]
      rw [h3, hequ, hWeq]

/-- A reconstructed chain, reversed, is a source-to-sink path when the
reconstruction started at a sink. -/
lemma descOk_sourceSink {ords : List TaskOrder} {durs : List (String × Nat)}
    {parents : List (String × List String)} {longest : List (String × Nat)}
    (hSome : ∀ v ps, aGet? parents v = some ps → ∃ Wv,
      aGet? longest v = some Wv ∧ ParOk ords durs (predsF ords v) v ps Wv)
    (hNone : ∀ v, aGet? parents v = none → predsF ords v = ∅) :
    ∀ (d : List String) (v : String), v ∈ labelsOf ords → IsSink ords v →
      DescOk parents v d → IsSourceSinkPath ords ((v :: d).reverse) := by
  have hedge : ∀ v ps, aGet? parents v = some ps →
      ∀ u ∈ ps, edgeOf ords u v := by
    intro v ps hps u hu
    obtain ⟨Wv, -, hPO⟩ := hSome v ps hps
    exact mem_predsF.1 ((hPO.2 u).1 hu).1
  intro d v hv hsink hD
  have hch : List.Chain' (fun a b => edgeOf ords b a) (v :: d) :=
    descOk_chain hedge d v hD
  have hne : ((v :: d).reverse) ≠ [] := by simp
  refine ⟨⟨hne, ?_, ?_⟩, ?_, ?_⟩
  · intro x hx
    rw [List.mem_reverse] at hx
    exact descOk_labels hSome d v hv hD x hx
  · rw [List.chain'_reverse]
    exact hch
  · intro h
    have h1 : (v :: d).reverse.head h = (v :: d).getLast (by simp) :=
      List.head_reverse h
    rw [h1]
    rw [isSource_iff_predsF_empty]
    exact hNone _ (descOk_last d v hD)
  · intro h
    have h1 : (v :: d).reverse.getLast h = v :=
      List.getLast_reverse h
    rw [h1]
    exact hsink

/-- Stepping an edge from a maximal ending weight stays below the target's
maximal ending weight. -/
lemma maxEndW_ub_step {ords : List TaskOrder} {durs : List (String × Nat)}
    {u v : String} {wu Wv : Nat}
    (hv : v ∈ labelsOf ords) (hedge : edgeOf ords u v)
    (hMu : MaxEndW ords durs u wu) (hMv : MaxEndW ords durs v Wv) :
    wu + durOf durs v ≤ Wv := by
  obtain ⟨⟨p', hp', ⟨hp'ne, hp'last⟩, hp'w⟩, -⟩ := hMu
  have hpath : IsPath ords (p' ++ [v]) := by
    obtain ⟨-, hmem, hch⟩ := hp'
    refine ⟨by simp, ?_, ?_⟩
    · intro x hx
      rcases List.mem_append.1 hx with hx | hx
      · exact hmem x hx
      · have h2 : x = v := by simpa using hx
        rw [h2]
        exact hv
    · rw [List.chain'_append]
      refine ⟨hch, by simp, ?_⟩
      intro x hx y hy
      have hy2 : y = v := by
        have h6 : ([v] : List String).head? = some v := rfl
        rw [h6, Option.mem_some_iff] at hy
        exact hy.symm
      have hx2 : x = u := by
        rw [List.getLast?_eq_getLast _ hp'ne, Option.mem_some_iff] at hx
        rw [← hx]
        exact hp'last
      rw [hx2, hy2]
      exact hedge
  have h2 := hMv.2 (p' ++ [v]) hpath ⟨by simp, by simp⟩
  rw [pathWeight_append, hp'w] at h2
  have h3 : pathWeight durs [v] = durOf durs v := by simp [pathWeight]
  rw [h3] at h2
  exact h2

/-- Completeness of the reconstruction: every source-started path ending at
`v` whose weight attains `v`'s maximal ending weight is a descent of the
recorded parent maps. -/
lemma path_descOk {ords : List TaskOrder} {durs : List (String × Nat)}
    {parents : List (String × List String)} {longest : List (String × Nat)}
    (hcy : ¬ HasCycle ords)
    (hSome : ∀ v ps, aGet? parents v = some ps → ∃ Wv,
      aGet? longest v = some Wv ∧ ParOk ords durs (predsF ords v) v ps Wv)
    (hSomeRev : ∀ v, predsF ords v ≠ ∅ → ∃ ps, aGet? parents v = some ps)
    (hNoneRev : ∀ v, predsF ords v = ∅ → aGet? parents v = none)
    (hLong : ∀ v, v ∈ labelsOf ords → ∀ Wv, aGet? longest v = some Wv →
      MaxEndW ords durs v Wv) :
    ∀ p, IsPath ords p → (∀ h : p ≠ [], IsSource ords (p.head h)) →
      ∀ v, (∃ h : p ≠ [], p.getLast h = v) →
      ∀ Wv, MaxEndW ords durs v Wv → pathWeight durs p = Wv →
      DescOk parents v p.dropLast.reverse := by
  intro p
  induction p using List.reverseRecOn with
  | nil =>
      intro hp
      exact absurd rfl hp.1
  | append_singleton q w ihq =>
      intro hp hsrc v hv Wv hM hw
      obtain ⟨hne, hlast⟩ := hv
      have hveq : v = w := by
        rw [← hlast, List.getLast_append_of_ne_nil (by simp : ([w] : List String) ≠ [])]
        rfl
      subst hveq
      rw [List.dropLast_concat]
      by_cases hqe : q = []
      · subst hqe
        have h1 : (([] : List String)).reverse = ([] : List String) := rfl
        rw [h1]
        show aGet? parents v = none
        refine hNoneRev v ?_
        rw [← isSource_iff_predsF_empty]
        have h2 := hsrc (by simp)
        simpa using h2
      · have hpq : IsPath ords q := by
          obtain ⟨-, hmemp, hchp⟩ := hp
          rw [List.chain'_append] at hchp
          exact ⟨hqe, fun x hx => hmemp x (List.mem_append_left _ hx), hchp.1⟩
        have hedge' : edgeOf ords (q.getLast hqe) v := by
          obtain ⟨-, -, hchp⟩ := hp
          rw [List.chain'_append] at hchp
          refine hchp.2.2 _ ?_ v rfl
          rw [List.getLast?_eq_getLast _ hqe]
          rfl
        have hvlab : v ∈ labelsOf ords :=
          hp.2.1 v (List.mem_append_right _ (by simp))
        have hu'lab : q.getLast hqe ∈ labelsOf ords :=
          hp.2.1 _ (List.mem_append_left _ (List.getLast_mem hqe))
        obtain ⟨wu', hMu'⟩ := maxEndW_exists hcy hu'lab
        have hqle : pathWeight durs q ≤ wu' := hMu'.2 q hpq ⟨hqe, rfl⟩
        have hub : wu' + durOf durs v ≤ Wv :=
          maxEndW_ub_step hvlab hedge' hMu' hM
        have hwq : pathWeight durs q + durOf durs v = Wv := by
          rw [← hw, pathWeight_append]
          have h3 : pathWeight durs [v] = durOf durs v := by simp [pathWeight]
          rw [h3]
        have hweq : pathWeight durs q = wu' := by omega
        have hpreds : predsF ords v ≠ ∅ :=
          Finset.ne_empty_of_mem (mem_predsF.2 hedge')
        obtain ⟨ps, hps⟩ := hSomeRev v hpreds
        obtain ⟨Wv', hlg, hPO⟩ := hSome v ps hps
        have hWeq : Wv' = Wv := maxEndW_unique (hLong v hvlab Wv' hlg) hM
        have hu'mem : q.getLast hqe ∈ ps := by
          refine (hPO.2 _).2 ⟨mem_predsF.2 hedge', wu', hMu', ?_⟩
          omega
        have hsrcq : ∀ h : q ≠ [], IsSource ords (q.head h) := by
          intro h
          have h2 := hsrc (by simp)
          rw [List.head_append_of_ne_nil h] at h2
          exact h2
        have hih := ihq hpq hsrcq (q.getLast hqe) ⟨hqe, rfl⟩ wu' hMu' hweq
        have hqrev : q.reverse = q.getLast hqe :: q.dropLast.reverse := by
          conv_lhs => rw [← List.dropLast_append_getLast hqe]
          rw [List.reverse_append]
          rfl
        rw [hqrev]
        exact ⟨ps, hps, hu'mem, hih⟩

/-! ### `analyze_schedule`, dissected -/

/-- The state the `while` loop of `analyze_schedule` finishes in (the `st`
binding of the source). -/
def finalState (ords : List TaskOrder) (durs : List (String × Nat)) : LoopState :=
  runLoop (Graph.new ords).task_graph durs
    ((Graph.new ords).preceding_task_count.length + 1)
    ⟨(seedQueue durs (Graph.new ords).preceding_task_count).1, 0, [], [],
      (seedQueue durs (Graph.new ords).preceding_task_count).2,
      (Graph.new ords).preceding_task_count⟩

lemma find_critical_paths_eq (parents : List (String × List String))
    (longest : List (String × Nat)) (sinks : List String) :
    find_critical_paths parents longest sinks =
      (sortL pathLe ((sinks.filter (fun t => aGet! longest t =
          maxOr0 (sinks.map (fun t => aGet! longest t)))).flatMap
        (fun t => (construct_paths parents (parents.length + 1) [] t).map
          List.reverse)),
       maxOr0 (sinks.map (fun t => aGet! longest t))) := rfl

/-- `analyze_schedule` on inputs that pass all validation: the result is
decided by whether the drained loop zeroed every in-degree count. -/
lemma analyze_eq_run {ords : List TaskOrder} {durs : List (String × Nat)}
    (h1 : ¬ (ords = [] ∧ durs = []))
    (h2 : ((Graph.new ords).preceding_task_count.map (fun e => e.1)).filter
      (fun t => ¬ (aGet? durs t).isSome) = [])
    (h3 : durs.length = (Graph.new ords).preceding_task_count.length)
    (h4 : (seedQueue durs (Graph.new ords).preceding_task_count).1 ≠ []) :
    analyze_schedule ords durs =
      if (finalState ords durs).counts.all (fun e => e.2 = 0) then
        .ok ⟨(finalState ords durs).maxPar, (finalState ords durs).counts.length,
          (find_critical_paths (finalState ords durs).parents
            (finalState ords durs).longest (finalState ords durs).sinks).2,
          (find_critical_paths (finalState ords durs).parents
            (finalState ords durs).longest (finalState ords durs).sinks).1.length,
          (find_critical_paths (finalState ords durs).parents
            (finalState ords durs).longest (finalState ords durs).sinks).1⟩
      else .error .Cycle := by
  rw [analyze_schedule]
  rw [if_neg h1]
  dsimp only
  rw [if_neg (fun hc => hc h2)]
  rw [if_neg (fun hc => hc h3)]
  rw [if_neg h4]
  rfl

/-- An acyclic nonempty task set has a sink. -/
lemma exists_sink {ords : List TaskOrder} (hcy : ¬ HasCycle ords)
    (hne : tasksOf ords ≠ []) : ∃ t ∈ tasksOf ords, IsSink ords t := by
  have hirr : ∀ v, ¬ Relation.TransGen (fun a b => edgeOf ords b a) v v := by
    intro v hv
    exact hcy ⟨v, Relation.transGen_swap.1 hv⟩
  obtain ⟨t, hT, hmin⟩ := exists_rel_min hirr (tasksOf ords) hne
  refine ⟨t, hT, ?_⟩
  intro w hw
  exact hmin w (mem_tasksOf.2 (edgeOf_mem_right hw)) hw

lemma finalState_inv {ords : List TaskOrder} {durs : List (String × Nat)}
    (hnd : ords.Nodup) :
    ∃ P, LoopInv ords durs (finalState ords durs) P ∧
      (finalState ords durs).queue = [] := by
  have hinit := loopInv_init ords durs hnd
  have hbound : (tasksOf ords).length + 1 ≤
      ((Graph.new ords).preceding_task_count.length + 1) +
        ([] : List String).length := by
    rw [tasksOf, List.length_map]
    simp
  obtain ⟨Q, hQ, hqe⟩ := runLoop_inv hnd _ _ [] hinit hbound
  rw [List.nil_append] at hQ
  exact ⟨Q, hQ, hqe⟩

/-- The facts the reconstruction needs about the drained loop state of an
acyclic run. -/
lemma final_facts {ords : List TaskOrder} {durs : List (String × Nat)}
    (hcy : ¬ HasCycle ords) {s : LoopState} {P : List String}
    (hinv : LoopInv ords durs s P) (hqe : s.queue = []) :
    (∀ v ps, aGet? s.parents v = some ps → ∃ Wv,
      aGet? s.longest v = some Wv ∧ ParOk ords durs (predsF ords v) v ps Wv) ∧
    (∀ v, predsF ords v ≠ ∅ → ∃ ps, aGet? s.parents v = some ps) ∧
    (∀ v, predsF ords v = ∅ → aGet? s.parents v = none) ∧
    (∀ v, v ∈ labelsOf ords → ∀ Wv, aGet? s.longest v = some Wv →
      MaxEndW ords durs v Wv) ∧
    (∀ v, v ∈ labelsOf ords → ∃ Wv, aGet? s.longest v = some Wv ∧
      MaxEndW ords durs v Wv) ∧
    (∀ t, t ∈ s.sinks ↔ (t ∈ labelsOf ords ∧ IsSink ords t)) ∧
    s.sinks.Nodup := by
  have hall : ∀ v ∈ tasksOf ords, v ∈ P := final_all_popped hcy hinv hqe
  have hrlxeq : ∀ v, rlxF ords P v = predsF ords v := by
    intro v
    ext u
    rw [mem_rlxF, mem_predsF]
    constructor
    · exact fun h => h.2
    · intro h
      exact ⟨hall u (mem_tasksOf.2 (edgeOf_mem_left h)), h⟩
  have hSome : ∀ v ps, aGet? s.parents v = some ps → ∃ Wv,
      aGet? s.longest v = some Wv ∧ ParOk ords durs (predsF ords v) v ps Wv := by
    intro v ps hps
    have h0 : rlxF ords P v ≠ ∅ := by
      intro hc
      rw [hinv.parNone v hc] at hps
      exact Option.noConfusion hps
    obtain ⟨l, w, hl, hw, hPO⟩ := hinv.parSome hcy v h0
    rw [hps] at hl
    injection hl with hl2
    subst hl2
    rw [hrlxeq v] at hPO
    exact ⟨w, hw, hPO⟩
  refine ⟨hSome, ?_, ?_, ?_, ?_, ?_, ?_⟩
  · intro v hne
    obtain ⟨l, w, hl, -, -⟩ := hinv.parSome hcy v (by rw [hrlxeq v]; exact hne)
    exact ⟨l, hl⟩
  · intro v hE
    exact hinv.parNone v (by rw [hrlxeq v]; exact hE)
  · intro v hv Wv hWv
    obtain ⟨w', hw', hM⟩ := hinv.lguard hcy v (mem_tasksOf.2 hv)
      (Or.inl (hall v (mem_tasksOf.2 hv)))
    rw [hWv] at hw'
    injection hw' with hw2
    subst hw2
    exact hM
  · intro v hv
    exact hinv.lguard hcy v (mem_tasksOf.2 hv)
      (Or.inl (hall v (mem_tasksOf.2 hv)))
  · intro t
    rw [hinv.sinksEq, List.mem_filter]
    constructor
    · rintro ⟨htP, hdec⟩
      refine ⟨mem_tasksOf.1 (hinv.popTasks t htP), ?_⟩
      rw [← outList_eq_nil_iff_isSink]
      simpa using hdec
    · rintro ⟨hlab, hsink⟩
      refine ⟨hall t (mem_tasksOf.2 hlab), ?_⟩
      simp only [decide_eq_true_eq]
      rw [outList_eq_nil_iff_isSink]
      exact hsink
  · rw [hinv.sinksEq]
    exact hinv.popNodup.filter _

lemma construct_paths_nil (parents : List (String × List String))
    (fuel : Nat) (t : String) :
    construct_paths parents (fuel + 1) [] t =
      construct_paths parents (fuel + 1) [t] t := by
  rw [construct_paths, construct_paths]
  cases aGet? parents t with
  | none => simp
  | some ps => simp

/-- The unsorted critical-path list of the drained acyclic loop state:
its members are exactly the maximum-weight source-to-sink paths, it has no
duplicates, and the recorded duration is the greatest source-to-sink path
weight. -/
lemma critical_set {ords : List TaskOrder} {durs : List (String × Nat)}
    (hcy : ¬ HasCycle ords) {s : LoopState} {P : List String}
    (hinv : LoopInv ords durs s P) (hqe : s.queue = [])
    (hTne : tasksOf ords ≠ []) :
    (∀ p, p ∈ ((s.sinks.filter (fun t => aGet! s.longest t =
        maxOr0 (s.sinks.map (fun t => aGet! s.longest t)))).flatMap
        (fun t => (construct_paths s.parents (s.parents.length + 1) [] t).map
          List.reverse)) ↔
      (IsSourceSinkPath ords p ∧ pathWeight durs p =
        maxOr0 (s.sinks.map (fun t => aGet! s.longest t)))) ∧
    ((s.sinks.filter (fun t => aGet! s.longest t =
        maxOr0 (s.sinks.map (fun t => aGet! s.longest t)))).flatMap
        (fun t => (construct_paths s.parents (s.parents.length + 1) [] t).map
          List.reverse)).Nodup ∧
    IsGreatest {w | ∃ p, IsSourceSinkPath ords p ∧ pathWeight durs p = w}
      (maxOr0 (s.sinks.map (fun t => aGet! s.longest t))) := by
  obtain ⟨hSome, hSomeRev, hNoneRev, hLong, hLongEx, hsinks, hsinksnd⟩ :=
    final_facts hcy hinv hqe
  have hNone : ∀ v, aGet? s.parents v = none → predsF ords v = ∅ := by
    intro v hv
    by_contra hc
    obtain ⟨ps, hps⟩ := hSomeRev v hc
    rw [hv] at hps
    exact Option.noConfusion hps
  have hWsink : ∀ t ∈ s.sinks, ∃ Wt, aGet? s.longest t = some Wt ∧
      aGet! s.longest t = Wt ∧ MaxEndW ords durs t Wt := by
    intro t ht
    obtain ⟨Wt, hWt, hM⟩ := hLongEx t ((hsinks t).1 ht).1
    refine ⟨Wt, hWt, ?_, hM⟩
    rw [aGet!, hWt]
    rfl
  have hps_nodup : ∀ v ps, aGet? s.parents v = some ps → ps.Nodup := by
    intro v ps h
    obtain ⟨W, -, hPO⟩ := hSome v ps h
    exact hPO.1
  have hconstr : ∀ t, construct_paths s.parents (s.parents.length + 1) [] t =
      (descListF s.parents (s.parents.length + 1) t).map (fun d => [t] ++ d) := by
    intro t
    rw [construct_paths_nil, construct_paths_eq _ _ _ _ (by simp)]
  have hinner : ∀ t p,
      p ∈ (construct_paths s.parents (s.parents.length + 1) [] t).map
        List.reverse ↔
      ∃ d, DescOk s.parents t d ∧ d.length < s.parents.length + 1 ∧
        p = (t :: d).reverse := by
    intro t p
    rw [hconstr, List.mem_map]
    constructor
    · rintro ⟨q, hq, rfl⟩
      rw [List.mem_map] at hq
      obtain ⟨d, hd, rfl⟩ := hq
      obtain ⟨hD, hlen⟩ := (descListF_mem _ _ _ _).1 hd
      exact ⟨d, hD, hlen, rfl⟩
    · rintro ⟨d, hD, hlen, rfl⟩
      refine ⟨t :: d, ?_, rfl⟩
      rw [List.mem_map]
      exact ⟨d, (descListF_mem _ _ _ _).2 ⟨hD, hlen⟩, rfl⟩
  refine ⟨?_, ?_, ?_⟩
  · intro p
    rw [List.mem_flatMap]
    constructor
    · rintro ⟨t, htc, hp⟩
      rw [List.mem_filter] at htc
      obtain ⟨hts, htcrit⟩ := htc
      rw [hinner t p] at hp
      obtain ⟨d, hD, -, rfl⟩ := hp
      obtain ⟨hlab_t, hsink_t⟩ := (hsinks t).1 hts
      obtain ⟨Wt, hWt2, hget, hM⟩ := hWsink t hts
      have hcritval : Wt = maxOr0 (s.sinks.map (fun t => aGet! s.longest t)) := by
        rw [← hget]
        simpa using htcrit
      refine ⟨descOk_sourceSink hSome hNone d t hlab_t hsink_t hD, ?_⟩
      rw [descOk_weight hSome hNone hLong d t hlab_t hD Wt hM]
      exact hcritval
    · rintro ⟨hssp, hweq⟩
      obtain ⟨hp, hpsrc, hpsink⟩ := hssp
      have hpne : p ≠ [] := hp.1
      have htlab : p.getLast hpne ∈ labelsOf ords :=
        hp.2.1 _ (List.getLast_mem hpne)
      have htsink : IsSink ords (p.getLast hpne) := hpsink hpne
      have hts : p.getLast hpne ∈ s.sinks := (hsinks _).2 ⟨htlab, htsink⟩
      obtain ⟨Wt, hWt2, hget, hM⟩ := hWsink _ hts
      have hWle : Wt ≤ maxOr0 (s.sinks.map (fun t => aGet! s.longest t)) := by
        rw [← hget]
        exact maxOr0_ge (List.mem_map.2 ⟨_, hts, rfl⟩)
      have hWge : maxOr0 (s.sinks.map (fun t => aGet! s.longest t)) ≤ Wt := by
        rw [← hweq]
        exact hM.2 p hp ⟨hpne, rfl⟩
      have hWteq : Wt = maxOr0 (s.sinks.map (fun t => aGet! s.longest t)) :=
        le_antisymm hWle hWge
      have hD := path_descOk hcy hSome hSomeRev hNoneRev hLong p hp hpsrc
        (p.getLast hpne) ⟨hpne, rfl⟩ Wt hM (by rw [hweq, hWteq])
      have hrev : p.reverse = p.getLast hpne :: p.dropLast.reverse := by
        conv_lhs => rw [← List.dropLast_append_getLast hpne]
        rw [List.reverse_append]
        rfl
      have hndp : (p.getLast hpne :: p.dropLast.reverse).Nodup := by
        rw [← hrev, List.nodup_reverse]
        exact path_nodup hcy hp.2.2
      have hlen := descOk_length hD hndp
      refine ⟨p.getLast hpne, ?_, ?_⟩
      · refine List.mem_filter.2 ⟨hts, ?_⟩
        rw [hget]
        simpa using hWteq
      · refine (hinner _ p).2 ⟨p.dropLast.reverse, hD, by omega, ?_⟩
        rw [← hrev, List.reverse_reverse]
  · refine nodup_flatMap (hsinksnd.filter _) ?_ ?_
    · intro t ht
      rw [hconstr]
      rw [List.map_map]
      refine (descListF_nodup s.parents hps_nodup _ t).map ?_
      intro d1 d2 h
      have h2 : ([t] ++ d1).reverse = ([t] ++ d2).reverse := h
      have h3 : [t] ++ d1 = [t] ++ d2 := by
        rw [← List.reverse_reverse ([t] ++ d1), h2, List.reverse_reverse]
      simpa using h3
    · intro t₁ h₁ t₂ h₂ hne p hb1 hb2
      rw [hinner t₁ p] at hb1
      rw [hinner t₂ p] at hb2
      obtain ⟨d₁, -, -, rfl⟩ := hb1
      obtain ⟨d₂, -, -, he⟩ := hb2
      have h3 : t₂ :: d₂ = t₁ :: d₁ := by
        rw [← List.reverse_reverse (t₂ :: d₂), ← he, List.reverse_reverse]
      injection h3 with h4
      exact hne h4.symm
  · constructor
    · obtain ⟨t₀, ht₀T, ht₀sink⟩ := exists_sink hcy hTne
      have ht₀s : t₀ ∈ s.sinks := (hsinks t₀).2 ⟨mem_tasksOf.1 ht₀T, ht₀sink⟩
      have hmapne : s.sinks.map (fun t => aGet! s.longest t) ≠ [] := by
        have h1 : s.sinks ≠ [] := List.ne_nil_of_mem ht₀s
        simpa using h1
      have hmem := maxOr0_mem hmapne
      rw [List.mem_map] at hmem
      obtain ⟨t₁, ht₁s, hval⟩ := hmem
      obtain ⟨W₁, hW₁, hget₁, hM₁⟩ := hWsink t₁ ht₁s
      have hW₁eq : W₁ = maxOr0 (s.sinks.map (fun t => aGet! s.longest t)) := by
        rw [← hget₁, hval]
      obtain ⟨⟨p₁, hp₁, hl₁, hw₁⟩, hub₁⟩ := hM₁
      obtain ⟨hp₁ne, hp₁l⟩ := hl₁
      obtain ⟨q, hq, ⟨hqne, hqprop⟩, hqw⟩ :=
        extend_to_source hcy ((tasksOf ords).length + 1 - p₁.length) p₁
          (le_refl _) hp₁
      obtain ⟨hql, hqsrc⟩ := hqprop hp₁ne
      have hqlast : q.getLast hqne = t₁ := by rw [hql, hp₁l]
      have hqle : pathWeight durs q ≤ W₁ := hub₁ q hq ⟨hqne, hqlast⟩
      have hqeq : pathWeight durs q = W₁ := by
        rw [hw₁] at hqw
        omega
      refine ⟨q, ⟨hq, ?_, ?_⟩, by rw [hqeq, hW₁eq]⟩
      · intro h
        exact hqsrc
      · intro h
        rw [hqlast]
        exact ((hsinks t₁).1 ht₁s).2
    · rintro w ⟨p, ⟨hp, -, hpsink⟩, rfl⟩
      have hpne : p ≠ [] := hp.1
      have htlab : p.getLast hpne ∈ labelsOf ords :=
        hp.2.1 _ (List.getLast_mem hpne)
      have hts : p.getLast hpne ∈ s.sinks :=
        (hsinks _).2 ⟨htlab, hpsink hpne⟩
      obtain ⟨Wt, hWt2, hget, hM⟩ := hWsink _ hts
      have h1 : pathWeight durs p ≤ Wt := hM.2 p hp ⟨hpne, rfl⟩
      have h2 : Wt ≤ maxOr0 (s.sinks.map (fun t => aGet! s.longest t)) := by
        rw [← hget]
        exact maxOr0_ge (List.mem_map.2 ⟨_, hts, rfl⟩)
      exact le_trans h1 h2

/-- Inputs whose order set and duration map mention exactly the same labels
pass both validation checks, and their task set is nonempty. -/
lemma valid_inputs {ords : List TaskOrder} {durs : List (String × Nat)}
    (hdnd : (durs.map Prod.fst).Nodup)
    (hne : ¬ (ords = [] ∧ durs = []))
    (hcov : ∀ v, v ∈ labelsOf ords ↔ v ∈ durs.map Prod.fst) :
    ((Graph.new ords).preceding_task_count.map (fun e => e.1)).filter
      (fun t => ¬ (aGet? durs t).isSome) = [] ∧
    durs.length = (Graph.new ords).preceding_task_count.length ∧
    tasksOf ords ≠ [] := by
  have hone : ords ≠ [] := by
    intro ho
    refine hne ⟨ho, ?_⟩
    have hl : labelsOf ords = [] := by rw [ho]; rfl
    have hk : durs.map Prod.fst = [] := by
      cases hdk : durs.map Prod.fst with
      | nil => rfl
      | cons k ks =>
          exfalso
          have h2 : k ∈ durs.map Prod.fst := by rw [hdk]; simp
          have h3 := (hcov k).2 h2
          rw [hl] at h3
          exact List.not_mem_nil _ h3
    rw [List.map_eq_nil_iff] at hk
    exact hk
  refine ⟨?_, ?_, ?_⟩
  · rw [List.filter_eq_nil_iff]
    intro t ht
    have ht2 : t ∈ tasksOf ords := ht
    have h3 : (aGet? durs t).isSome = true :=
      aGet?_isSome_iff.2 ((hcov t).1 (mem_tasksOf.1 ht2))
    simp [h3]
  · have h1 : (durs.map Prod.fst).toFinset = (tasksOf ords).toFinset := by
      ext v
      rw [List.mem_toFinset, List.mem_toFinset, ← hcov v, mem_tasksOf]
    have h2 : (durs.map Prod.fst).length = (tasksOf ords).length := by
      rw [← List.toFinset_card_of_nodup hdnd,
        ← List.toFinset_card_of_nodup (tasksOf_nodup ords), h1]
    rw [List.length_map] at h2
    rw [h2, tasksOf, List.length_map]
  · obtain ⟨o, ho⟩ := List.exists_mem_of_ne_nil ords hone
    have h1 : o.first ∈ labelsOf ords := mem_labelsOf.2 ⟨o, ho, Or.inl rfl⟩
    exact List.ne_nil_of_mem (mem_tasksOf.2 h1)

/-- A passing run that seeds an empty queue reports a cycle at once. -/
lemma analyze_eq_seedEmpty {ords : List TaskOrder} {durs : List (String × Nat)}
    (h1 : ¬ (ords = [] ∧ durs = []))
    (h2 : ((Graph.new ords).preceding_task_count.map (fun e => e.1)).filter
      (fun t => ¬ (aGet? durs t).isSome) = [])
    (h3 : durs.length = (Graph.new ords).preceding_task_count.length)
    (h4 : (seedQueue durs (Graph.new ords).preceding_task_count).1 = []) :
    analyze_schedule ords durs = .error .Cycle := by
  rw [analyze_schedule]
  rw [if_neg h1]
  dsimp only
  rw [if_neg (fun hc => hc h2)]
  rw [if_neg (fun hc => hc h3)]
  rw [if_pos h4]

/-- Dissection of a successful run: every check passed, the loop zeroed all
counts, and the result is read off the final state. -/
lemma analyze_ok_elim {ords : List TaskOrder} {durs : List (String × Nat)}
    {a : ScheduleAnalysis} (hok : analyze_schedule ords durs = .ok a) :
    ¬ (ords = [] ∧ durs = []) ∧
    ((Graph.new ords).preceding_task_count.map (fun e => e.1)).filter
      (fun t => ¬ (aGet? durs t).isSome) = [] ∧
    durs.length = (Graph.new ords).preceding_task_count.length ∧
    (seedQueue durs (Graph.new ords).preceding_task_count).1 ≠ [] ∧
    (finalState ords durs).counts.all (fun e => e.2 = 0) = true ∧
    a = ⟨(finalState ords durs).maxPar, (finalState ords durs).counts.length,
      (find_critical_paths (finalState ords durs).parents
        (finalState ords durs).longest (finalState ords durs).sinks).2,
      (find_critical_paths (finalState ords durs).parents
        (finalState ords durs).longest (finalState ords durs).sinks).1.length,
      (find_critical_paths (finalState ords durs).parents
        (finalState ords durs).longest (finalState ords durs).sinks).1⟩ := by
  rw [analyze_schedule] at hok
  split at hok
  · exact absurd hok (by simp)
  · rename_i h1
    dsimp only at hok
    split at hok
    · exact absurd hok (by simp)
    · rename_i h2
      split at hok
      · exact absurd hok (by simp)
      · rename_i h3
        split at hok
        · exact absurd hok (by simp)
        · rename_i h4
          split at hok
          · rename_i h5
            injection hok with ha
            exact ⟨h1, not_ne_iff.1 h2, not_ne_iff.1 h3, h4, h5, ha.symm⟩
          · exact absurd hok (by simp)

/-- C3: for every nonempty deduplicated input whose order set and duration
map mention exactly the same labels, `analyze_schedule` returns the `Cycle`
error precisely when the precedence relation contains a directed cycle (and
then returns no `ScheduleAnalysis`, the `Except` being in its error arm). -/
theorem claim_C3 (ords : List TaskOrder) (durs : List (String × Nat))
    (hnd : ords.Nodup) (hdnd : (durs.map Prod.fst).Nodup)
    (hne : ¬ (ords = [] ∧ durs = []))
    (hcov : ∀ v, v ∈ labelsOf ords ↔ v ∈ durs.map Prod.fst) :
    (analyze_schedule ords durs = .error .Cycle ↔ HasCycle ords) := by
  obtain ⟨hmd, hlen, hTne⟩ := valid_inputs hdnd hne hcov
  by_cases hcy : HasCycle ords
  · by_cases hseed :
        (seedQueue durs (Graph.new ords).preceding_task_count).1 = []
    · exact iff_of_true (analyze_eq_seedEmpty hne hmd hlen hseed) hcy
    · obtain ⟨P, hinv, hqe⟩ := @finalState_inv ords durs hnd
      have hnz := final_counts_nonzero hcy hinv
      refine iff_of_true ?_ hcy
      rw [analyze_eq_run hne hmd hlen hseed, if_neg (by simp [hnz])]
  · have hseed := @seed_nonempty ords durs hnd hTne hcy
    obtain ⟨P, hinv, hqe⟩ := @finalState_inv ords durs hnd
    have hz := final_counts_zero hcy hinv hqe
    refine iff_of_false ?_ hcy
    rw [analyze_eq_run hne hmd hlen hseed, if_pos hz]
    simp

/-- C1: for every nonempty deduplicated acyclic input whose order set and
duration map mention exactly the same labels, `analyze_schedule` succeeds
and the returned `minimum_completion_time` is the greatest total duration
(exact sum) over all directed source-to-sink paths. -/
theorem claim_C1 (ords : List TaskOrder) (durs : List (String × Nat))
    (hnd : ords.Nodup) (hdnd : (durs.map Prod.fst).Nodup)
    (hne : ¬ (ords = [] ∧ durs = []))
    (hcov : ∀ v, v ∈ labelsOf ords ↔ v ∈ durs.map Prod.fst)
    (hcy : ¬ HasCycle ords) :
    ∃ a, analyze_schedule ords durs = .ok a ∧
      IsGreatest {w | ∃ p, IsSourceSinkPath ords p ∧ pathWeight durs p = w}
        a.minimum_completion_time := by
  obtain ⟨hmd, hlen, hTne⟩ := valid_inputs hdnd hne hcov
  have hseed := @seed_nonempty ords durs hnd hTne hcy
  obtain ⟨P, hinv, hqe⟩ := @finalState_inv ords durs hnd
  have hz := final_counts_zero hcy hinv hqe
  refine ⟨_, by rw [analyze_eq_run hne hmd hlen hseed, if_pos hz], ?_⟩
  exact (critical_set hcy hinv hqe hTne).2.2

/-- A cycle-free ranking certificate: a strictly edge-increasing measure
rules out directed cycles (used to discharge acyclicity at concrete
inputs). -/
lemma no_cycle_of_rank {ords : List TaskOrder} (f : String → Nat)
    (hf : ∀ u v, edgeOf ords u v → f u < f v) : ¬ HasCycle ords := by
  rintro ⟨v, htg⟩
  have hmono : ∀ a b, Relation.TransGen (edgeOf ords) a b → f a < f b := by
    intro a b h
    induction h with
    | single h => exact hf _ _ h
    | tail h1 h2 ih => exact lt_trans ih (hf _ _ h2)
  exact lt_irrefl _ (hmono v v htg)

/-- C2: whenever `analyze_schedule` succeeds (on a deduplicated order set),
`critical_path_count` equals the length of `critical_paths`, the entries of
`critical_paths` are distinct and are exactly the source-to-sink paths
(labels in source-to-sink order) whose durations sum exactly to
`minimum_completion_time`, and `critical_path_count` counts that set of
paths. -/
theorem claim_C2 (ords : List TaskOrder) (durs : List (String × Nat))
    (hnd : ords.Nodup) (a : ScheduleAnalysis)
    (hok : analyze_schedule ords durs = .ok a) :
    a.critical_path_count = a.critical_paths.length ∧
    a.critical_paths.Nodup ∧
    (∀ p, p ∈ a.critical_paths ↔
      (IsSourceSinkPath ords p ∧
        pathWeight durs p = a.minimum_completion_time)) ∧
    {p : List String | IsSourceSinkPath ords p ∧
      pathWeight durs p = a.minimum_completion_time}.ncard =
      a.critical_path_count := by
  obtain ⟨h1, h2, h3, h4, h5, ha⟩ := analyze_ok_elim hok
  obtain ⟨P, hinv, hqe⟩ := @finalState_inv ords durs hnd
  have hcy : ¬ HasCycle ords := by
    intro hcy
    rw [final_counts_nonzero hcy hinv] at h5
    exact absurd h5 (by simp)
  have hTne : tasksOf ords ≠ [] := by
    intro hT
    have hpc : (Graph.new ords).preceding_task_count = [] :=
      List.map_eq_nil_iff.1 hT
    refine h4 ?_
    rw [hpc]
    rfl
  obtain ⟨hmem, hnodup, hgr⟩ := critical_set hcy hinv hqe hTne
  have hcp : a.critical_paths = sortL pathLe
      (((finalState ords durs).sinks.filter
        (fun t => aGet! (finalState ords durs).longest t =
          maxOr0 ((finalState ords durs).sinks.map
            (fun t => aGet! (finalState ords durs).longest t)))).flatMap
        (fun t => (construct_paths (finalState ords durs).parents
          ((finalState ords durs).parents.length + 1) [] t).map
            List.reverse)) := by
    rw [ha, find_critical_paths_eq]
  have hmct : a.minimum_completion_time =
      maxOr0 ((finalState ords durs).sinks.map
        (fun t => aGet! (finalState ords durs).longest t)) := by
    rw [ha, find_critical_paths_eq]
  have hcount : a.critical_path_count = a.critical_paths.length := by
    rw [ha]
  have hperm := sortL_perm pathLe
    (((finalState ords durs).sinks.filter
      (fun t => aGet! (finalState ords durs).longest t =
        maxOr0 ((finalState ords durs).sinks.map
          (fun t => aGet! (finalState ords durs).longest t)))).flatMap
      (fun t => (construct_paths (finalState ords durs).parents
        ((finalState ords durs).parents.length + 1) [] t).map List.reverse))
  have hmemA : ∀ p, p ∈ a.critical_paths ↔
      (IsSourceSinkPath ords p ∧
        pathWeight durs p = a.minimum_completion_time) := by
    intro p
    rw [hcp, hperm.mem_iff, hmem p, hmct]
  have hnodupA : a.critical_paths.Nodup := by
    rw [hcp, hperm.nodup_iff]
    exact hnodup
  refine ⟨hcount, hnodupA, hmemA, ?_⟩
  have hset : {p : List String | IsSourceSinkPath ords p ∧
      pathWeight durs p = a.minimum_completion_time} =
      ↑a.critical_paths.toFinset := by
    ext p
    rw [Set.mem_setOf_eq, Finset.mem_coe, List.mem_toFinset]
    exact (hmemA p).symm
  rw [hset, Set.ncard_coe_Finset, List.toFinset_card_of_nodup hnodupA, hcount]

/-- C9: on every run that reaches the path-sorting step (equivalently, a
successful analysis of a deduplicated order set), the unsorted list the
backtracking reconstruction hands to the sorter — all reconstructed
reversed paths of the critical sinks — contains no two identical label
sequences, so the duplicate-path panic in the sort comparator is never
reached. -/
theorem claim_C9 (ords : List TaskOrder) (durs : List (String × Nat))
    (hnd : ords.Nodup) (a : ScheduleAnalysis)
    (hok : analyze_schedule ords durs = .ok a) :
    (((finalState ords durs).sinks.filter
      (fun t => aGet! (finalState ords durs).longest t =
        maxOr0 ((finalState ords durs).sinks.map
          (fun t => aGet! (finalState ords durs).longest t)))).flatMap
      (fun t => (construct_paths (finalState ords durs).parents
        ((finalState ords durs).parents.length + 1) [] t).map
          List.reverse)).Nodup := by
  obtain ⟨h1, h2, h3, h4, h5, ha⟩ := analyze_ok_elim hok
  obtain ⟨P, hinv, hqe⟩ := @finalState_inv ords durs hnd
  have hcy : ¬ HasCycle ords := by
    intro hcy
    rw [final_counts_nonzero hcy hinv] at h5
    exact absurd h5 (by simp)
  have hTne : tasksOf ords ≠ [] := by
    intro hT
    have hpc : (Graph.new ords).preceding_task_count = [] :=
      List.map_eq_nil_iff.1 hT
    refine h4 ?_
    rw [hpc]
    rfl
  exact (critical_set hcy hinv hqe hTne).2.1

theorem claim_C1_witness :
    ∃ a, analyze_schedule [⟨"A", some "B"⟩] [("A", 2), ("B", 3)] = .ok a ∧
      IsGreatest {w | ∃ p, IsSourceSinkPath [⟨"A", some "B"⟩] p ∧
        pathWeight [("A", 2), ("B", 3)] p = w} a.minimum_completion_time :=
  claim_C1 [⟨"A", some "B"⟩] [("A", 2), ("B", 3)] (by decide) (by decide)
    (by decide) (fun v => Iff.rfl)
    (no_cycle_of_rank (fun s => if s = "A" then 0 else 1)
      (by
        intro u v h
        have h2 : u = "A" ∧ v = "B" := by simpa [edgeOf] using h
        rw [h2.1, h2.2]
        decide))

theorem claim_C3_witness :
    (analyze_schedule [⟨"A", some "B"⟩, ⟨"B", some "A"⟩]
        [("A", 1), ("B", 1)] = .error .Cycle ↔
      HasCycle [⟨"A", some "B"⟩, ⟨"B", some "A"⟩]) :=
  claim_C3 [⟨"A", some "B"⟩, ⟨"B", some "A"⟩] [("A", 1), ("B", 1)]
    (by decide) (by decide) (by decide)
    (by
      intro v
      show v ∈ ["A", "B", "B", "A"] ↔ v ∈ ["A", "B"]
      simp
      tauto)

theorem claim_C2_witness :
    (⟨1, 2, 5, 1, [["A", "B"]]⟩ : ScheduleAnalysis).critical_path_count =
      (⟨1, 2, 5, 1, [["A", "B"]]⟩ : ScheduleAnalysis).critical_paths.length ∧
    (⟨1, 2, 5, 1, [["A", "B"]]⟩ : ScheduleAnalysis).critical_paths.Nodup ∧
    (∀ p, p ∈ (⟨1, 2, 5, 1, [["A", "B"]]⟩ : ScheduleAnalysis).critical_paths ↔
      (IsSourceSinkPath [⟨"A", some "B"⟩] p ∧
        pathWeight [("A", 2), ("B", 3)] p =
          (⟨1, 2, 5, 1, [["A", "B"]]⟩ : ScheduleAnalysis).minimum_completion_time)) ∧
    {p : List String | IsSourceSinkPath [⟨"A", some "B"⟩] p ∧
      pathWeight [("A", 2), ("B", 3)] p =
        (⟨1, 2, 5, 1, [["A", "B"]]⟩ : ScheduleAnalysis).minimum_completion_time}.ncard =
      (⟨1, 2, 5, 1, [["A", "B"]]⟩ : ScheduleAnalysis).critical_path_count :=
  claim_C2 [⟨"A", some "B"⟩] [("A", 2), ("B", 3)] (by decide)
    ⟨1, 2, 5, 1, [["A", "B"]]⟩ (by decide)

theorem claim_C9_witness :
    (((finalState [⟨"A", some "B"⟩] [("A", 2), ("B", 3)]).sinks.filter
      (fun t => aGet! (finalState [⟨"A", some "B"⟩] [("A", 2), ("B", 3)]).longest t =
        maxOr0 ((finalState [⟨"A", some "B"⟩] [("A", 2), ("B", 3)]).sinks.map
          (fun t => aGet! (finalState [⟨"A", some "B"⟩] [("A", 2), ("B", 3)]).longest t)))).flatMap
      (fun t => (construct_paths (finalState [⟨"A", some "B"⟩] [("A", 2), ("B", 3)]).parents
        ((finalState [⟨"A", some "B"⟩] [("A", 2), ("B", 3)]).parents.length + 1) [] t).map
          List.reverse)).Nodup :=
  claim_C9 [⟨"A", some "B"⟩] [("A", 2), ("B", 3)] (by decide)
    ⟨1, 2, 5, 1, [["A", "B"]]⟩ (by decide)

/-! ### Iteration-order sensitivity (claim C7) -/

/-- Counterexample to C7 as stated: two inputs holding the same order set
(witnessed by the permutation) and literally the same duration map disagree
on `max_parallelism` — with all durations zero, the pop order among equal
completion times depends on the container iteration order, changing the
maximum queue length observed (the repository's own zero-duration test
asserts `max_parallelism == 2 || max_parallelism == 3`).  All other fields
agree. -/
theorem claim_C7_counterexample :
    ([⟨"K", none⟩, ⟨"A", some "B"⟩, ⟨"A", some "C"⟩] : List TaskOrder).Perm
      [⟨"A", some "B"⟩, ⟨"A", some "C"⟩, ⟨"K", none⟩] ∧
    analyze_schedule [⟨"K", none⟩, ⟨"A", some "B"⟩, ⟨"A", some "C"⟩]
      [("A", 0), ("B", 0), ("C", 0), ("K", 0)] =
      .ok ⟨2, 4, 0, 3, [["A", "B"], ["A", "C"], ["K"]]⟩ ∧
    analyze_schedule [⟨"A", some "B"⟩, ⟨"A", some "C"⟩, ⟨"K", none⟩]
      [("A", 0), ("B", 0), ("C", 0), ("K", 0)] =
      .ok ⟨3, 4, 0, 3, [["A", "B"], ["A", "C"], ["K"]]⟩ := by
  refine ⟨?_, ?_, ?_⟩
  · decide
  · decide
  · decide

lemma edgeOf_perm {o₁ o₂ : List TaskOrder} (hp : o₁.Perm o₂) :
    edgeOf o₁ = edgeOf o₂ := by
  funext u v
  exact propext hp.mem_iff

lemma labelsOf_perm_mem {o₁ o₂ : List TaskOrder} (hp : o₁.Perm o₂)
    (x : String) : x ∈ labelsOf o₁ ↔ x ∈ labelsOf o₂ := by
  rw [mem_labelsOf, mem_labelsOf]
  constructor
  · rintro ⟨o, ho, h⟩
    exact ⟨o, hp.mem_iff.1 ho, h⟩
  · rintro ⟨o, ho, h⟩
    exact ⟨o, hp.mem_iff.2 ho, h⟩

lemma predsF_perm {o₁ o₂ : List TaskOrder} (hp : o₁.Perm o₂) :
    predsF o₁ = predsF o₂ := by
  funext v
  ext u
  rw [mem_predsF, mem_predsF, edgeOf_perm hp]

lemma ssp_perm {o₁ o₂ : List TaskOrder} (hp : o₁.Perm o₂) (p : List String) :
    IsSourceSinkPath o₁ p ↔ IsSourceSinkPath o₂ p := by
  unfold IsSourceSinkPath IsPath IsSource IsSink
  rw [edgeOf_perm hp]
  constructor
  · rintro ⟨⟨h1, h2, h3⟩, h4, h5⟩
    exact ⟨⟨h1, fun x hx => (labelsOf_perm_mem hp x).1 (h2 x hx), h3⟩, h4, h5⟩
  · rintro ⟨⟨h1, h2, h3⟩, h4, h5⟩
    exact ⟨⟨h1, fun x hx => (labelsOf_perm_mem hp x).2 (h2 x hx), h3⟩, h4, h5⟩

lemma hasCycle_perm {o₁ o₂ : List TaskOrder} (hp : o₁.Perm o₂) :
    HasCycle o₁ ↔ HasCycle o₂ := by
  unfold HasCycle
  rw [edgeOf_perm hp]

lemma aGet?_perm {α : Type} {d₁ d₂ : List (String × α)} (hp : d₁.Perm d₂)
    (hnd : (d₁.map Prod.fst).Nodup) (k : String) :
    aGet? d₁ k = aGet? d₂ k := by
  have hnd₂ : (d₂.map Prod.fst).Nodup := (hp.map Prod.fst).nodup_iff.1 hnd
  cases h1 : aGet? d₁ k with
  | none =>
      rw [aGet?_eq_none_iff] at h1
      rw [eq_comm, aGet?_eq_none_iff]
      intro hc
      exact h1 ((hp.map Prod.fst).mem_iff.2 hc)
  | some v =>
      rw [aGet?_eq_some_iff_of_nodup hnd] at h1
      exact ((aGet?_eq_some_iff_of_nodup hnd₂).2 (hp.mem_iff.1 h1)).symm

lemma durOf_perm {d₁ d₂ : List (String × Nat)} (hp : d₁.Perm d₂)
    (hnd : (d₁.map Prod.fst).Nodup) : durOf d₁ = durOf d₂ := by
  funext v
  rw [durOf, durOf, aGet!, aGet!, aGet?_perm hp hnd v]

lemma pathWeight_perm {d₁ d₂ : List (String × Nat)} (hp : d₁.Perm d₂)
    (hnd : (d₁.map Prod.fst).Nodup) : pathWeight d₁ = pathWeight d₂ := by
  funext p
  rw [pathWeight, pathWeight, durOf_perm hp hnd]

/-- Two antisymmetrically sorted duplicate-free lists with the same members
are equal. -/
lemma pairwise_nodup_unique {α : Type} {r : α → α → Prop}
    (hanti : ∀ a b, r a b → r b a → a = b) :
    ∀ (l₁ l₂ : List α), l₁.Pairwise r → l₂.Pairwise r → l₁.Nodup →
      l₂.Nodup → (∀ x, x ∈ l₁ ↔ x ∈ l₂) → l₁ = l₂ := by
  intro l₁
  induction l₁ with
  | nil =>
      intro l₂ _ _ _ _ hmem
      cases l₂ with
      | nil => rfl
      | cons b t => exact absurd ((hmem b).2 (by simp)) (List.not_mem_nil b)
  | cons a t₁ ih =>
      intro l₂ hs₁ hs₂ hn₁ hn₂ hmem
      cases l₂ with
      | nil => exact absurd ((hmem a).1 (by simp)) (List.not_mem_nil a)
      | cons b t₂ =>
          rw [List.pairwise_cons] at hs₁ hs₂
          rw [List.nodup_cons] at hn₁ hn₂
          have hab : a = b := by
            have ha2 : a ∈ b :: t₂ := (hmem a).1 (by simp)
            have hb1 : b ∈ a :: t₁ := (hmem b).2 (by simp)
            rcases List.mem_cons.1 ha2 with h | h
            · exact h
            · rcases List.mem_cons.1 hb1 with h2 | h2
              · exact h2.symm
              · exact hanti a b (hs₁.1 b h2) (hs₂.1 a h)
          subst hab
          have htmem : ∀ x, x ∈ t₁ ↔ x ∈ t₂ := by
            intro x
            constructor
            · intro hx
              have h2 := (hmem x).1 (List.mem_cons_of_mem _ hx)
              rcases List.mem_cons.1 h2 with h3 | h3
              · exact absurd (h3 ▸ hx) hn₁.1
              · exact h3
            · intro hx
              have h2 := (hmem x).2 (List.mem_cons_of_mem _ hx)
              rcases List.mem_cons.1 h2 with h3 | h3
              · exact absurd (h3 ▸ hx) hn₂.1
              · exact h3
          rw [ih t₂ hs₁.2 hs₂.2 hn₁.2 hn₂.2 htmem]

lemma pathLe_antisymm {p q : List String} (h1 : pathLe p q = true)
    (h2 : pathLe q p = true) : p = q := by
  rw [pathLe_eq_true_iff] at h1 h2
  rw [pathCmpO_swap] at h2
  cases hc : pathCmpO p q with
  | lt =>
      rw [hc] at h2
      exact absurd rfl h2
  | eq => exact pathCmpO_eq_eq.1 hc
  | gt =>
      rw [hc] at h1
      exact absurd rfl h1

/-- Duplicate-free label lists with the same members sort identically. -/
lemma sortLabels_unique {l₁ l₂ : List String} (hn₁ : l₁.Nodup)
    (hn₂ : l₂.Nodup) (hmem : ∀ x, x ∈ l₁ ↔ x ∈ l₂) :
    sortLabels l₁ = sortLabels l₂ := by
  refine pairwise_nodup_unique (fun a b h1 h2 => absurd h2 (lt_asymm h1)) _ _
    (sortLabels_strict hn₁) (sortLabels_strict hn₂)
    ((sortLabels_perm l₁).nodup_iff.2 hn₁)
    ((sortLabels_perm l₂).nodup_iff.2 hn₂) ?_
  intro x
  rw [(sortLabels_perm l₁).mem_iff, (sortLabels_perm l₂).mem_iff]
  exact hmem x

lemma analyze_eq_empty {ords : List TaskOrder} {durs : List (String × Nat)}
    (h : ords = [] ∧ durs = []) :
    analyze_schedule ords durs = .error .EmptyInput := by
  rw [analyze_schedule, if_pos h]

lemma analyze_eq_missingD {ords : List TaskOrder} {durs : List (String × Nat)}
    (h1 : ¬ (ords = [] ∧ durs = []))
    (hM : ((Graph.new ords).preceding_task_count.map (fun e => e.1)).filter
      (fun t => ¬ (aGet? durs t).isSome) ≠ []) :
    analyze_schedule ords durs = .error (.MissingDurations
      (sortLabels (((Graph.new ords).preceding_task_count.map
        (fun e => e.1)).filter (fun t => ¬ (aGet? durs t).isSome)))) := by
  rw [analyze_schedule, if_neg h1]
  dsimp only
  rw [if_pos hM]

lemma analyze_eq_missingO {ords : List TaskOrder} {durs : List (String × Nat)}
    (h1 : ¬ (ords = [] ∧ durs = []))
    (h2 : ((Graph.new ords).preceding_task_count.map (fun e => e.1)).filter
      (fun t => ¬ (aGet? durs t).isSome) = [])
    (h3 : durs.length ≠ (Graph.new ords).preceding_task_count.length) :
    analyze_schedule ords durs = .error (.MissingOrders (sortLabels
      ((durs.map (fun e => e.1)).filter
        (fun t => ¬ (aGet? (Graph.new ords).preceding_task_count t).isSome)))) := by
  rw [analyze_schedule, if_neg h1]
  dsimp only
  rw [if_neg (fun hc => hc h2), if_pos h3]

lemma missingD_mem {ords : List TaskOrder} {durs : List (String × Nat)}
    (t : String) :
    (t ∈ ((Graph.new ords).preceding_task_count.map (fun e => e.1)).filter
      (fun t => ¬ (aGet? durs t).isSome)) ↔
    (t ∈ labelsOf ords ∧ t ∉ durs.map Prod.fst) := by
  rw [List.mem_filter]
  constructor
  · rintro ⟨h1, h2⟩
    have h1' : t ∈ tasksOf ords := h1
    refine ⟨mem_tasksOf.1 h1', ?_⟩
    intro hc
    rw [← aGet?_isSome_iff] at hc
    simp [hc] at h2
  · rintro ⟨h1, h2⟩
    have h3 : t ∈ tasksOf ords := mem_tasksOf.2 h1
    refine ⟨h3, ?_⟩
    have h4 : aGet? durs t = none := aGet?_eq_none_iff.2 h2
    simp [h4]

lemma missingO_mem {ords : List TaskOrder} {durs : List (String × Nat)}
    (t : String) :
    (t ∈ (durs.map (fun e => e.1)).filter
      (fun t => ¬ (aGet? (Graph.new ords).preceding_task_count t).isSome)) ↔
    (t ∈ durs.map Prod.fst ∧ t ∉ labelsOf ords) := by
  obtain ⟨hpc, -, -⟩ := graphNew_spec ords
  rw [List.mem_filter]
  constructor
  · rintro ⟨h1, h2⟩
    refine ⟨h1, ?_⟩
    intro hc
    have h3 : aGet? (Graph.new ords).preceding_task_count t =
        some (inCount ords t) := by
      rw [hpc t, if_pos hc]
    simp [h3] at h2
  · rintro ⟨h1, h2⟩
    refine ⟨h1, ?_⟩
    have h3 : aGet? (Graph.new ords).preceding_task_count t = none := by
      rw [hpc t, if_neg h2]
    simp [h3]

/-- The seeding queue is empty exactly when no mentioned label is free of
predecessors (the canonical, iteration-order-free reading). -/
lemma seed_empty_iff {ords : List TaskOrder} {durs : List (String × Nat)}
    (hnd : ords.Nodup) :
    ((seedQueue durs (Graph.new ords).preceding_task_count).1 = []) ↔
      ∀ v ∈ labelsOf ords, predsF ords v ≠ ∅ := by
  obtain ⟨hpc, -, hkeysnd⟩ := graphNew_spec ords
  obtain ⟨hq, -⟩ := seedQueue_spec durs (Graph.new ords).preceding_task_count
  constructor
  · intro hempty v hv hE
    rw [hempty] at hq
    have hfe : ((Graph.new ords).preceding_task_count.filter
        (fun e => e.2 = 0)).map (fun e => (e.1, aGet! durs e.1)) = [] :=
      hq.symm.eq_nil
    rw [List.map_eq_nil_iff] at hfe
    have hv0 : aGet? (Graph.new ords).preceding_task_count v = some 0 := by
      rw [hpc v, if_pos hv, inCount_eq_card_predsF hnd, hE]
      simp
    have hmem : (v, 0) ∈ (Graph.new ords).preceding_task_count :=
      (aGet?_eq_some_iff_of_nodup hkeysnd).1 hv0
    have hmf : (v, 0) ∈ (Graph.new ords).preceding_task_count.filter
        (fun e => e.2 = 0) := List.mem_filter.2 ⟨hmem, by simp⟩
    rw [hfe] at hmf
    exact absurd hmf (List.not_mem_nil _)
  · intro hall
    have hfe : (Graph.new ords).preceding_task_count.filter
        (fun e => e.2 = 0) = [] := by
      rw [List.filter_eq_nil_iff]
      rintro ⟨v, c⟩ he
      have hvT : v ∈ tasksOf ords :=
        List.mem_map.2 ⟨(v, c), he, rfl⟩
      have hlook : aGet? (Graph.new ords).preceding_task_count v = some c :=
        (aGet?_eq_some_iff_of_nodup hkeysnd).2 he
      rw [hpc v, if_pos (mem_tasksOf.1 hvT), inCount_eq_card_predsF hnd]
        at hlook
      injection hlook with hc2
      have hne := hall v (mem_tasksOf.1 hvT)
      have hcard : (predsF ords v).card ≠ 0 := by
        intro hz
        exact hne (Finset.card_eq_zero.1 hz)
      simp only [decide_eq_true_eq]
      omega
    have h2 := hq
    rw [hfe] at h2
    exact h2.eq_nil

/-- The loop zeroes every in-degree count exactly on acyclic inputs. -/
lemma counts_zero_iff {ords : List TaskOrder} {durs : List (String × Nat)}
    (hnd : ords.Nodup) :
    (((finalState ords durs).counts.all (fun e => e.2 = 0)) = true) ↔
      ¬ HasCycle ords := by
  obtain ⟨P, hinv, hqe⟩ := @finalState_inv ords durs hnd
  constructor
  · intro h hcy
    rw [final_counts_nonzero hcy hinv] at h
    exact absurd h (by simp)
  · intro hcy
    exact final_counts_zero hcy hinv hqe

/-- C7, corrected: for two deduplicated inputs holding the same set of task
orders and the same label-to-duration mapping in different iteration
orders, `analyze_schedule` agrees on everything except possibly
`max_parallelism`: the two runs produce the same error, or both succeed
with the same `task_count`, `minimum_completion_time`,
`critical_path_count`, and the same `critical_paths` in the same order. -/
theorem claim_C7 (o₁ o₂ : List TaskOrder) (d₁ d₂ : List (String × Nat))
    (hnd : o₁.Nodup) (hdnd : (d₁.map Prod.fst).Nodup)
    (hop : o₁.Perm o₂) (hdp : d₁.Perm d₂) :
    (analyze_schedule o₁ d₁).map
      (fun a => (a.task_count, a.minimum_completion_time,
        a.critical_path_count, a.critical_paths)) =
    (analyze_schedule o₂ d₂).map
      (fun a => (a.task_count, a.minimum_completion_time,
        a.critical_path_count, a.critical_paths)) := by
  have hnd₂ : o₂.Nodup := hop.nodup_iff.1 hnd
  have hdnd₂ : (d₂.map Prod.fst).Nodup := (hdp.map Prod.fst).nodup_iff.1 hdnd
  have hkeymem : ∀ t, t ∈ d₁.map Prod.fst ↔ t ∈ d₂.map Prod.fst :=
    fun t => (hdp.map Prod.fst).mem_iff
  have hlabmem := labelsOf_perm_mem hop
  by_cases h1 : o₁ = [] ∧ d₁ = []
  · have h1' : o₂ = [] ∧ d₂ = [] := by
      obtain ⟨ho, hd⟩ := h1
      rw [ho] at hop
      rw [hd] at hdp
      exact ⟨hop.symm.eq_nil, hdp.symm.eq_nil⟩
    rw [analyze_eq_empty h1, analyze_eq_empty h1']
  · have h1' : ¬ (o₂ = [] ∧ d₂ = []) := by
      rintro ⟨ho, hd⟩
      rw [ho] at hop
      rw [hd] at hdp
      exact h1 ⟨hop.eq_nil, hdp.eq_nil⟩
    have hMmem : ∀ t,
        (t ∈ ((Graph.new o₁).preceding_task_count.map (fun e => e.1)).filter
          (fun t => ¬ (aGet? d₁ t).isSome)) ↔
        (t ∈ ((Graph.new o₂).preceding_task_count.map (fun e => e.1)).filter
          (fun t => ¬ (aGet? d₂ t).isSome)) := by
      intro t
      rw [missingD_mem, missingD_mem, hlabmem t, hkeymem t]
    have hndM₁ : (((Graph.new o₁).preceding_task_count.map
        (fun e => e.1)).filter (fun t => ¬ (aGet? d₁ t).isSome)).Nodup :=
      (tasksOf_nodup o₁).filter _
    have hndM₂ : (((Graph.new o₂).preceding_task_count.map
        (fun e => e.1)).filter (fun t => ¬ (aGet? d₂ t).isSome)).Nodup :=
      (tasksOf_nodup o₂).filter _
    by_cases hM : ((Graph.new o₁).preceding_task_count.map
        (fun e => e.1)).filter (fun t => ¬ (aGet? d₁ t).isSome) ≠ []
    · have hM₂ : ((Graph.new o₂).preceding_task_count.map
          (fun e => e.1)).filter (fun t => ¬ (aGet? d₂ t).isSome) ≠ [] := by
        obtain ⟨t, ht⟩ := List.exists_mem_of_ne_nil _ hM
        exact List.ne_nil_of_mem ((hMmem t).1 ht)
      rw [analyze_eq_missingD h1 hM, analyze_eq_missingD h1' hM₂]
      rw [sortLabels_unique hndM₁ hndM₂ hMmem]
    · have hM0 := not_ne_iff.1 hM
      have hM₂0 : ((Graph.new o₂).preceding_task_count.map
          (fun e => e.1)).filter (fun t => ¬ (aGet? d₂ t).isSome) = [] := by
        rw [List.eq_nil_iff_forall_not_mem]
        intro t ht
        have h2 := (hMmem t).2 ht
        rw [hM0] at h2
        exact List.not_mem_nil _ h2
      have htaskmem : ∀ t, t ∈ tasksOf o₁ ↔ t ∈ tasksOf o₂ := by
        intro t
        rw [mem_tasksOf, mem_tasksOf]
        exact hlabmem t
      have htl : (tasksOf o₁).length = (tasksOf o₂).length := by
        have hfs : (tasksOf o₁).toFinset = (tasksOf o₂).toFinset := by
          ext t
          rw [List.mem_toFinset, List.mem_toFinset]
          exact htaskmem t
        rw [← List.toFinset_card_of_nodup (tasksOf_nodup o₁),
          ← List.toFinset_card_of_nodup (tasksOf_nodup o₂), hfs]
      have hpcl : (Graph.new o₁).preceding_task_count.length =
          (Graph.new o₂).preceding_task_count.length := by
        have a1 : (tasksOf o₁).length =
            (Graph.new o₁).preceding_task_count.length := List.length_map _ _
        have a2 : (tasksOf o₂).length =
            (Graph.new o₂).preceding_task_count.length := List.length_map _ _
        omega
      have hdl : d₁.length = d₂.length := hdp.length_eq
      by_cases hL : d₁.length ≠ (Graph.new o₁).preceding_task_count.length
      · have hL₂ : d₂.length ≠ (Graph.new o₂).preceding_task_count.length := by
          omega
        rw [analyze_eq_missingO h1 hM0 hL, analyze_eq_missingO h1' hM₂0 hL₂]
        have hKmem : ∀ t,
            (t ∈ (d₁.map (fun e => e.1)).filter
              (fun t => ¬ (aGet? (Graph.new o₁).preceding_task_count t).isSome)) ↔
            (t ∈ (d₂.map (fun e => e.1)).filter
              (fun t => ¬ (aGet? (Graph.new o₂).preceding_task_count t).isSome)) := by
          intro t
          rw [missingO_mem, missingO_mem, hkeymem t, hlabmem t]
        have hndK₁ : ((d₁.map (fun e => e.1)).filter
            (fun t => ¬ (aGet? (Graph.new o₁).preceding_task_count t).isSome)).Nodup :=
          hdnd.filter _
        have hndK₂ : ((d₂.map (fun e => e.1)).filter
            (fun t => ¬ (aGet? (Graph.new o₂).preceding_task_count t).isSome)).Nodup :=
          hdnd₂.filter _
        rw [sortLabels_unique hndK₁ hndK₂ hKmem]
      · have hLe := not_ne_iff.1 hL
        have hLe₂ : d₂.length = (Graph.new o₂).preceding_task_count.length := by
          omega
        have hseediff :
            ((seedQueue d₁ (Graph.new o₁).preceding_task_count).1 = []) ↔
            ((seedQueue d₂ (Graph.new o₂).preceding_task_count).1 = []) := by
          rw [seed_empty_iff hnd, seed_empty_iff hnd₂]
          constructor
          · intro h v hv
            rw [← predsF_perm hop]
            exact h v ((hlabmem v).2 hv)
          · intro h v hv
            rw [predsF_perm hop]
            exact h v ((hlabmem v).1 hv)
        by_cases hS : (seedQueue d₁ (Graph.new o₁).preceding_task_count).1 = []
        · have hS₂ := hseediff.1 hS
          rw [analyze_eq_seedEmpty h1 hM0 hLe hS,
            analyze_eq_seedEmpty h1' hM₂0 hLe₂ hS₂]
        · have hS₂ : ¬ (seedQueue d₂ (Graph.new o₂).preceding_task_count).1 = [] :=
            fun hc => hS (hseediff.2 hc)
          rw [analyze_eq_run h1 hM0 hLe hS, analyze_eq_run h1' hM₂0 hLe₂ hS₂]
          have hcyiff := hasCycle_perm hop
          by_cases hcy : HasCycle o₁
          · rw [if_neg (fun hc => (counts_zero_iff hnd).1 hc hcy),
              if_neg (fun hc => (counts_zero_iff hnd₂).1 hc (hcyiff.1 hcy))]
          · have hcy₂ : ¬ HasCycle o₂ := fun hc => hcy (hcyiff.2 hc)
            rw [if_pos ((counts_zero_iff hnd).2 hcy),
              if_pos ((counts_zero_iff hnd₂).2 hcy₂)]
            obtain ⟨P₁, hinv₁, hqe₁⟩ := @finalState_inv o₁ d₁ hnd
            obtain ⟨P₂, hinv₂, hqe₂⟩ := @finalState_inv o₂ d₂ hnd₂
            have hTne₁ : tasksOf o₁ ≠ [] := by
              intro hT
              refine hS ?_
              rw [List.map_eq_nil_iff.1 hT]
              rfl
            have hTne₂ : tasksOf o₂ ≠ [] := by
              intro hT
              refine hS₂ ?_
              rw [List.map_eq_nil_iff.1 hT]
              rfl
            obtain ⟨hmem₁, hnodup₁, hgr₁⟩ := critical_set hcy hinv₁ hqe₁ hTne₁
            obtain ⟨hmem₂, hnodup₂, hgr₂⟩ := critical_set hcy₂ hinv₂ hqe₂ hTne₂
            have hpw := pathWeight_perm hdp hdnd
            have hset : {w | ∃ p, IsSourceSinkPath o₁ p ∧
                pathWeight d₁ p = w} = {w | ∃ p, IsSourceSinkPath o₂ p ∧
                pathWeight d₂ p = w} := by
              ext w
              constructor
              · rintro ⟨p, hp, hw⟩
                refine ⟨p, (ssp_perm hop p).1 hp, ?_⟩
                rw [← hpw]
                exact hw
              · rintro ⟨p, hp, hw⟩
                refine ⟨p, (ssp_perm hop p).2 hp, ?_⟩
                rw [hpw]
                exact hw
            have hmct : maxOr0 ((finalState o₁ d₁).sinks.map
                (fun t => aGet! (finalState o₁ d₁).longest t)) =
              maxOr0 ((finalState o₂ d₂).sinks.map
                (fun t => aGet! (finalState o₂ d₂).longest t)) := by
              rw [hset] at hgr₁
              exact hgr₁.unique hgr₂
            have htc : (finalState o₁ d₁).counts.length =
                (finalState o₂ d₂).counts.length := by
              have e1 : (finalState o₁ d₁).counts.length = (tasksOf o₁).length := by
                rw [← hinv₁.ckeys, List.length_map]
              have e2 : (finalState o₂ d₂).counts.length = (tasksOf o₂).length := by
                rw [← hinv₂.ckeys, List.length_map]
              omega
            have hcpl : sortL pathLe (((finalState o₁ d₁).sinks.filter
                (fun t => aGet! (finalState o₁ d₁).longest t =
                  maxOr0 ((finalState o₁ d₁).sinks.map
                    (fun t => aGet! (finalState o₁ d₁).longest t)))).flatMap
                (fun t => (construct_paths (finalState o₁ d₁).parents
                  ((finalState o₁ d₁).parents.length + 1) [] t).map
                    List.reverse)) =
              sortL pathLe (((finalState o₂ d₂).sinks.filter
                (fun t => aGet! (finalState o₂ d₂).longest t =
                  maxOr0 ((finalState o₂ d₂).sinks.map
                    (fun t => aGet! (finalState o₂ d₂).longest t)))).flatMap
                (fun t => (construct_paths (finalState o₂ d₂).parents
                  ((finalState o₂ d₂).parents.length + 1) [] t).map
                    List.reverse)) := by
              refine pairwise_nodup_unique (fun p q => pathLe_antisymm) _ _
                (sortL_pairwise pathLe_total (fun _ _ _ => pathLe_trans) _)
                (sortL_pairwise pathLe_total (fun _ _ _ => pathLe_trans) _)
                ((sortL_perm _ _).nodup_iff.2 hnodup₁)
                ((sortL_perm _ _).nodup_iff.2 hnodup₂) ?_
              intro p
              rw [(sortL_perm _ _).mem_iff, (sortL_perm _ _).mem_iff,
                hmem₁ p, hmem₂ p, ssp_perm hop p, hpw, hmct]
            have hmct' : (find_critical_paths (finalState o₁ d₁).parents
                (finalState o₁ d₁).longest (finalState o₁ d₁).sinks).2 =
              (find_critical_paths (finalState o₂ d₂).parents
                (finalState o₂ d₂).longest (finalState o₂ d₂).sinks).2 := by
              rw [find_critical_paths_eq, find_critical_paths_eq]
              exact hmct
            have hcp' : (find_critical_paths (finalState o₁ d₁).parents
                (finalState o₁ d₁).longest (finalState o₁ d₁).sinks).1 =
              (find_critical_paths (finalState o₂ d₂).parents
                (finalState o₂ d₂).longest (finalState o₂ d₂).sinks).1 := by
              rw [find_critical_paths_eq, find_critical_paths_eq]
              exact hcpl
            simp only [Except.map]
            rw [htc, hmct', hcp']

theorem claim_C7_witness :
    (analyze_schedule [⟨"K", none⟩, ⟨"A", some "B"⟩, ⟨"A", some "C"⟩]
      [("A", 0), ("B", 0), ("C", 0), ("K", 0)]).map
      (fun a => (a.task_count, a.minimum_completion_time,
        a.critical_path_count, a.critical_paths)) =
    (analyze_schedule [⟨"A", some "B"⟩, ⟨"A", some "C"⟩, ⟨"K", none⟩]
      [("A", 0), ("B", 0), ("C", 0), ("K", 0)]).map
      (fun a => (a.task_count, a.minimum_completion_time,
        a.critical_path_count, a.critical_paths)) :=
  claim_C7 [⟨"K", none⟩, ⟨"A", some "B"⟩, ⟨"A", some "C"⟩]
    [⟨"A", some "B"⟩, ⟨"A", some "C"⟩, ⟨"K", none⟩]
    [("A", 0), ("B", 0), ("C", 0), ("K", 0)]
    [("A", 0), ("B", 0), ("C", 0), ("K", 0)]
    (by decide) (by decide) (by decide) (by decide)
